import Mathlib

/-!
# random_helper: weighted random samplers

A shallow embedding of `random_helper.hpp` (namespace `inlay::random`) and the
properties of its three samplers.

Conventions of the embedding

* `double` is the type `Double` below: IEEE 754 binary64 with round to nearest, ties to
  even, infinities and NaN.  The two zeros are not told apart; the only divisor of the
  source, `sum_prod`, is a sum that starts from `0.0` and so is never `-0.0`.
* `size_t` is 64-bit, `prod_type` is the default `uint32_t`; wrap-around is written
  with an explicit `%`.
* `std::vector` is `List`, `std::queue` is `List` (front = head, push = append).
* The sentinel `std::numeric_limits<size_t>::max()` of an alias entry is `none`,
  an alias index `l` is `some l`.
* A thrown exception is a constructor of `Outcome`; an out-of-range `operator[]`
  is `none`.
* The namespace `rational` holds the alias construction carried out in exact rational
  arithmetic.  It is not the code: it is the reference that the statements about
  exactness compare the `double` computation with.
-/

namespace inlay.random

/-! ## Random source -/

/-- State of `std::default_random_engine`.  The engine is library code: its state is
embedded as the stream of raw words it is still going to produce. -/
structure engine where
  out : Nat → Nat

/-- One raw word of the engine, and the advanced engine. -/
def engine.next (e : engine) : Nat × engine :=
  (e.out 0, ⟨fun k => e.out (k + 1)⟩)

/-- Library call `std::uniform_int_distribution<tt>(a, b)(rng)`, embedded by its
contract: a value of the closed interval `[a, b]` determined by the next raw word. -/
def uniform_int_distribution (a b : Nat) (e : engine) : Nat × engine :=
  (a + (e.next).1 % (b - a + 1), (e.next).2)

/-- Integral instance of `range(min_value, max_value, rng)`: reversed bounds are
swapped, then one uniform draw is made. -/
def range (min_value max_value : Nat) (rng : engine) : Nat × engine :=
  if min_value > max_value then
    uniform_int_distribution max_value min_value rng
  else
    uniform_int_distribution min_value max_value rng

/-! ## Outcomes of a constructor -/

/-- Result of running a sampler constructor. -/
inductive Outcome (σ : Type) where
  /-- the constructor returned and the instance exists -/
  | ok (s : σ)
  /-- the exception `std::invalid_argument` was thrown -/
  | invalid_argument
  /-- the exception `std::runtime_error` was thrown -/
  | runtime_error
deriving DecidableEq

/-! ## The type double -/

/-- Values of the type `double`, IEEE 754 binary64: a finite value is given by the
rational number it denotes.  Every operation below returns a value that rounding
produced; a statement about all terms of this type also covers the terms `finite q`
whose `q` no `double` denotes. -/
inductive Double where
  | finite (q : ℚ)
  | pos_inf
  | neg_inf
  | nan
deriving DecidableEq

namespace Double

/-- The number of binary digits of `n`, computed in at most `bound` halvings. -/
def bit_length : Nat → Nat → Nat
  | 0, _ => 0
  | bound + 1, n => if n = 0 then 0 else bit_length bound (n / 2) + 1

/-- The integer `e` with `2 ^ e ≤ a / b < 2 ^ (e + 1)`, for positive `a` and `b`: the
difference of the bit lengths, or one less. -/
def binade (a b : Nat) : Int :=
  if 0 ≤ (bit_length a a : Int) - (bit_length b b : Int) then
    if b * 2 ^ ((bit_length a a : Int) - (bit_length b b : Int)).toNat ≤ a then
      (bit_length a a : Int) - (bit_length b b : Int)
    else
      (bit_length a a : Int) - (bit_length b b : Int) - 1
  else
    if b ≤ a * 2 ^ (-((bit_length a a : Int) - (bit_length b b : Int))).toNat then
      (bit_length a a : Int) - (bit_length b b : Int)
    else
      (bit_length a a : Int) - (bit_length b b : Int) - 1

/-- The integer nearest to `N / D`, the even one when two are nearest. -/
def round_half_even (N D : Nat) : Nat :=
  if 2 * (N % D) < D then N / D
  else if D < 2 * (N % D) then N / D + 1
  else if (N / D) % 2 = 0 then N / D
  else N / D + 1

/-- The number `n * 2 ^ k`. -/
def scale2 (n : Nat) (k : Int) : ℚ :=
  if 0 ≤ k then ((n * 2 ^ k.toNat : Nat) : ℚ) else mkRat n (2 ^ (-k).toNat)

/-- The significand of the rounding of `a / b` in units of `2 ^ k`. -/
def significand (a b : Nat) (k : Int) : Nat :=
  if 0 ≤ k then round_half_even a (b * 2 ^ k.toNat)
  else round_half_even (a * 2 ^ (-k).toNat) b

/-- The exponent of the unit in the last place of the binade of `a / b`: 53
significant bits, and no binade below `2 ^ (-1022)` (subnormal numbers). -/
def ulp_exponent (a b : Nat) : Int :=
  max (binade a b) (-1022) - 52

/-- Rounding of an exact result to `double`: round to nearest, ties to even; a result
of magnitude `2 ^ 1024` or more is infinite. -/
def round (q : ℚ) : Double :=
  if q = 0 then finite 0
  else if scale2 1 1024 ≤
      scale2 (significand q.num.natAbs q.den (ulp_exponent q.num.natAbs q.den))
        (ulp_exponent q.num.natAbs q.den) then
    if 0 < q then pos_inf else neg_inf
  else if 0 < q then
    finite (scale2 (significand q.num.natAbs q.den (ulp_exponent q.num.natAbs q.den))
      (ulp_exponent q.num.natAbs q.den))
  else
    finite (- scale2 (significand q.num.natAbs q.den (ulp_exponent q.num.natAbs q.den))
      (ulp_exponent q.num.natAbs q.den))

/-- The literal `0.0`. -/
def zero : Double := finite 0

/-- The literal `1.0`. -/
def one : Double := finite 1

/-- Conversion of an unsigned integer to `double`. -/
def of_nat (n : Nat) : Double := round n

/-- Unary minus. -/
def neg : Double → Double
  | finite q => finite (-q)
  | pos_inf => neg_inf
  | neg_inf => pos_inf
  | nan => nan

/-- Addition of two `double`. -/
def add : Double → Double → Double
  | finite a, finite b => round (a + b)
  | nan, _ => nan
  | _, nan => nan
  | pos_inf, neg_inf => nan
  | neg_inf, pos_inf => nan
  | pos_inf, _ => pos_inf
  | _, pos_inf => pos_inf
  | neg_inf, _ => neg_inf
  | _, neg_inf => neg_inf

/-- Subtraction of two `double`. -/
def sub (a b : Double) : Double := add a (neg b)

/-- Multiplication of two `double`. -/
def mul : Double → Double → Double
  | finite a, finite b => round (a * b)
  | nan, _ => nan
  | _, nan => nan
  | pos_inf, finite b => if b = 0 then nan else if 0 < b then pos_inf else neg_inf
  | neg_inf, finite b => if b = 0 then nan else if 0 < b then neg_inf else pos_inf
  | finite a, pos_inf => if a = 0 then nan else if 0 < a then pos_inf else neg_inf
  | finite a, neg_inf => if a = 0 then nan else if 0 < a then neg_inf else pos_inf
  | pos_inf, pos_inf => pos_inf
  | pos_inf, neg_inf => neg_inf
  | neg_inf, pos_inf => neg_inf
  | neg_inf, neg_inf => pos_inf

/-- Division of two `double`; a zero divisor is `+0.0`. -/
def div : Double → Double → Double
  | finite a, finite b =>
    if b = 0 then (if a = 0 then nan else if 0 < a then pos_inf else neg_inf)
    else round (a / b)
  | nan, _ => nan
  | _, nan => nan
  | finite _, pos_inf => finite 0
  | finite _, neg_inf => finite 0
  | pos_inf, finite b => if 0 ≤ b then pos_inf else neg_inf
  | neg_inf, finite b => if 0 ≤ b then neg_inf else pos_inf
  | pos_inf, pos_inf => nan
  | pos_inf, neg_inf => nan
  | neg_inf, pos_inf => nan
  | neg_inf, neg_inf => nan

/-- Library call `std::fabs`. -/
def fabs : Double → Double
  | finite q => finite |q|
  | pos_inf => pos_inf
  | neg_inf => pos_inf
  | nan => nan

/-- Comparison `a < b`; false when an operand is NaN. -/
def lt : Double → Double → Bool
  | nan, _ => false
  | _, nan => false
  | finite a, finite b => decide (a < b)
  | finite _, pos_inf => true
  | finite _, neg_inf => false
  | pos_inf, _ => false
  | neg_inf, neg_inf => false
  | neg_inf, _ => true

/-- Comparison `a <= b`; false when an operand is NaN. -/
def le : Double → Double → Bool
  | nan, _ => false
  | _, nan => false
  | finite a, finite b => decide (a ≤ b)
  | finite _, pos_inf => true
  | finite _, neg_inf => false
  | pos_inf, pos_inf => true
  | pos_inf, _ => false
  | neg_inf, _ => true

/-- Comparison `a > b`. -/
def gt (a b : Double) : Bool := lt b a

/-- Comparison `a >= b`. -/
def ge (a b : Double) : Bool := le b a

/-- The rational number a finite `double` denotes; `0` for the others. -/
def value : Double → ℚ
  | finite q => q
  | _ => 0

/-- The rational numbers `z / 2 ^ t` with `|z| < 2 ^ 53` and `t ≤ 1074`.  Each of them
is a value of the type `double` (`round_dyadic`). -/
def dyadic (q : ℚ) : Prop :=
  ∃ (z : Int) (t : Nat), z.natAbs < 2 ^ 53 ∧ t ≤ 1074 ∧ q = (z : ℚ) / 2 ^ t

end Double

/-- Library call `std::uniform_real_distribution<double>{0.0, 1.0}(rng)`, embedded by
its contract: a value of `[0, 1)` determined by the next raw word. -/
def uniform_real_distribution (e : engine) : Double × engine :=
  (Double.finite ((((e.next).1 % 2 ^ 53 : Nat) : ℚ) / 2 ^ 53), (e.next).2)

/-! ## Alias sampler -/

/-- The constant `std::numeric_limits<double>::epsilon()`. -/
def epsilon : Double := Double.finite (1 / 2 ^ 52)

/-- Library call `std::accumulate(first, last, init)` over doubles. -/
def accumulate (xs : List Double) (init : Double) : Double :=
  xs.foldl (fun acc x => Double.add acc x) init

/-- Entry of the alias table, `std::pair<double, size_t>`. -/
abbrev AliasEntry := Double × Option Nat

/-- Subscript `alias[i]` of the source; the default is never read on the paths of the
source. -/
def entry (table : List AliasEntry) (i : Nat) : AliasEntry :=
  table.getD i (Double.zero, none)

/-- Local state of `generate_alias_table`: the table and the two queues. -/
structure AliasState where
  table : List AliasEntry
  small : List Nat
  large : List Nat
deriving DecidableEq

/-- First loop of `generate_alias_table`: scale every probability by `sz` and file
its index in `small` or `large`. -/
def scale_loop (sz : Nat) : List Double → Nat → AliasState → AliasState
  | [], _, st => st
  | p :: rest, i, st =>
    if Double.lt (entry (st.table.set i
        (Double.mul (Double.of_nat sz) p, (entry st.table i).2)) i).1 Double.one then
      scale_loop sz rest (i + 1)
        ⟨st.table.set i (Double.mul (Double.of_nat sz) p, (entry st.table i).2),
          st.small ++ [i], st.large⟩
    else
      scale_loop sz rest (i + 1)
        ⟨st.table.set i (Double.mul (Double.of_nat sz) p, (entry st.table i).2),
          st.small, st.large ++ [i]⟩

/-- Body of the pairing loop up to the re-filing: `alias[s].second = l` and
`alias[l].first -= (1.0 - alias[s].first)`. -/
def pair_entries (table : List AliasEntry) (s l : Nat) : List AliasEntry :=
  (table.set s ((entry table s).1, some l)).set l
    (Double.sub (entry (table.set s ((entry table s).1, some l)) l).1
      (Double.sub Double.one (entry (table.set s ((entry table s).1, some l)) s).1),
     (entry (table.set s ((entry table s).1, some l)) l).2)

/-- One iteration of the pairing loop of `generate_alias_table`; `none` when the loop
condition `!small.empty() and !large.empty()` is false. -/
def pairing_step : AliasState → Option AliasState
  | ⟨table, s :: small, l :: large⟩ =>
    if Double.lt (entry (pair_entries table s l) l).1 Double.one then
      some ⟨pair_entries table s l, small ++ [l], large⟩
    else
      some ⟨pair_entries table s l, small, large ++ [l]⟩
  | _ => none

/-- The `while (!small.empty() and !large.empty())` loop of `generate_alias_table`.
The first argument bounds the number of iterations; the number of table entries is
enough (`pairing_steps_terminate`). -/
def pairing_loop : Nat → AliasState → AliasState
  | 0, st => st
  | bound + 1, st =>
    match pairing_step st with
    | none => st
    | some st1 => pairing_loop bound st1

/-- The state after exactly `k` iterations of the pairing loop; `none` when the loop
has stopped before. -/
def pairing_steps : Nat → AliasState → Option AliasState
  | 0, st => some st
  | k + 1, st => (pairing_step st).bind (pairing_steps k)

/-- Member function `generate_alias_table(ps, pe)`. -/
def generate_alias_table (ps : List Double) : List AliasEntry :=
  (pairing_loop ps.length
    (scale_loop ps.length ps 0 ⟨List.replicate ps.length (Double.zero, none), [], []⟩)).table

/-- Data members of `weight_faster_alias` that the draw reads; `_int_dis` is kept as
its upper bound, the lower bound being `0`. -/
structure AliasSampler (α : Type) where
  _values : List α
  _alias : List AliasEntry
  _int_dis : Nat
deriving DecidableEq

/-- The local `reprods` of the constructor of `weight_faster_alias`: the weights
divided by their sum when the sum is more than epsilon away from `1.0`, the weights
themselves otherwise. -/
def reprods (ps : List Double) : List Double :=
  if Double.gt (Double.fabs (Double.sub Double.one (accumulate ps Double.zero))) epsilon then
    ps.map (fun p => Double.div p (accumulate ps Double.zero))
  else
    ps

/-- The local `re_sum_prod` of the constructor of `weight_faster_alias`. -/
def re_sum_prod (ps : List Double) : Double :=
  accumulate (reprods ps) Double.zero

/-- Constructor of `weight_faster_alias`. -/
def weight_faster_alias {α : Type} (vs : List α) (ps : List Double) :
    Outcome (AliasSampler α) :=
  if vs.length = 0 ∨ vs.length ≠ ps.length then
    Outcome.invalid_argument
  else if Double.ge (Double.fabs (Double.sub Double.one (re_sum_prod ps))) epsilon then
    Outcome.runtime_error
  else
    Outcome.ok ⟨vs, generate_alias_table (reprods ps), (ps.length + 2 ^ 64 - 1) % 2 ^ 64⟩

/-- Draw `weight_faster_alias::operator()`: the index drawn first, then the real; the
result is `none` when a subscript of the source is out of range. -/
def AliasSampler.call {α : Type} (s : AliasSampler α) (rng : engine) : Option α × engine :=
  if Double.ge (uniform_real_distribution (uniform_int_distribution 0 s._int_dis rng).2).1
        (entry s._alias (uniform_int_distribution 0 s._int_dis rng).1).1 ∧
      (entry s._alias (uniform_int_distribution 0 s._int_dis rng).1).2 ≠ none then
    (((entry s._alias (uniform_int_distribution 0 s._int_dis rng).1).2).bind
        (fun l => (s._values)[l]?),
      (uniform_real_distribution (uniform_int_distribution 0 s._int_dis rng).2).2)
  else
    ((s._values)[(uniform_int_distribution 0 s._int_dis rng).1]?,
      (uniform_real_distribution (uniform_int_distribution 0 s._int_dis rng).2).2)


/-- Invariant of the pairing loop of `generate_alias_table` on a table of `n` entries.
It holds whichever way the comparisons with `1.0` go. -/
structure QueueInv (n : Nat) (st : AliasState) : Prop where
  len : st.table.length = n
  nodup : (st.small ++ st.large).Nodup
  bound : ∀ i ∈ st.small ++ st.large, i < n
  small_lt : ∀ i ∈ st.small, Double.lt (entry st.table i).1 Double.one = true
  large_ge : ∀ i ∈ st.large, Double.lt (entry st.table i).1 Double.one = false
  queued_none : ∀ i ∈ st.small ++ st.large, (entry st.table i).2 = none
  done_some : ∀ i, i < n → i ∉ st.small ++ st.large →
    ∃ l, (entry st.table i).2 = some l ∧ l < n ∧ l ≠ i ∧
      Double.lt (entry st.table i).1 Double.one = true

/-- Invariant of the first loop of `generate_alias_table` when it is about to handle
index `i` of the input `ps`. -/
def ScaleInv (sz : Nat) (ps : List Double) (i : Nat) (st : AliasState) : Prop :=
  i ≤ ps.length ∧ st.table.length = ps.length ∧
    (∀ j, j < i →
      entry st.table j = (Double.mul (Double.of_nat sz) (ps.getD j Double.zero), none)) ∧
    (∀ j, (entry st.table j).2 = none) ∧
    (st.small ++ st.large).Perm (List.range i) ∧
    (∀ j ∈ st.small, Double.lt (entry st.table j).1 Double.one = true) ∧
    (∀ j ∈ st.large, Double.lt (entry st.table j).1 Double.one = false)

/-- The rational number a cutoff of the table denotes. -/
def cutoff (table : List AliasEntry) (i : Nat) : ℚ :=
  Double.value (entry table i).1

/-- Probability that the draw rule of `operator()` returns index `j`, for cutoffs in
`[0, 1]`: index `i` is drawn with probability `1 / n`; it is kept with probability
`cutoff[i]` (always, when it has no alias) and redirected to its alias otherwise. -/
def draw_mass (table : List AliasEntry) (j : Nat) : ℚ :=
  (1 / (table.length : ℚ)) *
    ((if (entry table j).2 = none then 1 else cutoff table j) +
      ∑ i in Finset.range table.length,
        if (entry table i).2 = some j then 1 - cutoff table i else 0)

/-! ## The alias table in exact arithmetic

The same two loops over the rational numbers.  Nothing here is code of the sampler:
it is what the table would be if no operation of `generate_alias_table` rounded. -/

namespace rational

/-- Entry of the table in exact arithmetic. -/
abbrev AliasEntry := ℚ × Option Nat

/-- Subscript `alias[i]` on a table in exact arithmetic. -/
def entry (table : List AliasEntry) (i : Nat) : AliasEntry :=
  table.getD i (0, none)

/-- The table and the two queues, in exact arithmetic. -/
structure AliasState where
  table : List AliasEntry
  small : List Nat
  large : List Nat

/-- First loop of `generate_alias_table` in exact arithmetic. -/
def scale_loop (sz : Nat) : List ℚ → Nat → AliasState → AliasState
  | [], _, st => st
  | p :: rest, i, st =>
    let table := st.table.set i ((sz : ℚ) * p, (entry st.table i).2)
    if (entry table i).1 < 1 then
      scale_loop sz rest (i + 1) ⟨table, st.small ++ [i], st.large⟩
    else
      scale_loop sz rest (i + 1) ⟨table, st.small, st.large ++ [i]⟩

/-- Body of the pairing loop up to the re-filing, in exact arithmetic. -/
def pair_entries (table : List AliasEntry) (s l : Nat) : List AliasEntry :=
  let table1 := table.set s ((entry table s).1, some l)
  table1.set l ((entry table1 l).1 - (1 - (entry table1 s).1), (entry table1 l).2)

/-- The pairing loop of `generate_alias_table` in exact arithmetic. -/
def pairing_loop : AliasState → AliasState
  | ⟨table, s :: small, l :: large⟩ =>
    let table2 := pair_entries table s l
    if (entry table2 l).1 < 1 then
      pairing_loop ⟨table2, small ++ [l], large⟩
    else
      pairing_loop ⟨table2, small, large ++ [l]⟩
  | st => st
termination_by st => st.small.length + st.large.length
decreasing_by
  all_goals simp_wf

/-- The table of `generate_alias_table` in exact arithmetic. -/
def generate_alias_table (ps : List ℚ) : List AliasEntry :=
  (pairing_loop
    (scale_loop ps.length ps 0 ⟨List.replicate ps.length (0, none), [], []⟩)).table

/-- The formula of `draw_mass` on a table in exact arithmetic. -/
def draw_mass (table : List AliasEntry) (j : Nat) : ℚ :=
  (1 / (table.length : ℚ)) *
    ((if (entry table j).2 = none then 1 else (entry table j).1) +
      ∑ i in Finset.range table.length,
        if (entry table i).2 = some j then 1 - (entry table i).1 else 0)

/-- Invariant of the pairing loop in exact arithmetic, for a table of `n` entries
whose scaled probabilities were `q 0, …, q (n - 1)` when the loop started. -/
structure PairingInv (n : Nat) (q : Nat → ℚ) (st : AliasState) : Prop where
  len : st.table.length = n
  nodup : (st.small ++ st.large).Nodup
  bound : ∀ i ∈ st.small ++ st.large, i < n
  small_lt : ∀ i ∈ st.small, (entry st.table i).1 < 1
  large_ge : ∀ i ∈ st.large, 1 ≤ (entry st.table i).1
  queued_none : ∀ i ∈ st.small ++ st.large, (entry st.table i).2 = none
  done_some : ∀ i, i < n → i ∉ st.small ++ st.large →
    ∃ l, (entry st.table i).2 = some l ∧ l < n ∧ l ≠ i ∧ (entry st.table i).1 < 1
  mass : ∀ j, j < n →
    (entry st.table j).1 +
      (∑ i in Finset.range n,
        if (entry st.table i).2 = some j then 1 - (entry st.table i).1 else 0) = q j
  excess : ((st.small ++ st.large).map (fun i => (entry st.table i).1 - 1)).sum =
    (∑ j in Finset.range n, q j) - n
  nonneg : (∀ j, j < n → 0 ≤ q j) → ∀ j, j < n → 0 ≤ (entry st.table j).1

/-- Invariant of the first loop in exact arithmetic when it is about to handle index
`i` of the input `ps`. -/
def ScaleInv (sz : Nat) (ps : List ℚ) (i : Nat) (st : AliasState) : Prop :=
  i ≤ ps.length ∧ st.table.length = ps.length ∧
    (∀ j, j < i → entry st.table j = ((sz : ℚ) * ps.getD j 0, none)) ∧
    (∀ j, (entry st.table j).2 = none) ∧
    (st.small ++ st.large).Perm (List.range i) ∧
    (∀ j ∈ st.small, (entry st.table j).1 < 1) ∧
    (∀ j ∈ st.large, 1 ≤ (entry st.table j).1)

/-- Every cutoff of the table is a multiple of `2 ^ (-a)` between `0` and `n`. -/
def on_grid (n a : Nat) (table : List AliasEntry) : Prop :=
  ∀ j, ∃ m : Nat, m ≤ n * 2 ^ a ∧ (entry table j).1 = (m : ℚ) / 2 ^ a

end rational

/-- The table of doubles whose cutoffs denote the cutoffs of a table in exact
arithmetic. -/
def of_exact (table : List rational.AliasEntry) : List AliasEntry :=
  table.map (fun e => (Double.finite e.1, e.2))

/-- The state of `generate_alias_table` that denotes a state in exact arithmetic. -/
def state_of_exact (st : rational.AliasState) : AliasState :=
  ⟨of_exact st.table, st.small, st.large⟩

/-! ## Expansion sampler -/

/-- Data members of `weight_faster_expansion`. -/
structure ExpansionSampler (α : Type) where
  _values : List α

/-- The filling loop of the constructor: while both iterators are inside their range,
`_values.insert(_values.end(), *iter_p, *iter_v)`. -/
def expansion_loop {α : Type} : List α → List Nat → List α → List α
  | v :: vs, p :: ps, _values => expansion_loop vs ps (_values ++ List.replicate p v)
  | _, _, _values => _values

/-- Constructor of `weight_faster_expansion` (the local `sum_prod` is never read). -/
def weight_faster_expansion {α : Type} (vs : List α) (ps : List Nat) :
    Outcome (ExpansionSampler α) :=
  if vs.length = 0 ∨ vs.length ≠ ps.length then
    Outcome.invalid_argument
  else
    Outcome.ok ⟨expansion_loop vs ps []⟩

/-- Draw `weight_faster_expansion::operator()`; `_values.size() - 1` is computed in
`size_t`. -/
def ExpansionSampler.call {α : Type} (s : ExpansionSampler α) (rng : engine) :
    Option α × engine :=
  let d := range 0 ((s._values.length + 2 ^ 64 - 1) % 2 ^ 64) rng
  ((s._values)[d.1]?, d.2)

/-! ## Binary sampler -/

/-- Data members of `weight_faster_binary`. -/
structure BinarySampler (α : Type) where
  _values : List α
  _prods : List Nat

/-- The running-sum loop of the constructor: `last_sum += *iter` in `uint32_t`, then
`_prods.push_back(last_sum)`. -/
def prods_loop : List Nat → Nat → List Nat → List Nat
  | [], _, _prods => _prods
  | p :: ps, last_sum, _prods =>
    prods_loop ps ((last_sum + p) % 2 ^ 32) (_prods ++ [(last_sum + p) % 2 ^ 32])

/-- Constructor of `weight_faster_binary`. -/
def weight_faster_binary {α : Type} (vs : List α) (ps : List Nat) :
    Outcome (BinarySampler α) :=
  if vs.length = 0 ∨ vs.length ≠ ps.length then
    Outcome.invalid_argument
  else
    Outcome.ok ⟨vs, prods_loop ps 0 []⟩

/-- The loop of the library function `std::lower_bound`, a bisection: while
`count > 0`, look at the element `count / 2` places after `first`; if it is less than
`value`, go on behind it, else go on with the places before it.  The first argument
bounds the number of iterations. -/
def lower_bound_loop (xs : List Nat) (value : Nat) : Nat → Nat → Nat → Nat
  | 0, first, _ => first
  | bound + 1, first, count =>
    if 0 < count then
      if xs.getD (first + count / 2) 0 < value then
        lower_bound_loop xs value bound (first + count / 2 + 1) (count - (count / 2 + 1))
      else
        lower_bound_loop xs value bound first (count / 2)
    else
      first

/-- Library call `std::lower_bound(first, last, value) - first`.  The length of the
sequence bounds the number of iterations, which stop within `count`
(`lower_bound_loop_bound`). -/
def lower_bound (xs : List Nat) (value : Nat) : Nat :=
  lower_bound_loop xs value xs.length 0 xs.length

/-- The position `std::lower_bound` is specified to return on a sequence partitioned
by `< value`: the first position whose element is not less than `value`, the length
of the sequence if there is none. -/
def first_not_less : List Nat → Nat → Nat
  | [], _ => 0
  | x :: xs, value => if x < value then first_not_less xs value + 1 else 0

/-- Last element `_prods.back()`; the vector is never empty after a successful
construction. -/
def back (xs : List Nat) : Nat :=
  xs.getLastD 0

/-- The draw `range(static_cast<prod_type>(1), _prods.back(), _rng)` of
`weight_faster_binary::operator()`. -/
def BinarySampler.rand {α : Type} (s : BinarySampler α) (rng : engine) : Nat × engine :=
  range 1 (back s._prods) rng

/-- Draw `weight_faster_binary::operator()`; the result is `none` when the subscript of
the source is out of range. -/
def BinarySampler.call {α : Type} (s : BinarySampler α) (rng : engine) : Option α × engine :=
  let d := s.rand rng
  let idx := lower_bound s._prods d.1
  ((s._values)[idx]?, d.2)

/-! ## Signed range, ambient engine, repeated draws -/

/-- Library call `std::uniform_int_distribution<tt>(a, b)(rng)` for a signed `tt`,
embedded by its contract like the unsigned one. -/
def uniform_int_distribution_int (a b : Int) (e : engine) : Int × engine :=
  (a + (((e.next).1 % (b - a + 1).toNat : Nat) : Int), (e.next).2)

/-- Signed integral instance of `range(min_value, max_value, rng)`, the one that
`range(1, 10, rng)` selects. -/
def range_int (min_value max_value : Int) (rng : engine) : Int × engine :=
  if min_value > max_value then
    uniform_int_distribution_int max_value min_value rng
  else
    uniform_int_distribution_int min_value max_value rng

/-- Accessor `thread_rng(seed)` of the ambient engine.  The argument `eng` is the
`thread_local std::optional<engine>` before the call; the result is the engine the
returned reference designates and the `thread_local` after the call.  The seeding
constructor of the library engine is the parameter `seeded`; `entropy` stands for the
clock value combined with the thread id. -/
def thread_rng (seeded : Nat → engine) (seed : Option Nat) (entropy : Nat)
    (eng : Option engine) : engine × Option engine :=
  match seed with
  | some s => (seeded s, some (seeded s))
  | none =>
    match eng with
    | some e => (e, some e)
    | none => (seeded (entropy % 2 ^ 32), some (seeded (entropy % 2 ^ 32)))

/-- The outputs of `n` successive calls of a draw on the same engine, and the engine
left behind. -/
def draw_n {β : Type} (call : engine → β × engine) : Nat → engine → List β × engine
  | 0, rng => ([], rng)
  | n + 1, rng => ((call rng).1 :: (draw_n call n (call rng).2).1,
      (draw_n call n (call rng).2).2)

/-! ## What a successful construction stores -/

theorem weight_faster_expansion_ok {α : Type} (vs : List α) (ws : List Nat)
    (s : ExpansionSampler α) (h : weight_faster_expansion vs ws = Outcome.ok s) :
    vs.length = ws.length ∧ vs ≠ [] ∧ s._values = expansion_loop vs ws [] := by
  unfold weight_faster_expansion at h
  split_ifs at h with hc
  cases h
  refine ⟨?_, ?_, rfl⟩
  · by_contra hne
    exact hc (Or.inr hne)
  · intro e
    exact hc (Or.inl (by simp [e]))

theorem weight_faster_binary_ok {α : Type} (vs : List α) (ws : List Nat)
    (s : BinarySampler α) (h : weight_faster_binary vs ws = Outcome.ok s) :
    vs.length = ws.length ∧ vs ≠ [] ∧ s._values = vs ∧ s._prods = prods_loop ws 0 [] := by
  unfold weight_faster_binary at h
  split_ifs at h with hc
  cases h
  refine ⟨?_, ?_, rfl, rfl⟩
  · by_contra hne
    exact hc (Or.inr hne)
  · intro e
    exact hc (Or.inl (by simp [e]))

/-! ## Construction: argument validation -/

/-- C4: for each of the three samplers, either a sequence is empty or the lengths
differ, and then the construction throws `std::invalid_argument` and yields no
instance, or neither is the case, and then `std::invalid_argument` is not thrown. -/
theorem construction_invalid_argument_iff {α : Type} (vs : List α) (qs : List Double)
    (ws : List Nat) :
    (((vs = [] ∨ qs = [] ∨ vs.length ≠ qs.length) ∧
        weight_faster_alias vs qs = Outcome.invalid_argument ∧
        ¬ ∃ s, weight_faster_alias vs qs = Outcome.ok s) ∨
      (¬ (vs = [] ∨ qs = [] ∨ vs.length ≠ qs.length) ∧
        weight_faster_alias vs qs ≠ Outcome.invalid_argument)) ∧
    (((vs = [] ∨ ws = [] ∨ vs.length ≠ ws.length) ∧
        weight_faster_expansion vs ws = Outcome.invalid_argument ∧
        ¬ ∃ s, weight_faster_expansion vs ws = Outcome.ok s) ∨
      (¬ (vs = [] ∨ ws = [] ∨ vs.length ≠ ws.length) ∧
        weight_faster_expansion vs ws ≠ Outcome.invalid_argument)) ∧
    (((vs = [] ∨ ws = [] ∨ vs.length ≠ ws.length) ∧
        weight_faster_binary vs ws = Outcome.invalid_argument ∧
        ¬ ∃ s, weight_faster_binary vs ws = Outcome.ok s) ∨
      (¬ (vs = [] ∨ ws = [] ∨ vs.length ≠ ws.length) ∧
        weight_faster_binary vs ws ≠ Outcome.invalid_argument)) := by
  have key : ∀ {β : Type} (xs : List β),
      (vs = [] ∨ xs = [] ∨ vs.length ≠ xs.length) ↔
        (vs.length = 0 ∨ vs.length ≠ xs.length) := by
    intro β xs
    constructor
    · rintro (h | h | h)
      · left; simp [h]
      · by_cases hv : vs.length = 0
        · left; exact hv
        · right; simpa [h] using hv
      · right; exact h
    · rintro (h | h)
      · left; exact List.length_eq_zero.mp h
      · right; right; exact h
  refine ⟨?_, ?_, ?_⟩
  · by_cases h : vs.length = 0 ∨ vs.length ≠ qs.length
    · left
      have e : weight_faster_alias vs qs = Outcome.invalid_argument := by
        unfold weight_faster_alias; rw [if_pos h]
      exact ⟨(key qs).mpr h, e, by rintro ⟨s, hs⟩; rw [e] at hs; cases hs⟩
    · right
      refine ⟨fun hc => h ((key qs).mp hc), ?_⟩
      unfold weight_faster_alias
      rw [if_neg h]
      split_ifs <;> simp
  · by_cases h : vs.length = 0 ∨ vs.length ≠ ws.length
    · left
      have e : weight_faster_expansion vs ws = Outcome.invalid_argument := by
        unfold weight_faster_expansion; rw [if_pos h]
      exact ⟨(key ws).mpr h, e, by rintro ⟨s, hs⟩; rw [e] at hs; cases hs⟩
    · right
      refine ⟨fun hc => h ((key ws).mp hc), ?_⟩
      unfold weight_faster_expansion
      rw [if_neg h]
      simp
  · by_cases h : vs.length = 0 ∨ vs.length ≠ ws.length
    · left
      have e : weight_faster_binary vs ws = Outcome.invalid_argument := by
        unfold weight_faster_binary; rw [if_pos h]
      exact ⟨(key ws).mpr h, e, by rintro ⟨s, hs⟩; rw [e] at hs; cases hs⟩
    · right
      refine ⟨fun hc => h ((key ws).mp hc), ?_⟩
      unfold weight_faster_binary
      rw [if_neg h]
      simp

/-! ## Expansion sampler -/

theorem expansion_loop_eq {α : Type} (vs : List α) (ws : List Nat) (acc : List α) :
    expansion_loop vs ws acc =
      acc ++ ((vs.zip ws).map (fun p => List.replicate p.2 p.1)).flatten := by
  induction vs generalizing ws acc with
  | nil => simp [expansion_loop]
  | cons v vs ih =>
    cases ws with
    | nil => simp [expansion_loop]
    | cons w ws => simp [expansion_loop, ih]

theorem blocks_length {α : Type} (vs : List α) (ws : List Nat)
    (hlen : vs.length = ws.length) :
    (((vs.zip ws).map (fun p => List.replicate p.2 p.1)).flatten).length = ws.sum := by
  induction vs generalizing ws with
  | nil =>
    cases ws with
    | nil => simp
    | cons w ws => simp at hlen
  | cons v vs ih =>
    cases ws with
    | nil => simp at hlen
    | cons w ws =>
      simp only [List.length_cons, add_left_inj] at hlen
      simp [ih ws hlen]

theorem blocks_getElem? {α : Type} (vs : List α) (ws : List Nat)
    (hlen : vs.length = ws.length) (i k : Nat) (hi : i < ws.length)
    (hk : k < ws.getD i 0) :
    (((vs.zip ws).map (fun p => List.replicate p.2 p.1)).flatten)[(ws.take i).sum + k]? =
      vs[i]? := by
  induction vs generalizing ws i with
  | nil =>
    cases ws with
    | nil => simp at hi
    | cons w ws => simp at hlen
  | cons v vs ih =>
    cases ws with
    | nil => simp at hlen
    | cons w ws =>
      simp only [List.length_cons, add_left_inj] at hlen
      cases i with
      | zero =>
        simp only [List.getD_cons_zero] at hk
        simp [List.getElem?_append_left, hk, List.getElem?_replicate]
      | succ i =>
        simp only [List.getD_cons_succ] at hk
        simp only [List.length_cons, add_lt_add_iff_right] at hi
        have h := ih ws hlen i hi hk
        simp only [List.zip_cons_cons, List.map_cons, List.flatten_cons, List.take_succ_cons,
          List.sum_cons, List.getElem?_cons_succ]
        rw [List.getElem?_append_right (by simp; omega)]
        simp only [List.length_replicate]
        have e : w + (List.take i ws).sum + k - w = (List.take i ws).sum + k := by omega
        rw [e]
        exact h

/-- C3: for equal non-zero lengths the constructor of `weight_faster_expansion`
returns an instance whose array has length `Σ w`, is the concatenation in index order
of `w[i]` copies of `v[i]`, and holds `v[i]` at each of the `w[i]` positions that
follow the first `w[0] + … + w[i-1]` ones. -/
theorem expansion_array_layout {α : Type} (vs : List α) (ws : List Nat)
    (hlen : vs.length = ws.length) (hne : vs ≠ []) :
    ∃ s, weight_faster_expansion vs ws = Outcome.ok s ∧
      s._values.length = ws.sum ∧
      s._values = ((vs.zip ws).map (fun p => List.replicate p.2 p.1)).flatten ∧
      ∀ i k, i < ws.length → k < ws.getD i 0 →
        (s._values)[(ws.take i).sum + k]? = vs[i]? := by
  have h : ¬ (vs.length = 0 ∨ vs.length ≠ ws.length) := by
    rintro (h | h)
    · exact hne (List.length_eq_zero.mp h)
    · exact h hlen
  refine ⟨⟨expansion_loop vs ws []⟩, ?_, ?_, ?_, ?_⟩
  · unfold weight_faster_expansion; rw [if_neg h]
  · simp only [expansion_loop_eq, List.nil_append]
    exact blocks_length vs ws hlen
  · simp only [expansion_loop_eq, List.nil_append]
  · intro i k hi hk
    simp only [expansion_loop_eq, List.nil_append]
    exact blocks_getElem? vs ws hlen i k hi hk

/-- Witness of C3 on values `[7, 8, 9]` with weights `[2, 0, 1]`. -/
theorem expansion_array_layout_witness :
    ([7, 8, 9].length = [2, 0, 1].length ∧ [7, 8, 9] ≠ []) ∧
    ∃ s, weight_faster_expansion [7, 8, 9] [2, 0, 1] = Outcome.ok s ∧
      s._values.length = [2, 0, 1].sum ∧
      s._values = (([7, 8, 9].zip [2, 0, 1]).map (fun p => List.replicate p.2 p.1)).flatten ∧
      ∀ i k, i < [2, 0, 1].length → k < [2, 0, 1].getD i 0 →
        (s._values)[(([2, 0, 1] : List Nat).take i).sum + k]? = [7, 8, 9][i]? :=
  ⟨⟨by decide, by decide⟩, expansion_array_layout [7, 8, 9] [2, 0, 1] (by decide) (by decide)⟩

/-! ## Binary sampler: the stored running sums -/

theorem prods_loop_append (ws : List Nat) (last_sum : Nat) (out : List Nat) :
    prods_loop ws last_sum out = out ++ prods_loop ws last_sum [] := by
  induction ws generalizing last_sum out with
  | nil => simp [prods_loop]
  | cons w ws ih =>
    simp only [prods_loop, List.nil_append]
    rw [ih, ih _ [_]]
    simp

theorem prods_loop_cons (w : Nat) (ws : List Nat) (last_sum : Nat) :
    prods_loop (w :: ws) last_sum [] =
      (last_sum + w) % 2 ^ 32 :: prods_loop ws ((last_sum + w) % 2 ^ 32) [] := by
  simp only [prods_loop, List.nil_append]
  rw [prods_loop_append]
  simp

theorem prods_loop_length (ws : List Nat) (last_sum : Nat) :
    (prods_loop ws last_sum []).length = ws.length := by
  induction ws generalizing last_sum with
  | nil => simp [prods_loop]
  | cons w ws ih => rw [prods_loop_cons]; simp [ih]

theorem prods_loop_getElem? (ws : List Nat) (last_sum i : Nat) (hi : i < ws.length) :
    (prods_loop ws last_sum [])[i]? = some ((last_sum + (ws.take (i + 1)).sum) % 2 ^ 32) := by
  induction ws generalizing last_sum i with
  | nil => simp at hi
  | cons w ws ih =>
    rw [prods_loop_cons]
    cases i with
    | zero => simp
    | succ i =>
      simp only [List.length_cons, add_lt_add_iff_right] at hi
      simp only [List.getElem?_cons_succ, List.take_succ_cons, List.sum_cons]
      rw [ih _ i hi]
      congr 1
      rw [Nat.add_mod, Nat.mod_mod, ← Nat.add_mod]
      congr 1
      omega

/-- C9 (as amended): the stored sequence has length `n` and its entry `i` is
`weight[0] + … + weight[i]` reduced modulo `2 ^ 32`, the accumulator being a
`uint32_t`; it is the exact sum when that sum is below `2 ^ 32`. -/
theorem binary_prods_running_sums {α : Type} (vs : List α) (ws : List Nat)
    (s : BinarySampler α) (h : weight_faster_binary vs ws = Outcome.ok s) :
    s._prods.length = ws.length ∧
      ∀ i, i < ws.length →
        (s._prods)[i]? = some ((ws.take (i + 1)).sum % 2 ^ 32) ∧
          ((ws.take (i + 1)).sum < 2 ^ 32 → (s._prods)[i]? = some ((ws.take (i + 1)).sum)) := by
  obtain ⟨-, -, -, hp⟩ := weight_faster_binary_ok vs ws s h
  rw [hp]
  refine ⟨prods_loop_length ws 0, ?_⟩
  intro i hi
  have hmod : (prods_loop ws 0 [])[i]? = some ((ws.take (i + 1)).sum % 2 ^ 32) := by
    simpa using prods_loop_getElem? ws 0 i hi
  refine ⟨hmod, ?_⟩
  intro hlt
  rw [hmod, Nat.mod_eq_of_lt hlt]

/-- Witness of C9 (as amended) on weights `[4294967295, 1]`. -/
theorem binary_prods_running_sums_witness :
    weight_faster_binary [10, 20] [4294967295, 1] = Outcome.ok ⟨[10, 20], [4294967295, 0]⟩ ∧
    (([4294967295, 0] : List Nat).length = [4294967295, 1].length ∧
      ∀ i, i < [4294967295, 1].length →
        ([4294967295, 0] : List Nat)[i]? =
            some ((([4294967295, 1] : List Nat).take (i + 1)).sum % 2 ^ 32) ∧
          ((([4294967295, 1] : List Nat).take (i + 1)).sum < 2 ^ 32 →
            ([4294967295, 0] : List Nat)[i]? =
              some ((([4294967295, 1] : List Nat).take (i + 1)).sum))) :=
  ⟨by rfl, binary_prods_running_sums [10, 20] [4294967295, 1] ⟨[10, 20], [4294967295, 0]⟩
    (by rfl)⟩

/-- C9 fails as stated: with weights `[4294967295, 1]` the second stored entry is `0`,
not `4294967295 + 1`. -/
theorem binary_prods_running_sums_overflow :
    ∃ s : BinarySampler Nat,
      weight_faster_binary [10, 20] [4294967295, 1] = Outcome.ok s ∧
      (s._prods)[1]? ≠ some ((([4294967295, 1] : List Nat).take (1 + 1)).sum) :=
  ⟨⟨[10, 20], [4294967295, 0]⟩, by rfl, by decide⟩

theorem prods_loop_sorted (ws : List Nat) (last_sum : Nat)
    (hfit : last_sum + ws.sum < 2 ^ 32) :
    List.Sorted (· ≤ ·) (prods_loop ws last_sum []) ∧
      ∀ x ∈ prods_loop ws last_sum [], last_sum ≤ x := by
  induction ws generalizing last_sum with
  | nil => simp [prods_loop]
  | cons w ws ih =>
    rw [prods_loop_cons]
    simp only [List.sum_cons] at hfit
    have e : (last_sum + w) % 2 ^ 32 = last_sum + w := Nat.mod_eq_of_lt (by omega)
    rw [e]
    obtain ⟨h1, h2⟩ := ih (last_sum + w) (by omega)
    refine ⟨List.sorted_cons.mpr ⟨fun x hx => h2 x hx, h1⟩, ?_⟩
    intro x hx
    rcases List.mem_cons.mp hx with rfl | hx
    · omega
    · have := h2 x hx; omega

theorem prods_loop_back (ws : List Nat) (last_sum : Nat) (hne : ws ≠ [])
    (hfit : last_sum + ws.sum < 2 ^ 32) :
    back (prods_loop ws last_sum []) = last_sum + ws.sum := by
  induction ws generalizing last_sum with
  | nil => exact absurd rfl hne
  | cons w ws ih =>
    rw [prods_loop_cons]
    simp only [List.sum_cons] at hfit
    have e : (last_sum + w) % 2 ^ 32 = last_sum + w := Nat.mod_eq_of_lt (by omega)
    rw [e]
    cases ws with
    | nil => simp [prods_loop, back]
    | cons w2 ws =>
      have h := ih (last_sum + w) (by simp) (by omega)
      rw [prods_loop_cons] at h ⊢
      simp only [back, List.getLastD_cons] at h ⊢
      rw [h]
      simp only [List.sum_cons]
      omega

/-- C10 (as amended): when the sum of the weights fits the 32-bit accumulator, the
stored sequence is non-decreasing and its last element is the sum of all weights. -/
theorem binary_prods_sorted {α : Type} (vs : List α) (ws : List Nat)
    (s : BinarySampler α) (h : weight_faster_binary vs ws = Outcome.ok s)
    (hfit : ws.sum < 2 ^ 32) :
    List.Sorted (· ≤ ·) s._prods ∧ back s._prods = ws.sum := by
  obtain ⟨hn, hvs, -, hp⟩ := weight_faster_binary_ok vs ws s h
  have hne : ws ≠ [] := by
    rintro rfl
    exact hvs (List.length_eq_zero.mp hn)
  rw [hp]
  refine ⟨(prods_loop_sorted ws 0 (by omega)).1, ?_⟩
  simpa using prods_loop_back ws 0 hne (by omega)

/-- Witness of C10 (as amended) on weights `[1, 0, 2]`. -/
theorem binary_prods_sorted_witness :
    (weight_faster_binary [7, 8, 9] [1, 0, 2] = Outcome.ok ⟨[7, 8, 9], [1, 1, 3]⟩ ∧
      ([1, 0, 2] : List Nat).sum < 2 ^ 32) ∧
    (List.Sorted (· ≤ ·) ([1, 1, 3] : List Nat) ∧ back [1, 1, 3] = ([1, 0, 2] : List Nat).sum) :=
  ⟨⟨by rfl, by decide⟩,
    binary_prods_sorted [7, 8, 9] [1, 0, 2] ⟨[7, 8, 9], [1, 1, 3]⟩ (by rfl) (by decide)⟩

/-- C10 fails as stated: with the `uint32_t` weights `[3000000000, 3000000000]` the
stored sequence decreases and its last element is not the sum of the weights. -/
theorem binary_prods_sorted_overflow :
    ∃ s : BinarySampler Nat,
      weight_faster_binary [10, 20] [3000000000, 3000000000] = Outcome.ok s ∧
      ¬ List.Sorted (· ≤ ·) s._prods ∧
      back s._prods ≠ ([3000000000, 3000000000] : List Nat).sum :=
  ⟨⟨[10, 20], [3000000000, 1705032704]⟩, by rfl, by decide, by decide⟩

/-! ## Binary sampler: the draw -/

theorem uniform_int_distribution_mem (a b : Nat) (hab : a ≤ b) (rng : engine) :
    a ≤ (uniform_int_distribution a b rng).1 ∧ (uniform_int_distribution a b rng).1 ≤ b := by
  unfold uniform_int_distribution
  have h : (rng.next).1 % (b - a + 1) < b - a + 1 := Nat.mod_lt _ (Nat.succ_pos _)
  constructor
  · exact Nat.le_add_right _ _
  · dsimp only
    omega

theorem range_mem (a b : Nat) (hab : a ≤ b) (rng : engine) :
    a ≤ (range a b rng).1 ∧ (range a b rng).1 ≤ b := by
  unfold range
  rw [if_neg (by omega)]
  exact uniform_int_distribution_mem a b hab rng

theorem first_not_less_le_length (xs : List Nat) (value : Nat) :
    first_not_less xs value ≤ xs.length := by
  induction xs with
  | nil => simp [first_not_less]
  | cons x xs ih =>
    unfold first_not_less
    split_ifs
    · simp only [List.length_cons]
      omega
    · omega

theorem first_not_less_spec (xs : List Nat) (value : Nat) (hs : List.Sorted (· ≤ ·) xs)
    (i : Nat) (hi : i < xs.length) :
    xs.getD i 0 < value ↔ i < first_not_less xs value := by
  induction xs generalizing i with
  | nil => simp at hi
  | cons x xs ih =>
    obtain ⟨hx, hs2⟩ := List.sorted_cons.mp hs
    unfold first_not_less
    by_cases hlt : x < value
    · rw [if_pos hlt]
      cases i with
      | zero => simpa using hlt
      | succ i =>
        simp only [List.length_cons, add_lt_add_iff_right] at hi
        simpa using ih hs2 i hi
    · rw [if_neg hlt]
      cases i with
      | zero => simpa using hlt
      | succ i =>
        simp only [List.length_cons, add_lt_add_iff_right] at hi
        have hmem : xs[i] ∈ xs := List.getElem_mem hi
        have := hx _ hmem
        simp only [List.getD_cons_succ, not_lt_zero', iff_false, not_lt]
        rw [List.getD_eq_getElem?_getD, List.getElem?_eq_getElem hi]
        simp only [Option.getD_some]
        omega

theorem lower_bound_loop_spec (xs : List Nat) (value : Nat)
    (hs : List.Sorted (· ≤ ·) xs) (bound first count : Nat) (hb : count ≤ bound)
    (h1 : first ≤ first_not_less xs value)
    (h2 : first_not_less xs value ≤ first + count) (h3 : first + count ≤ xs.length) :
    lower_bound_loop xs value bound first count = first_not_less xs value := by
  induction bound generalizing first count with
  | zero =>
    unfold lower_bound_loop
    omega
  | succ bound ih =>
    unfold lower_bound_loop
    by_cases hc : 0 < count
    · rw [if_pos hc]
      have hd : count / 2 < count := Nat.div_lt_self hc (by decide)
      have hspec := first_not_less_spec xs value hs (first + count / 2) (by omega)
      by_cases hlt : xs.getD (first + count / 2) 0 < value
      · rw [if_pos hlt]
        have := hspec.mp hlt
        exact ih (first + count / 2 + 1) (count - (count / 2 + 1)) (by omega) (by omega)
          (by omega) (by omega)
      · rw [if_neg hlt]
        have : ¬ first + count / 2 < first_not_less xs value := fun h => hlt (hspec.mpr h)
        exact ih first (count / 2) (by omega) h1 (by omega) (by omega)
    · rw [if_neg hc]
      omega

/-- On a sorted sequence the bisection of `std::lower_bound` returns the first position
whose element is not less than the value. -/
theorem lower_bound_eq_first_not_less (xs : List Nat) (value : Nat)
    (hs : List.Sorted (· ≤ ·) xs) : lower_bound xs value = first_not_less xs value :=
  lower_bound_loop_spec xs value hs xs.length 0 xs.length (le_refl _) (Nat.zero_le _)
    (by simpa using first_not_less_le_length xs value) (by simp)

/-- The bisection stops within `count` iterations: one more allowed iteration does not
change its result. -/
theorem lower_bound_loop_bound (xs : List Nat) (value : Nat) (bound first count : Nat)
    (hb : count ≤ bound) :
    lower_bound_loop xs value (bound + 1) first count =
      lower_bound_loop xs value bound first count := by
  induction bound generalizing first count with
  | zero =>
    have : count = 0 := by omega
    subst this
    rfl
  | succ bound ih =>
    rw [lower_bound_loop]
    conv_rhs => rw [lower_bound_loop]
    by_cases hc : 0 < count
    · have hd : count / 2 < count := Nat.div_lt_self hc (by decide)
      rw [if_pos hc, if_pos hc, ih _ _ (by omega), ih _ _ (by omega)]
    · rw [if_neg hc, if_neg hc]

theorem first_not_less_lt_length (xs : List Nat) (r : Nat) (hne : xs ≠ [])
    (hr : r ≤ back xs) : first_not_less xs r < xs.length := by
  induction xs with
  | nil => exact absurd rfl hne
  | cons x xs ih =>
    unfold first_not_less
    split_ifs with hx
    · cases xs with
      | nil => simp [back] at hr; omega
      | cons y ys =>
        have := ih (by simp) (by simpa [back] using hr)
        simp only [List.length_cons] at this ⊢
        omega
    · simp

/-- C5 (as amended): when the weights have a positive sum that fits the 32-bit
accumulator, every draw value lies in `[1, Σ w]`, the lower-bound search returns a
position below `n`, and the value lookup succeeds. -/
theorem binary_call_in_bounds {α : Type} (vs : List α) (ws : List Nat)
    (s : BinarySampler α) (h : weight_faster_binary vs ws = Outcome.ok s)
    (hpos : 0 < ws.sum) (hfit : ws.sum < 2 ^ 32) (rng : engine) :
    1 ≤ (s.rand rng).1 ∧ (s.rand rng).1 ≤ ws.sum ∧
      lower_bound s._prods (s.rand rng).1 < vs.length ∧
      ∃ v, (s.call rng).1 = some v := by
  obtain ⟨hn, hnil, hvs, hp⟩ := weight_faster_binary_ok vs ws s h
  have hws : ws ≠ [] := by
    rintro rfl
    exact hnil (List.length_eq_zero.mp hn)
  have hback : back s._prods = ws.sum := by
    rw [hp]
    simpa using prods_loop_back ws 0 hws (by omega)
  have hlen : s._prods.length = ws.length := by
    rw [hp]
    exact prods_loop_length ws 0
  have hne : s._prods ≠ [] := by
    intro e
    rw [e] at hback
    simp [back] at hback
    omega
  have hr : 1 ≤ (s.rand rng).1 ∧ (s.rand rng).1 ≤ back s._prods :=
    range_mem 1 (back s._prods) (by omega) rng
  have hsorted : List.Sorted (· ≤ ·) s._prods := by
    rw [hp]
    exact (prods_loop_sorted ws 0 (by omega)).1
  have hlb : lower_bound s._prods (s.rand rng).1 < s._prods.length := by
    rw [lower_bound_eq_first_not_less _ _ hsorted]
    exact first_not_less_lt_length s._prods (s.rand rng).1 hne hr.2
  refine ⟨hr.1, by rw [← hback]; exact hr.2, by omega, ?_⟩
  have hidx : lower_bound s._prods (s.rand rng).1 < s._values.length := by
    rw [hvs]; omega
  exact ⟨(s._values)[lower_bound s._prods (s.rand rng).1], by
    simp [BinarySampler.call, List.getElem?_eq_getElem hidx]⟩

/-- Witness of C5 (as amended) on weights `[1, 0, 2]`. -/
theorem binary_call_in_bounds_witness :
    (weight_faster_binary [7, 8, 9] [1, 0, 2] = Outcome.ok ⟨[7, 8, 9], [1, 1, 3]⟩ ∧
      0 < ([1, 0, 2] : List Nat).sum ∧ ([1, 0, 2] : List Nat).sum < 2 ^ 32) ∧
    (1 ≤ ((⟨[7, 8, 9], [1, 1, 3]⟩ : BinarySampler Nat).rand ⟨fun k => k⟩).1 ∧
      ((⟨[7, 8, 9], [1, 1, 3]⟩ : BinarySampler Nat).rand ⟨fun k => k⟩).1 ≤
        ([1, 0, 2] : List Nat).sum ∧
      lower_bound [1, 1, 3] ((⟨[7, 8, 9], [1, 1, 3]⟩ : BinarySampler Nat).rand ⟨fun k => k⟩).1 <
        [7, 8, 9].length ∧
      ∃ v, ((⟨[7, 8, 9], [1, 1, 3]⟩ : BinarySampler Nat).call ⟨fun k => k⟩).1 = some v) :=
  ⟨⟨by rfl, by decide, by decide⟩,
    binary_call_in_bounds [7, 8, 9] [1, 0, 2] ⟨[7, 8, 9], [1, 1, 3]⟩ (by rfl) (by decide)
      (by decide) ⟨fun k => k⟩⟩

/-- C5 fails as stated: the construction from values `[42]` and weights `[0]`
succeeds; the bounds `(1, 0)` of the draw are swapped, the raw word `1` yields the
draw value `1`, outside `[1, 0]`; the search returns the end position `1` and the
lookup is out of range. -/
theorem binary_call_zero_total :
    ∃ s : BinarySampler Nat,
      weight_faster_binary [42] [0] = Outcome.ok s ∧
      ¬ ((s.rand ⟨fun _ => 1⟩).1 ≤ ([0] : List Nat).sum) ∧
      lower_bound s._prods (s.rand ⟨fun _ => 1⟩).1 = [42].length ∧
      (s.call ⟨fun _ => 1⟩).1 = none :=
  ⟨⟨[42], [0]⟩, by rfl, by decide, by decide, by decide⟩

/-- A positive sum of the weights is not enough for the draw of `weight_faster_binary`:
the `uint32_t` weights `[4294967295, 1]` store the wrapped total `0`, the bounds
`(1, 0)` of the draw are swapped and the raw word `0` yields the draw value `0`. -/
theorem binary_call_wrapped_total :
    ∃ s : BinarySampler Nat,
      weight_faster_binary [10, 20] [4294967295, 1] = Outcome.ok s ∧
      back s._prods = 0 ∧ (s.rand ⟨fun _ => 0⟩).1 = 0 :=
  ⟨⟨[10, 20], [4294967295, 0]⟩, by rfl, by decide, by decide⟩

/-! ## Expansion sampler: the draw -/

/-- C6 (as amended): when the weights have a positive sum, every index drawn over
`[0, size - 1]` is below the length of the expanded array and the value lookup
succeeds. -/
theorem expansion_call_in_bounds {α : Type} (vs : List α) (ws : List Nat)
    (s : ExpansionSampler α) (h : weight_faster_expansion vs ws = Outcome.ok s)
    (hpos : 0 < ws.sum) (rng : engine) :
    (range 0 ((s._values.length + 2 ^ 64 - 1) % 2 ^ 64) rng).1 < s._values.length ∧
      ∃ v, (s.call rng).1 = some v := by
  obtain ⟨hn, -, hv⟩ := weight_faster_expansion_ok vs ws s h
  have hlen : s._values.length = ws.sum := by
    rw [hv, expansion_loop_eq, List.nil_append]
    exact blocks_length vs ws hn
  have hr := range_mem 0 ((s._values.length + 2 ^ 64 - 1) % 2 ^ 64) (Nat.zero_le _) rng
  have hle : (s._values.length + 2 ^ 64 - 1) % 2 ^ 64 ≤ s._values.length - 1 := by
    have e : s._values.length + 2 ^ 64 - 1 = (s._values.length - 1) + 2 ^ 64 := by omega
    rw [e, Nat.add_mod_right]
    exact Nat.mod_le _ _
  have hidx : (range 0 ((s._values.length + 2 ^ 64 - 1) % 2 ^ 64) rng).1 <
      s._values.length := by omega
  exact ⟨hidx, ⟨(s._values)[(range 0 ((s._values.length + 2 ^ 64 - 1) % 2 ^ 64) rng).1], by
    simp [ExpansionSampler.call, List.getElem?_eq_getElem hidx]⟩⟩

/-- Witness of C6 (as amended) on values `[7, 8, 9]` with weights `[2, 0, 1]`. -/
theorem expansion_call_in_bounds_witness :
    (weight_faster_expansion [7, 8, 9] [2, 0, 1] = Outcome.ok ⟨[7, 7, 9]⟩ ∧
      0 < ([2, 0, 1] : List Nat).sum) ∧
    ((range 0 ((([7, 7, 9] : List Nat).length + 2 ^ 64 - 1) % 2 ^ 64) ⟨fun k => k⟩).1 <
        ([7, 7, 9] : List Nat).length ∧
      ∃ v, ((⟨[7, 7, 9]⟩ : ExpansionSampler Nat).call ⟨fun k => k⟩).1 = some v) :=
  ⟨⟨by rfl, by decide⟩,
    expansion_call_in_bounds [7, 8, 9] [2, 0, 1] ⟨[7, 7, 9]⟩ (by rfl) (by decide)
      ⟨fun k => k⟩⟩

/-- C6 fails as stated: the construction from values `[42]` and weights `[0]`
succeeds with an empty array; `size() - 1` wraps to `2 ^ 64 - 1`, the drawn index `0`
is not below the length `0`, and the lookup is out of range. -/
theorem expansion_call_zero_total :
    ∃ s : ExpansionSampler Nat,
      weight_faster_expansion [42] [0] = Outcome.ok s ∧
      ¬ ((range 0 ((s._values.length + 2 ^ 64 - 1) % 2 ^ 64) ⟨fun _ => 0⟩).1 <
          s._values.length) ∧
      (s.call ⟨fun _ => 0⟩).1 = none :=
  ⟨⟨[]⟩, by rfl, by decide, by decide⟩

/-! ## Binary sampler: how many draw values select an index -/

theorem first_not_less_prods_iff (ws : List Nat) (last_sum : Nat)
    (hfit : last_sum + ws.sum < 2 ^ 32) (i : Nat) (hi : i < ws.length) (r : Nat)
    (hlo : last_sum < r) :
    first_not_less (prods_loop ws last_sum []) r = i ↔
      last_sum + (ws.take i).sum < r ∧ r ≤ last_sum + (ws.take (i + 1)).sum := by
  induction ws generalizing last_sum i with
  | nil => simp at hi
  | cons w ws ih =>
    rw [prods_loop_cons]
    simp only [List.sum_cons] at hfit
    have e : (last_sum + w) % 2 ^ 32 = last_sum + w := Nat.mod_eq_of_lt (by omega)
    rw [e]
    rw [first_not_less]
    cases i with
    | zero =>
      simp only [List.take_zero, List.sum_nil, List.take_succ_cons, List.sum_cons]
      by_cases hx : last_sum + w < r
      · rw [if_pos hx]
        constructor
        · intro h; omega
        · intro h; omega
      · rw [if_neg hx]
        constructor
        · intro _; omega
        · intro _; rfl
    | succ i =>
      simp only [List.length_cons, add_lt_add_iff_right] at hi
      simp only [List.take_succ_cons, List.sum_cons]
      by_cases hx : last_sum + w < r
      · rw [if_pos hx]
        have h := ih (last_sum + w) (by omega) i hi hx
        constructor
        · intro h2
          have h3 := h.mp (by omega)
          omega
        · intro h2
          have h3 := h.mpr (by omega)
          omega
      · rw [if_neg hx]
        constructor
        · intro h; omega
        · intro h; omega

/-- C2 (as amended): when the weights have a positive sum `W` that fits the 32-bit
accumulator, exactly `weight[i]` of the draw values `r` in `[1, W]` make the
lower-bound search over the stored sums select index `i`. -/
theorem binary_selection_count {α : Type} (vs : List α) (ws : List Nat)
    (s : BinarySampler α) (h : weight_faster_binary vs ws = Outcome.ok s)
    (hpos : 0 < ws.sum) (hfit : ws.sum < 2 ^ 32) (i : Nat) (hi : i < ws.length) :
    ((Finset.Icc 1 ws.sum).filter (fun r => lower_bound s._prods r = i)).card =
      ws.getD i 0 := by
  obtain ⟨-, -, -, hp⟩ := weight_faster_binary_ok vs ws s h
  have hsorted : List.Sorted (· ≤ ·) (prods_loop ws 0 []) :=
    (prods_loop_sorted ws 0 (by omega)).1
  have hsplit := List.sum_take_add_sum_drop ws (i + 1)
  have hsucc := List.sum_take_succ ws i hi
  have hget : ws.getD i 0 = ws[i] := by
    rw [List.getD_eq_getElem?_getD, List.getElem?_eq_getElem hi]
    rfl
  have hset : (Finset.Icc 1 ws.sum).filter (fun r => lower_bound s._prods r = i) =
      Finset.Ioc (ws.take i).sum (ws.take (i + 1)).sum := by
    ext r
    simp only [Finset.mem_filter, Finset.mem_Icc, Finset.mem_Ioc, hp]
    rw [lower_bound_eq_first_not_less _ _ hsorted]
    constructor
    · rintro ⟨⟨h1, h2⟩, h3⟩
      have := (first_not_less_prods_iff ws 0 (by omega) i hi r (by omega)).mp h3
      omega
    · rintro ⟨h1, h2⟩
      refine ⟨⟨by omega, by omega⟩, ?_⟩
      exact (first_not_less_prods_iff ws 0 (by omega) i hi r (by omega)).mpr (by omega)
  rw [hset, Nat.card_Ioc, hget, hsucc]
  omega

/-- Witness of C2 (as amended) on weights `[1, 0, 2]`, index `2`. -/
theorem binary_selection_count_witness :
    (weight_faster_binary [7, 8, 9] [1, 0, 2] = Outcome.ok ⟨[7, 8, 9], [1, 1, 3]⟩ ∧
      0 < ([1, 0, 2] : List Nat).sum ∧ ([1, 0, 2] : List Nat).sum < 2 ^ 32 ∧
      2 < ([1, 0, 2] : List Nat).length) ∧
    ((Finset.Icc 1 ([1, 0, 2] : List Nat).sum).filter
        (fun r => lower_bound [1, 1, 3] r = 2)).card = ([1, 0, 2] : List Nat).getD 2 0 :=
  ⟨⟨by rfl, by decide, by decide, by decide⟩,
    binary_selection_count [7, 8, 9] [1, 0, 2] ⟨[7, 8, 9], [1, 1, 3]⟩ (by rfl) (by decide)
      (by decide) 2 (by decide)⟩

/-- C2 fails as stated: with the `uint32_t` weights `[4294967295, 2]` the stored
sums are `[4294967295, 1]`; the bisection looks at position `1` first and no draw
value of `[1, 4294967297]` selects index `1`, whose weight is `2`. -/
theorem binary_selection_count_overflow :
    ∃ s : BinarySampler Nat,
      weight_faster_binary [10, 20] [4294967295, 2] = Outcome.ok s ∧
      ((Finset.Icc 1 ([4294967295, 2] : List Nat).sum).filter
          (fun r => lower_bound s._prods r = 1)).card ≠
        ([4294967295, 2] : List Nat).getD 1 0 := by
  refine ⟨⟨[10, 20], [4294967295, 1]⟩, by rfl, ?_⟩
  have hempty : (Finset.Icc 1 ([4294967295, 2] : List Nat).sum).filter
      (fun r => lower_bound [4294967295, 1] r = 1) = ∅ := by
    apply Finset.filter_eq_empty_iff.mpr
    intro r _
    simp only [lower_bound, lower_bound_loop, List.length_cons, List.length_nil]
    by_cases h1 : 1 < r
    · have e : ([4294967295, 1] : List Nat).getD (0 + (0 + 1 + 1) / 2) 0 = 1 := by decide
      rw [if_pos (by decide), e, if_pos h1]
      have e2 : 0 + 1 + 1 - ((0 + 1 + 1) / 2 + 1) = 0 := by decide
      rw [e2, if_neg (by decide)]
      decide
    · have e : ([4294967295, 1] : List Nat).getD (0 + (0 + 1 + 1) / 2) 0 = 1 := by decide
      rw [if_pos (by decide), e, if_neg h1]
      have e2 : (0 + 1 + 1) / 2 = 1 := by decide
      rw [e2, if_pos (by decide)]
      have e3 : ([4294967295, 1] : List Nat).getD (0 + 1 / 2) 0 = 4294967295 := by decide
      rw [e3, if_neg (by omega)]
      decide
  show ((Finset.Icc 1 ([4294967295, 2] : List Nat).sum).filter
      (fun r => lower_bound [4294967295, 1] r = 1)).card ≠ _
  rw [hempty]
  decide

/-! ## The range helper -/

theorem uniform_int_distribution_int_mem (a b : Int) (hab : a ≤ b) (rng : engine) :
    a ≤ (uniform_int_distribution_int a b rng).1 ∧
      (uniform_int_distribution_int a b rng).1 ≤ b := by
  unfold uniform_int_distribution_int
  dsimp only
  have hpos : 0 < (b - a + 1).toNat := by omega
  have h : (rng.next).1 % (b - a + 1).toNat < (b - a + 1).toNat := Nat.mod_lt _ hpos
  have hcast : (((rng.next).1 % (b - a + 1).toNat : Nat) : Int) < ((b - a + 1).toNat : Int) := by
    exact_mod_cast h
  have htn : ((b - a + 1).toNat : Int) = b - a + 1 := Int.toNat_of_nonneg (by omega)
  constructor <;> omega

/-- C17: for the unsigned and for the signed integral instance, `range(a, b)` returns
a value between `min(a, b)` and `max(a, b)`, and `range(a, b)` and `range(b, a)` on
the same engine state return the same value and leave the same engine state. -/
theorem range_bounds_and_symmetry (rng : engine) :
    (∀ a b : Nat, min a b ≤ (range a b rng).1 ∧ (range a b rng).1 ≤ max a b ∧
        range a b rng = range b a rng) ∧
    (∀ a b : Int, min a b ≤ (range_int a b rng).1 ∧ (range_int a b rng).1 ≤ max a b ∧
        range_int a b rng = range_int b a rng) := by
  constructor
  · intro a b
    unfold range
    rcases lt_trichotomy a b with h | h | h
    · rw [if_neg (by omega), if_pos (by omega)]
      have hm := uniform_int_distribution_mem a b (by omega) rng
      rw [min_eq_left (by omega), max_eq_right (by omega)]
      exact ⟨hm.1, hm.2, rfl⟩
    · subst h
      rw [if_neg (by omega)]
      have hm := uniform_int_distribution_mem a a (le_refl a) rng
      rw [min_self, max_self]
      exact ⟨hm.1, hm.2, rfl⟩
    · rw [if_pos (by omega), if_neg (by omega)]
      have hm := uniform_int_distribution_mem b a (by omega) rng
      rw [min_eq_right (by omega), max_eq_left (by omega)]
      exact ⟨hm.1, hm.2, rfl⟩
  · intro a b
    unfold range_int
    rcases lt_trichotomy a b with h | h | h
    · rw [if_neg (by omega), if_pos (by omega)]
      have hm := uniform_int_distribution_int_mem a b (by omega) rng
      rw [min_eq_left (by omega), max_eq_right (by omega)]
      exact ⟨hm.1, hm.2, rfl⟩
    · subst h
      rw [if_neg (by omega)]
      have hm := uniform_int_distribution_int_mem a a (le_refl a) rng
      rw [min_self, max_self]
      exact ⟨hm.1, hm.2, rfl⟩
    · rw [if_pos (by omega), if_neg (by omega)]
      have hm := uniform_int_distribution_int_mem b a (by omega) rng
      rw [min_eq_right (by omega), max_eq_left (by omega)]
      exact ⟨hm.1, hm.2, rfl⟩

/-! ## The ambient engine -/

/-- C12: with a seed, `thread_rng` returns the engine freshly seeded from it and
stores it, whatever the ambient engine was before; hence after two acquisitions with
the same seed, equally many `range(1, 10)` draws, and equally many draws of two
samplers that the same construction of `weight_faster_alias` produced, give the same
outputs. -/
theorem thread_rng_seed_replay {α : Type} (seeded : Nat → engine) (seed : Nat)
    (entropy1 entropy2 : Nat) (eng1 eng2 : Option engine) (vs : List α) (ps : List Double)
    (s1 s2 : AliasSampler α) (h1 : weight_faster_alias vs ps = Outcome.ok s1)
    (h2 : weight_faster_alias vs ps = Outcome.ok s2) (n : Nat) :
    thread_rng seeded (some seed) entropy1 eng1 = (seeded seed, some (seeded seed)) ∧
      thread_rng seeded (some seed) entropy2 eng2 = (seeded seed, some (seeded seed)) ∧
      (draw_n (range_int 1 10) n (thread_rng seeded (some seed) entropy1 eng1).1).1 =
        (draw_n (range_int 1 10) n (thread_rng seeded (some seed) entropy2 eng2).1).1 ∧
      (draw_n s1.call n (thread_rng seeded (some seed) entropy1 eng1).1).1 =
        (draw_n s2.call n (thread_rng seeded (some seed) entropy2 eng2).1).1 := by
  have hs : s1 = s2 := by
    rw [h1] at h2
    exact Outcome.ok.inj h2
  subst hs
  exact ⟨rfl, rfl, rfl, rfl⟩

/-- Witness of C12 on seed `1`, values `[10, 20]`, weights `[1, 3]`, with an empty and
a filled ambient engine. -/
theorem thread_rng_seed_replay_witness :
    (weight_faster_alias [10, 20] [Double.finite 1, Double.finite 3] =
        Outcome.ok ⟨[10, 20], [(Double.finite (1 / 2), some 1), (Double.finite 1, none)], 1⟩) ∧
    (thread_rng (fun s => ⟨fun k => s + k⟩) (some 1) 5 none =
        ((⟨fun k => 1 + k⟩ : engine), some ⟨fun k => 1 + k⟩) ∧
      thread_rng (fun s => ⟨fun k => s + k⟩) (some 1) 7 (some ⟨fun _ => 0⟩) =
        ((⟨fun k => 1 + k⟩ : engine), some ⟨fun k => 1 + k⟩) ∧
      (draw_n (range_int 1 10) 3
          (thread_rng (fun s => ⟨fun k => s + k⟩) (some 1) 5 none).1).1 =
        (draw_n (range_int 1 10) 3
          (thread_rng (fun s => ⟨fun k => s + k⟩) (some 1) 7 (some ⟨fun _ => 0⟩)).1).1 ∧
      (draw_n (AliasSampler.call (⟨[10, 20],
            [(Double.finite (1 / 2), some 1), (Double.finite 1, none)], 1⟩ :
            AliasSampler Nat)) 3
          (thread_rng (fun s => ⟨fun k => s + k⟩) (some 1) 5 none).1).1 =
        (draw_n (AliasSampler.call (⟨[10, 20],
            [(Double.finite (1 / 2), some 1), (Double.finite 1, none)], 1⟩ :
            AliasSampler Nat)) 3
          (thread_rng (fun s => ⟨fun k => s + k⟩) (some 1) 7 (some ⟨fun _ => 0⟩)).1).1) :=
  have hok : weight_faster_alias [10, 20] [Double.finite 1, Double.finite 3] =
      Outcome.ok ⟨[10, 20], [(Double.finite (1 / 2), some 1), (Double.finite 1, none)], 1⟩ := by
    decide!
  ⟨hok, thread_rng_seed_replay (fun s => ⟨fun k => s + k⟩) 1 5 7 none (some ⟨fun _ => 0⟩)
    [10, 20] [Double.finite 1, Double.finite 3] _ _ hok hok 3⟩

/-! ## A single value of weight one -/

theorem draw_n_const {β : Type} (call : engine → β × engine) (v : β)
    (h : ∀ rng, (call rng).1 = v) (n : Nat) (rng : engine) :
    (draw_n call n rng).1 = List.replicate n v := by
  induction n generalizing rng with
  | zero => rfl
  | succ n ih =>
    simp only [draw_n, List.replicate_succ]
    rw [h rng, ih]

theorem single_weight_table :
    reprods [Double.one] = [Double.one] ∧
      Double.ge (Double.fabs (Double.sub Double.one (re_sum_prod [Double.one]))) epsilon =
        false ∧
      generate_alias_table [Double.one] = [(Double.one, none)] := by
  decide!

/-- C11: from the single value `v` with the single weight `1` each of the three
constructions succeeds, and any number of draws of each sampler, on any engine state,
returns `v` every time. -/
theorem single_value_always_drawn {α : Type} (v : α) :
    ∃ (sa : AliasSampler α) (se : ExpansionSampler α) (sb : BinarySampler α),
      weight_faster_alias [v] [Double.one] = Outcome.ok sa ∧
      weight_faster_expansion [v] [1] = Outcome.ok se ∧
      weight_faster_binary [v] [1] = Outcome.ok sb ∧
      ∀ (rng : engine) (n : Nat),
        (draw_n sa.call n rng).1 = List.replicate n (some v) ∧
        (draw_n se.call n rng).1 = List.replicate n (some v) ∧
        (draw_n sb.call n rng).1 = List.replicate n (some v) := by
  refine ⟨⟨[v], [(Double.one, none)], 0⟩, ⟨[v]⟩, ⟨[v], [1]⟩, ?_, by rfl, by rfl, ?_⟩
  · obtain ⟨h1, h2, h3⟩ := single_weight_table
    unfold weight_faster_alias
    rw [if_neg (by simp), h2, h1, h3]
    rfl
  · intro rng n
    refine ⟨draw_n_const _ _ ?_ n rng, draw_n_const _ _ ?_ n rng, draw_n_const _ _ ?_ n rng⟩
    · intro r
      have hidx : (uniform_int_distribution 0 0 r).1 = 0 := by
        simp [uniform_int_distribution, Nat.mod_one]
      have he : entry [(Double.one, (none : Option Nat))] 0 = (Double.one, none) := rfl
      unfold AliasSampler.call
      dsimp only
      rw [hidx, he, if_neg (by simp)]
      rfl
    · intro r
      have hmax : (([v] : List α).length + 2 ^ 64 - 1) % 2 ^ 64 = 0 := by
        simp only [List.length_cons, List.length_nil]
        norm_num
      have hidx : (range 0 0 r).1 = 0 := by
        simp [range, uniform_int_distribution, Nat.mod_one]
      unfold ExpansionSampler.call
      dsimp only
      rw [hmax, hidx]
      rfl
    · intro r
      simp [BinarySampler.call, BinarySampler.rand, back, range, uniform_int_distribution,
        Nat.mod_one, lower_bound, lower_bound_loop]

/-! ## Binary sampler: zero weights and zero totals -/

theorem lower_bound_loop_bracket (xs : List Nat) (value : Nat) (bound first count : Nat)
    (hb : count ≤ bound) (h3 : first + count ≤ xs.length)
    (hl : first = 0 ∨ xs.getD (first - 1) 0 < value)
    (hr : first + count = xs.length ∨ value ≤ xs.getD (first + count) 0) :
    (lower_bound_loop xs value bound first count = 0 ∨
        xs.getD (lower_bound_loop xs value bound first count - 1) 0 < value) ∧
      (lower_bound_loop xs value bound first count = xs.length ∨
        value ≤ xs.getD (lower_bound_loop xs value bound first count) 0) := by
  induction bound generalizing first count with
  | zero =>
    have : count = 0 := by omega
    subst this
    exact ⟨hl, hr⟩
  | succ bound ih =>
    unfold lower_bound_loop
    by_cases hc : 0 < count
    · rw [if_pos hc]
      have hd : count / 2 < count := Nat.div_lt_self hc (by decide)
      by_cases hlt : xs.getD (first + count / 2) 0 < value
      · rw [if_pos hlt]
        apply ih _ _ (by omega) (by omega)
        · right
          simpa using hlt
        · have e : first + count / 2 + 1 + (count - (count / 2 + 1)) = first + count := by
            omega
          rw [e]
          exact hr
      · rw [if_neg hlt]
        apply ih _ _ (by omega) (by omega) hl
        right
        omega
    · rw [if_neg hc]
      have : count = 0 := by omega
      subst this
      exact ⟨hl, hr⟩

/-- What the bisection returns, on any sequence: the element before the returned
position is less than the value, the element at it is not. -/
theorem lower_bound_bracket (xs : List Nat) (value : Nat) :
    (lower_bound xs value = 0 ∨ xs.getD (lower_bound xs value - 1) 0 < value) ∧
      (lower_bound xs value = xs.length ∨ value ≤ xs.getD (lower_bound xs value) 0) :=
  lower_bound_loop_bracket xs value xs.length 0 xs.length (le_refl _) (by simp)
    (Or.inl rfl) (Or.inl (by simp))

theorem prods_loop_getD (ws : List Nat) (i : Nat) (hi : i < ws.length) :
    (prods_loop ws 0 []).getD i 0 = (ws.take (i + 1)).sum % 2 ^ 32 := by
  rw [List.getD_eq_getElem?_getD, prods_loop_getElem? ws 0 i hi]
  simp

theorem zero_weight_not_selected (ws : List Nat) (r : Nat) (h1 : 1 ≤ r) (i : Nat)
    (hi : i < ws.length) (hw : ws.getD i 0 = 0) :
    lower_bound (prods_loop ws 0 []) r ≠ i := by
  intro hlb
  obtain ⟨hlt, hge⟩ := lower_bound_bracket (prods_loop ws 0 []) r
  rw [hlb, prods_loop_length] at hge
  rw [hlb] at hlt
  have hge2 : r ≤ (prods_loop ws 0 []).getD i 0 := by
    rcases hge with h | h
    · omega
    · exact h
  rw [prods_loop_getD ws i hi] at hge2
  have hwi : ws[i] = 0 := by
    rw [List.getD_eq_getElem?_getD, List.getElem?_eq_getElem hi] at hw
    exact hw
  have hsucc := List.sum_take_succ ws i hi
  rw [hwi, add_zero] at hsucc
  rw [hsucc] at hge2
  cases i with
  | zero =>
    simp at hge2
    omega
  | succ j =>
    rcases hlt with h | h
    · omega
    · simp only [add_tsub_cancel_right] at h
      rw [prods_loop_getD ws j (by omega)] at h
      omega

/-- C19 (as amended): in a constructed `weight_faster_binary` no value `r ≥ 1` makes
the search select an index whose weight is zero; and when the weights have a positive
sum that fits the 32-bit accumulator, every draw of the sampler is a value of
`[1, Σ w]`, so that `operator()` returns the value of an index whose weight is not
zero. -/
theorem binary_zero_weight_never_selected {α : Type} (vs : List α) (ws : List Nat)
    (s : BinarySampler α) (h : weight_faster_binary vs ws = Outcome.ok s) :
    (∀ r i, 1 ≤ r → i < ws.length → ws.getD i 0 = 0 → lower_bound s._prods r ≠ i) ∧
      (0 < ws.sum → ws.sum < 2 ^ 32 → ∀ rng : engine,
        1 ≤ (s.rand rng).1 ∧ (s.rand rng).1 ≤ ws.sum ∧
          lower_bound s._prods (s.rand rng).1 < ws.length ∧
          ws.getD (lower_bound s._prods (s.rand rng).1) 0 ≠ 0 ∧
          (s.call rng).1 = vs[lower_bound s._prods (s.rand rng).1]?) := by
  obtain ⟨hn, hnil, hvs, hp⟩ := weight_faster_binary_ok vs ws s h
  refine ⟨?_, ?_⟩
  · intro r i h1 hi hw
    rw [hp]
    exact zero_weight_not_selected ws r h1 i hi hw
  · intro hpos hfit rng
    have hws : ws ≠ [] := by
      rintro rfl
      exact hnil (List.length_eq_zero.mp hn)
    have hback : back s._prods = ws.sum := by
      rw [hp]
      simpa using prods_loop_back ws 0 hws (by omega)
    have hne : s._prods ≠ [] := by
      intro e
      rw [e] at hback
      simp [back] at hback
      omega
    have hsorted : List.Sorted (· ≤ ·) s._prods := by
      rw [hp]
      exact (prods_loop_sorted ws 0 (by omega)).1
    have hr : 1 ≤ (s.rand rng).1 ∧ (s.rand rng).1 ≤ back s._prods :=
      range_mem 1 (back s._prods) (by omega) rng
    have hlb : lower_bound s._prods (s.rand rng).1 < ws.length := by
      rw [lower_bound_eq_first_not_less _ _ hsorted, ← prods_loop_length ws 0, ← hp]
      exact first_not_less_lt_length s._prods (s.rand rng).1 hne hr.2
    refine ⟨hr.1, by rw [← hback]; exact hr.2, hlb, ?_, ?_⟩
    · intro hw
      have := zero_weight_not_selected ws (s.rand rng).1 hr.1 _ hlb hw
      rw [hp] at this
      exact this rfl
    · simp [BinarySampler.call, hvs]

/-- Witness of C19 (as amended) on weights `[1, 0, 2]`. -/
theorem binary_zero_weight_never_selected_witness :
    (weight_faster_binary [7, 8, 9] [1, 0, 2] = Outcome.ok ⟨[7, 8, 9], [1, 1, 3]⟩) ∧
    ((∀ r i, 1 ≤ r → i < ([1, 0, 2] : List Nat).length → ([1, 0, 2] : List Nat).getD i 0 = 0 →
        lower_bound (⟨[7, 8, 9], [1, 1, 3]⟩ : BinarySampler Nat)._prods r ≠ i) ∧
      (0 < ([1, 0, 2] : List Nat).sum → ([1, 0, 2] : List Nat).sum < 2 ^ 32 →
        ∀ rng : engine,
          1 ≤ ((⟨[7, 8, 9], [1, 1, 3]⟩ : BinarySampler Nat).rand rng).1 ∧
          ((⟨[7, 8, 9], [1, 1, 3]⟩ : BinarySampler Nat).rand rng).1 ≤
            ([1, 0, 2] : List Nat).sum ∧
          lower_bound (⟨[7, 8, 9], [1, 1, 3]⟩ : BinarySampler Nat)._prods
              ((⟨[7, 8, 9], [1, 1, 3]⟩ : BinarySampler Nat).rand rng).1 <
            ([1, 0, 2] : List Nat).length ∧
          ([1, 0, 2] : List Nat).getD
              (lower_bound (⟨[7, 8, 9], [1, 1, 3]⟩ : BinarySampler Nat)._prods
                ((⟨[7, 8, 9], [1, 1, 3]⟩ : BinarySampler Nat).rand rng).1) 0 ≠ 0 ∧
          ((⟨[7, 8, 9], [1, 1, 3]⟩ : BinarySampler Nat).call rng).1 =
            [7, 8, 9][lower_bound (⟨[7, 8, 9], [1, 1, 3]⟩ : BinarySampler Nat)._prods
              ((⟨[7, 8, 9], [1, 1, 3]⟩ : BinarySampler Nat).rand rng).1]?)) :=
  ⟨by rfl,
    binary_zero_weight_never_selected [7, 8, 9] [1, 0, 2] ⟨[7, 8, 9], [1, 1, 3]⟩ (by rfl)⟩

/-- C19 fails as stated: the `uint32_t` weights `[0, 4294967295, 1]` have the positive
total `2 ^ 32`, the stored total wraps to `0`; the bounds `(1, 0)` of the draw are
swapped, the raw word `0` yields the draw value `0`, the search selects index `0`,
whose weight is zero, and `operator()` returns its value. -/
theorem binary_zero_weight_selected :
    ∃ s : BinarySampler Nat,
      weight_faster_binary [10, 20, 30] [0, 4294967295, 1] = Outcome.ok s ∧
      0 < ([0, 4294967295, 1] : List Nat).sum ∧
      (s.rand ⟨fun _ => 0⟩).1 = 0 ∧
      lower_bound s._prods (s.rand ⟨fun _ => 0⟩).1 = 0 ∧
      ([0, 4294967295, 1] : List Nat).getD 0 0 = 0 ∧
      (s.call ⟨fun _ => 0⟩).1 = some 10 :=
  ⟨⟨[10, 20, 30], [0, 4294967295, 0]⟩, by rfl, by decide, by decide, by decide, by decide,
    by decide⟩

/-- C15 (as amended): the constructor of `weight_faster_binary` checks the lengths
only; with weights that sum to zero the construction succeeds and the stored total
is `0`. -/
theorem binary_zero_total_constructs {α : Type} (vs : List α) (ws : List Nat)
    (hlen : vs.length = ws.length) (hne : vs ≠ []) (hzero : ws.sum = 0) :
    ∃ s, weight_faster_binary vs ws = Outcome.ok s ∧ s._values = vs ∧
      s._prods.length = ws.length ∧ back s._prods = 0 := by
  have hc : ¬ (vs.length = 0 ∨ vs.length ≠ ws.length) := by
    rintro (h | h)
    · exact hne (List.length_eq_zero.mp h)
    · exact h hlen
  have hws : ws ≠ [] := by
    rintro rfl
    exact hne (List.length_eq_zero.mp hlen)
  refine ⟨⟨vs, prods_loop ws 0 []⟩, ?_, rfl, prods_loop_length ws 0, ?_⟩
  · unfold weight_faster_binary
    rw [if_neg hc]
  · have := prods_loop_back ws 0 hws (by omega)
    simpa [hzero] using this

/-- Witness of C15 (as amended) on values `[7, 8]` with weights `[0, 0]`. -/
theorem binary_zero_total_constructs_witness :
    ([7, 8].length = ([0, 0] : List Nat).length ∧ [7, 8] ≠ [] ∧
      ([0, 0] : List Nat).sum = 0) ∧
    ∃ s, weight_faster_binary [7, 8] [0, 0] = Outcome.ok s ∧ s._values = [7, 8] ∧
      s._prods.length = ([0, 0] : List Nat).length ∧ back s._prods = 0 :=
  ⟨⟨by decide, by decide, by decide⟩,
    binary_zero_total_constructs [7, 8] [0, 0] (by decide) (by decide) (by decide)⟩

/-- C15 fails as stated: from values `[42]` and the all-zero weights `[0]` the
construction of `weight_faster_binary` succeeds. -/
theorem binary_zero_total_not_rejected :
    ¬ (([0] : List Nat).sum > 0) ∧
      weight_faster_binary [42] [0] = Outcome.ok ⟨[42], [0]⟩ :=
  ⟨by decide, by rfl⟩

/-! ## Expansion and binary sampler: the same outcome map -/

/-- C13 (as amended): for the same values and the same weights, whose sum `W` fits
the 32-bit accumulator, the element of the expansion array at index `k < W` is the
value that `weight_faster_binary` looks up for the draw value `k + 1`. -/
theorem expansion_binary_same_map {α : Type} (vs : List α) (ws : List Nat)
    (se : ExpansionSampler α) (sb : BinarySampler α)
    (he : weight_faster_expansion vs ws = Outcome.ok se)
    (hb : weight_faster_binary vs ws = Outcome.ok sb) (hfit : ws.sum < 2 ^ 32)
    (k : Nat) (hk : k < ws.sum) :
    (se._values)[k]? = (sb._values)[lower_bound sb._prods (k + 1)]? ∧
      ∃ v, (se._values)[k]? = some v := by
  obtain ⟨hn, hnil, hv⟩ := weight_faster_expansion_ok vs ws se he
  obtain ⟨-, -, hbv, hp⟩ := weight_faster_binary_ok vs ws sb hb
  have hws : ws ≠ [] := by
    rintro rfl
    exact hnil (List.length_eq_zero.mp hn)
  have hback : back (prods_loop ws 0 []) = ws.sum := by
    simpa using prods_loop_back ws 0 hws (by omega)
  have hne : prods_loop ws 0 [] ≠ [] := by
    intro e
    have := prods_loop_length ws 0
    rw [e] at this
    exact hws (List.length_eq_zero.mp this.symm)
  have hlbe : lower_bound (prods_loop ws 0 []) (k + 1) =
      first_not_less (prods_loop ws 0 []) (k + 1) :=
    lower_bound_eq_first_not_less _ _ (prods_loop_sorted ws 0 (by omega)).1
  have hi : first_not_less (prods_loop ws 0 []) (k + 1) < ws.length := by
    have := first_not_less_lt_length (prods_loop ws 0 []) (k + 1) hne (by omega)
    rwa [prods_loop_length] at this
  have hrange := (first_not_less_prods_iff ws 0 (by omega)
    (first_not_less (prods_loop ws 0 []) (k + 1)) hi (k + 1) (by omega)).mp rfl
  have hsucc := List.sum_take_succ ws _ hi
  have hget : ws.getD (first_not_less (prods_loop ws 0 []) (k + 1)) 0 =
      ws[first_not_less (prods_loop ws 0 []) (k + 1)] := by
    rw [List.getD_eq_getElem?_getD, List.getElem?_eq_getElem hi]
    rfl
  have hblock := blocks_getElem? vs ws hn (first_not_less (prods_loop ws 0 []) (k + 1))
    (k - (ws.take (first_not_less (prods_loop ws 0 []) (k + 1))).sum) hi
    (by rw [hget]; omega)
  have hidx : (ws.take (first_not_less (prods_loop ws 0 []) (k + 1))).sum +
      (k - (ws.take (first_not_less (prods_loop ws 0 []) (k + 1))).sum) = k := by omega
  rw [hidx] at hblock
  rw [hv, expansion_loop_eq, List.nil_append, hp, hbv, hlbe, hblock]
  refine ⟨rfl, ?_⟩
  have hiv : first_not_less (prods_loop ws 0 []) (k + 1) < vs.length := by omega
  exact ⟨vs[first_not_less (prods_loop ws 0 []) (k + 1)], List.getElem?_eq_getElem hiv⟩

/-- Witness of C13 (as amended) on values `[7, 8, 9]`, weights `[1, 0, 2]`, index
`1`. -/
theorem expansion_binary_same_map_witness :
    (weight_faster_expansion [7, 8, 9] [1, 0, 2] = Outcome.ok ⟨[7, 9, 9]⟩ ∧
      weight_faster_binary [7, 8, 9] [1, 0, 2] = Outcome.ok ⟨[7, 8, 9], [1, 1, 3]⟩ ∧
      ([1, 0, 2] : List Nat).sum < 2 ^ 32 ∧ 1 < ([1, 0, 2] : List Nat).sum) ∧
    (([7, 9, 9] : List Nat)[1]? = ([7, 8, 9] : List Nat)[lower_bound [1, 1, 3] (1 + 1)]? ∧
      ∃ v, ([7, 9, 9] : List Nat)[1]? = some v) :=
  ⟨⟨by rfl, by rfl, by decide, by decide⟩,
    expansion_binary_same_map [7, 8, 9] [1, 0, 2] ⟨[7, 9, 9]⟩ ⟨[7, 8, 9], [1, 1, 3]⟩
      (by rfl) (by rfl) (by decide) 1 (by decide)⟩

/-- C13 fails as stated: with values `[10, 20]` and the `uint32_t` weights
`[3, 4294967295]` the expansion array holds `20` at index `3`, while the stored sums
of the binary sampler are `[3, 2]` and the search for the draw value `4` returns the
end position. -/
theorem expansion_binary_differ_overflow :
    ∃ (se : ExpansionSampler Nat) (sb : BinarySampler Nat),
      weight_faster_expansion [10, 20] [3, 4294967295] = Outcome.ok se ∧
      weight_faster_binary [10, 20] [3, 4294967295] = Outcome.ok sb ∧
      3 < ([3, 4294967295] : List Nat).sum ∧
      (se._values)[3]? = some 20 ∧
      (sb._values)[lower_bound sb._prods (3 + 1)]? = none := by
  refine ⟨⟨expansion_loop [10, 20] [3, 4294967295] []⟩, ⟨[10, 20], [3, 2]⟩, ?_, by rfl,
    by decide, ?_, by decide⟩
  · unfold weight_faster_expansion
    rw [if_neg (by decide)]
  · have h := blocks_getElem? [10, 20] [3, 4294967295] (by decide) 1 0 (by decide)
      (by decide)
    rw [expansion_loop_eq, List.nil_append]
    exact h

/-! ## Alias sampler: the shape of the table -/

theorem entry_set_self (t : List AliasEntry) (i : Nat) (x : AliasEntry)
    (h : i < t.length) : entry (t.set i x) i = x := by
  simp [entry, List.getD_eq_getElem?_getD, List.getElem?_set, h]

theorem entry_set_ne (t : List AliasEntry) (i j : Nat) (x : AliasEntry) (h : i ≠ j) :
    entry (t.set i x) j = entry t j := by
  simp [entry, List.getD_eq_getElem?_getD, List.getElem?_set, h]

theorem entry_of_mem (t : List AliasEntry) (e : AliasEntry) (h : e ∈ t) :
    ∃ i, i < t.length ∧ entry t i = e := by
  obtain ⟨i, hi, he⟩ := List.getElem_of_mem h
  exact ⟨i, hi, by simp [entry, List.getD_eq_getElem?_getD, List.getElem?_eq_getElem hi, he]⟩

theorem entry_getElem? (t : List AliasEntry) (i : Nat) (h : i < t.length) :
    t[i]? = some (entry t i) := by
  simp [entry, List.getD_eq_getElem?_getD, List.getElem?_eq_getElem h]

theorem entry_replicate (n j : Nat) :
    entry (List.replicate n (Double.zero, (none : Option Nat))) j = (Double.zero, none) := by
  simp only [entry, List.getD_eq_getElem?_getD, List.getElem?_replicate]
  split_ifs <;> rfl

theorem pair_entries_length (t : List AliasEntry) (s l : Nat) :
    (pair_entries t s l).length = t.length := by
  simp [pair_entries]

theorem pair_entries_small (t : List AliasEntry) (s l : Nat) (hs : s < t.length)
    (hne : s ≠ l) : entry (pair_entries t s l) s = ((entry t s).1, some l) := by
  unfold pair_entries
  rw [entry_set_ne _ l s _ (Ne.symm hne), entry_set_self _ _ _ hs]

theorem pair_entries_large (t : List AliasEntry) (s l : Nat) (hs : s < t.length)
    (hl : l < t.length) (hne : s ≠ l) :
    entry (pair_entries t s l) l =
      (Double.sub (entry t l).1 (Double.sub Double.one (entry t s).1), (entry t l).2) := by
  unfold pair_entries
  rw [entry_set_self _ _ _ (by simpa using hl), entry_set_ne _ s l _ hne,
    entry_set_self _ _ _ hs]

theorem pair_entries_other (t : List AliasEntry) (s l j : Nat) (hs : s ≠ j) (hl : l ≠ j) :
    entry (pair_entries t s l) j = entry t j := by
  unfold pair_entries
  rw [entry_set_ne _ l j _ hl, entry_set_ne _ s j _ hs]

theorem pairing_step_nil_small (table : List AliasEntry) (large : List Nat) :
    pairing_step ⟨table, [], large⟩ = none := by
  rw [pairing_step]
  intro t s sm l lg h
  cases h

theorem pairing_step_nil_large (table : List AliasEntry) (small : List Nat) :
    pairing_step ⟨table, small, []⟩ = none := by
  rw [pairing_step]
  intro t s sm l lg h
  cases h

theorem pairing_step_cons (table : List AliasEntry) (s l : Nat) (small large : List Nat) :
    pairing_step ⟨table, s :: small, l :: large⟩ =
      if Double.lt (entry (pair_entries table s l) l).1 Double.one then
        some ⟨pair_entries table s l, small ++ [l], large⟩
      else
        some ⟨pair_entries table s l, small, large ++ [l]⟩ := by
  rw [pairing_step]

theorem pairing_loop_none (bound : Nat) (st : AliasState) (h : pairing_step st = none) :
    pairing_loop bound st = st := by
  cases bound with
  | zero => rfl
  | succ bound => rw [pairing_loop, h]

theorem pairing_loop_some (bound : Nat) (st st1 : AliasState)
    (h : pairing_step st = some st1) :
    pairing_loop (bound + 1) st = pairing_loop bound st1 := by
  rw [pairing_loop, h]

/-- One iteration of the pairing loop keeps the invariant. -/
theorem pairing_step_inv (n : Nat) (t : List AliasEntry) (s l : Nat)
    (small large : List Nat) (h : QueueInv n ⟨t, s :: small, l :: large⟩)
    (small2 large2 : List Nat)
    (hq : (small2 = small ++ [l] ∧ large2 = large ∧
          Double.lt (entry (pair_entries t s l) l).1 Double.one = true) ∨
      (small2 = small ∧ large2 = large ++ [l] ∧
          ¬ Double.lt (entry (pair_entries t s l) l).1 Double.one = true)) :
    QueueInv n ⟨pair_entries t s l, small2, large2⟩ := by
  obtain ⟨hlen, hnd, hbound, hsmall, hlarge, hnone, hdone⟩ := h
  dsimp only at hlen hnd hbound hsmall hlarge hnone hdone
  have hnd2 : s ∉ small ∧ s ≠ l ∧ s ∉ large ∧ l ∉ small ∧ l ∉ large ∧
      (small ++ large).Nodup := by
    simp only [List.cons_append, List.nodup_cons, List.mem_append, List.mem_cons,
      List.nodup_append, List.Disjoint, not_or] at hnd ⊢
    obtain ⟨⟨h1, h2, h3⟩, h4, ⟨h5, h6⟩, h7⟩ := hnd
    refine ⟨h1, h2, h3, ?_, h5, h4, h6, ?_⟩
    · intro hm
      exact h7 hm (Or.inl rfl)
    · intro a ha hb
      exact h7 ha (Or.inr hb)
  obtain ⟨hs_small, hsl, hs_large, hl_small, hl_large, hnd3⟩ := hnd2
  have hs : s < n := hbound s (by simp)
  have hl : l < n := hbound l (by simp)
  have hmem : ∀ i, i ∈ small2 ++ large2 ↔ (i = l ∨ i ∈ small ∨ i ∈ large) := by
    intro i
    rcases hq with ⟨e1, e2, -⟩ | ⟨e1, e2, -⟩
    · subst small2 large2; simp only [List.mem_append, List.mem_singleton]; tauto
    · subst small2 large2; simp only [List.mem_append, List.mem_singleton]; tauto
  have es := pair_entries_small t s l (by omega) hsl
  have el := pair_entries_large t s l (by omega) (by omega) hsl
  have eo : ∀ j, s ≠ j → l ≠ j → entry (pair_entries t s l) j = entry t j :=
    fun j h1 h2 => pair_entries_other t s l j h1 h2
  have hl_none : (entry t l).2 = none := hnone l (by simp)
  have hold : ∀ i, i ∈ small ∨ i ∈ large → s ≠ i ∧ l ≠ i := by
    intro i hi
    constructor
    · rintro rfl; rcases hi with hi | hi
      · exact hs_small hi
      · exact hs_large hi
    · rintro rfl; rcases hi with hi | hi
      · exact hl_small hi
      · exact hl_large hi
  refine ⟨?_, ?_, ?_, ?_, ?_, ?_, ?_⟩
  · simpa [pair_entries_length] using hlen
  · dsimp only
    rcases hq with ⟨e1, e2, -⟩ | ⟨e1, e2, -⟩
    · subst small2 large2
      have hp : (small ++ [l] ++ large).Perm (l :: (small ++ large)) := by
        rw [List.append_assoc]
        exact List.perm_middle
      rw [hp.nodup_iff, List.nodup_cons]
      exact ⟨by simp [hl_small, hl_large], hnd3⟩
    · subst small2 large2
      have hp : (small ++ (large ++ [l])).Perm (l :: (small ++ large)) := by
        rw [← List.append_assoc]
        exact List.perm_append_singleton _ _
      rw [hp.nodup_iff, List.nodup_cons]
      exact ⟨by simp [hl_small, hl_large], hnd3⟩
  · intro i hi
    rcases (hmem i).mp hi with rfl | hi | hi
    · exact hl
    · exact hbound i (by simp [hi])
    · exact hbound i (by simp [hi])
  · intro i hi
    dsimp only at hi ⊢
    rcases hq with ⟨e1, e2, hc⟩ | ⟨e1, e2, hc⟩
    · subst small2 large2
      rcases List.mem_append.mp hi with hi | hi
      · rw [eo i (hold i (Or.inl hi)).1 (hold i (Or.inl hi)).2]
        exact hsmall i (by simp [hi])
      · rw [List.mem_singleton.mp hi]; exact hc
    · subst small2 large2
      rw [eo i (hold i (Or.inl hi)).1 (hold i (Or.inl hi)).2]
      exact hsmall i (by simp [hi])
  · intro i hi
    dsimp only at hi ⊢
    rcases hq with ⟨e1, e2, hc⟩ | ⟨e1, e2, hc⟩
    · subst small2 large2
      rw [eo i (hold i (Or.inr hi)).1 (hold i (Or.inr hi)).2]
      exact hlarge i (by simp [hi])
    · subst small2 large2
      rcases List.mem_append.mp hi with hi | hi
      · rw [eo i (hold i (Or.inr hi)).1 (hold i (Or.inr hi)).2]
        exact hlarge i (by simp [hi])
      · rw [List.mem_singleton.mp hi]
        simpa using hc
  · intro i hi
    dsimp only
    rcases (hmem i).mp hi with rfl | hi
    · rw [el]; exact hl_none
    · rw [eo i (hold i hi).1 (hold i hi).2]
      rcases hi with hi | hi
      · exact hnone i (by simp [hi])
      · exact hnone i (by simp [hi])
  · intro i hi hni
    dsimp only at hni ⊢
    have hni2 : i ≠ l ∧ i ∉ small ∧ i ∉ large := by
      have := (not_congr (hmem i)).mp hni
      tauto
    by_cases his : i = s
    · subst his
      rw [es]
      exact ⟨l, rfl, hl, Ne.symm hsl, hsmall i (by simp)⟩
    · rw [eo i (Ne.symm his) (Ne.symm hni2.1)]
      apply hdone i hi
      simp only [List.cons_append, List.mem_cons, List.mem_append, not_or]
      exact ⟨his, hni2.2.1, hni2.1, hni2.2.2⟩

theorem scale_loop_inv (sz : Nat) (ps : List Double) :
    ∀ (rest : List Double) (i : Nat) (st : AliasState), ps.drop i = rest →
      ScaleInv sz ps i st → ScaleInv sz ps ps.length (scale_loop sz rest i st) := by
  intro rest
  induction rest with
  | nil =>
    intro i st hdrop hinv
    have hle : ps.length ≤ i := List.drop_eq_nil_iff.mp hdrop
    have hi : i = ps.length := le_antisymm hinv.1 hle
    subst hi
    simpa [scale_loop] using hinv
  | cons p rest ih =>
    intro i st hdrop hinv
    obtain ⟨-, hlen, hdone, hnone, hperm, hsmall, hlarge⟩ := hinv
    have hi : i < ps.length := by
      by_contra hge
      rw [List.drop_eq_nil_iff.mpr (by omega)] at hdrop
      cases hdrop
    rw [List.drop_eq_getElem_cons hi] at hdrop
    have hp : ps[i] = p := (List.cons.inj hdrop).1
    have hrest : ps.drop (i + 1) = rest := (List.cons.inj hdrop).2
    have hpi : ps.getD i Double.zero = p := by
      rw [List.getD_eq_getElem?_getD, List.getElem?_eq_getElem hi, ← hp]
      rfl
    have hself : entry (st.table.set i
          (Double.mul (Double.of_nat sz) p, (entry st.table i).2)) i =
        (Double.mul (Double.of_nat sz) p, none) := by
      rw [entry_set_self _ _ _ (by omega), hnone i]
    have hother : ∀ j, j ≠ i →
        entry (st.table.set i (Double.mul (Double.of_nat sz) p, (entry st.table i).2)) j =
          entry st.table j :=
      fun j hj => entry_set_ne _ i j _ (Ne.symm hj)
    have hlt : ∀ j, j ∈ st.small ++ st.large → j ≠ i := by
      intro j hj
      have := List.mem_range.mp (hperm.subset hj)
      omega
    have hbase : (∀ j, j < i + 1 →
          entry (st.table.set i (Double.mul (Double.of_nat sz) p, (entry st.table i).2)) j =
            (Double.mul (Double.of_nat sz) (ps.getD j Double.zero), none)) ∧
        (∀ j, (entry (st.table.set i
          (Double.mul (Double.of_nat sz) p, (entry st.table i).2)) j).2 = none) := by
      constructor
      · intro j hj
        by_cases hji : j = i
        · subst hji; rw [hself, hpi]
        · rw [hother j hji]; exact hdone j (by omega)
      · intro j
        by_cases hji : j = i
        · subst hji; rw [hself]
        · rw [hother j hji]; exact hnone j
    have hrange : (i :: (st.small ++ st.large)).Perm (List.range (i + 1)) := by
      rw [List.range_succ]
      exact (List.Perm.cons i hperm).trans (List.perm_append_singleton i _).symm
    rw [scale_loop]
    by_cases hc : Double.lt (entry (st.table.set i
        (Double.mul (Double.of_nat sz) p, (entry st.table i).2)) i).1 Double.one = true
    · rw [if_pos hc]
      apply ih (i + 1) _ hrest
      refine ⟨by omega, by simpa using hlen, hbase.1, hbase.2, ?_, ?_, ?_⟩
      · refine List.Perm.trans ?_ hrange
        show (st.small ++ [i] ++ st.large).Perm (i :: (st.small ++ st.large))
        rw [List.append_assoc]
        exact List.perm_middle
      · intro j hj
        dsimp only at hj ⊢
        rcases List.mem_append.mp hj with hj | hj
        · rw [hother j (hlt j (by simp [hj]))]; exact hsmall j hj
        · rw [List.mem_singleton.mp hj]; exact hc
      · intro j hj
        dsimp only at hj ⊢
        rw [hother j (hlt j (by simp [hj]))]; exact hlarge j hj
    · rw [if_neg hc]
      apply ih (i + 1) _ hrest
      refine ⟨by omega, by simpa using hlen, hbase.1, hbase.2, ?_, ?_, ?_⟩
      · refine List.Perm.trans ?_ hrange
        show (st.small ++ (st.large ++ [i])).Perm (i :: (st.small ++ st.large))
        rw [← List.append_assoc]
        exact List.perm_append_singleton _ _
      · intro j hj
        dsimp only at hj ⊢
        rw [hother j (hlt j (by simp [hj]))]; exact hsmall j hj
      · intro j hj
        dsimp only at hj ⊢
        rcases List.mem_append.mp hj with hj | hj
        · rw [hother j (hlt j (by simp [hj]))]; exact hlarge j hj
        · rw [List.mem_singleton.mp hj]
          simpa using hc

/-- What the first loop of `generate_alias_table` leaves behind: every entry holds its
scaled probability and no alias, every index is in exactly one queue. -/
theorem scale_loop_establishes (ps : List Double) :
    QueueInv ps.length
        (scale_loop ps.length ps 0 ⟨List.replicate ps.length (Double.zero, none), [], []⟩) ∧
      (scale_loop ps.length ps 0
          ⟨List.replicate ps.length (Double.zero, none), [], []⟩).small.length +
        (scale_loop ps.length ps 0
          ⟨List.replicate ps.length (Double.zero, none), [], []⟩).large.length =
          ps.length ∧
      ∀ j, j < ps.length →
        entry (scale_loop ps.length ps 0
            ⟨List.replicate ps.length (Double.zero, none), [], []⟩).table j =
          (Double.mul (Double.of_nat ps.length) (ps.getD j Double.zero), none) := by
  have h0 : ScaleInv ps.length ps 0
      ⟨List.replicate ps.length (Double.zero, none), [], []⟩ := by
    refine ⟨Nat.zero_le _, by simp, ?_, ?_, by simp, by simp, by simp⟩
    · intro j hj; omega
    · intro j; rw [entry_replicate]
  obtain ⟨-, hlen, hdone, hnone, hperm, hsmall, hlarge⟩ :=
    scale_loop_inv ps.length ps ps 0 _ (by simp) h0
  refine ⟨?_, ?_, hdone⟩
  · refine ⟨hlen, hperm.nodup_iff.mpr (List.nodup_range _),
      fun i hi => List.mem_range.mp (hperm.subset hi), hsmall, hlarge,
      fun i _ => hnone i, ?_⟩
    intro i hi hni
    exact absurd (hperm.symm.subset (List.mem_range.mpr hi)) hni
  · have := hperm.length_eq
    simpa using this

/-! ## Alias sampler: termination of the pairing loop -/

theorem pairing_steps_terminate (n : Nat) :
    ∀ (m : Nat) (st : AliasState), st.small.length + st.large.length = m →
      QueueInv n st → ∀ bound, m - 1 ≤ bound →
      ∃ k, k ≤ m - 1 ∧ pairing_steps k st = some (pairing_loop bound st) ∧
        pairing_step (pairing_loop bound st) = none ∧
        QueueInv n (pairing_loop bound st) ∧
        ∀ j st2, pairing_steps j st = some st2 →
          st2.small.length + st2.large.length + j = m ∧
            (st2.small ++ st2.large).Nodup := by
  intro m
  induction m using Nat.strong_induction_on with
  | _ m ih =>
    intro st hm hinv bound hbound
    obtain ⟨t, small, large⟩ := st
    have hstop : pairing_step ⟨t, small, large⟩ = none →
        ∃ k, k ≤ m - 1 ∧
          pairing_steps k ⟨t, small, large⟩ =
            some (pairing_loop bound ⟨t, small, large⟩) ∧
          pairing_step (pairing_loop bound ⟨t, small, large⟩) = none ∧
          QueueInv n (pairing_loop bound ⟨t, small, large⟩) ∧
          ∀ j st2, pairing_steps j ⟨t, small, large⟩ = some st2 →
            st2.small.length + st2.large.length + j = m ∧
              (st2.small ++ st2.large).Nodup := by
      intro hnone
      have hloop := pairing_loop_none bound _ hnone
      refine ⟨0, Nat.zero_le _, by rw [hloop]; rfl, by rw [hloop]; exact hnone,
        by rw [hloop]; exact hinv, ?_⟩
      intro j st2 hj
      cases j with
      | zero =>
        simp only [pairing_steps, Option.some.injEq] at hj
        subst hj
        exact ⟨hm, hinv.nodup⟩
      | succ j =>
        simp only [pairing_steps, hnone, Option.bind_none] at hj
        cases hj
    cases small with
    | nil => exact hstop (pairing_step_nil_small t large)
    | cons s small =>
      cases large with
      | nil => exact hstop (pairing_step_nil_large t (s :: small))
      | cons l large =>
        simp only [List.length_cons] at hm
        obtain ⟨b, rfl⟩ : ∃ b, bound = b + 1 := ⟨bound - 1, by omega⟩
        have hnext : ∃ st1, pairing_step ⟨t, s :: small, l :: large⟩ = some st1 ∧
            st1.small.length + st1.large.length = m - 1 ∧ QueueInv n st1 := by
          by_cases hc : Double.lt (entry (pair_entries t s l) l).1 Double.one = true
          · refine ⟨⟨pair_entries t s l, small ++ [l], large⟩, ?_, ?_, ?_⟩
            · rw [pairing_step_cons, if_pos hc]
            · simp only [List.length_append, List.length_singleton]; omega
            · exact pairing_step_inv n t s l small large hinv _ _ (Or.inl ⟨rfl, rfl, hc⟩)
          · refine ⟨⟨pair_entries t s l, small, large ++ [l]⟩, ?_, ?_, ?_⟩
            · rw [pairing_step_cons, if_neg hc]
            · simp only [List.length_append, List.length_singleton]; omega
            · exact pairing_step_inv n t s l small large hinv _ _ (Or.inr ⟨rfl, rfl, hc⟩)
        obtain ⟨st1, hstep, hsize, hinv1⟩ := hnext
        have hloop := pairing_loop_some b _ st1 hstep
        obtain ⟨k, hk, hrun, hend, hfin, hall⟩ :=
          ih (m - 1) (by omega) st1 hsize hinv1 b (by omega)
        refine ⟨k + 1, by omega, ?_, by rw [hloop]; exact hend, by rw [hloop]; exact hfin, ?_⟩
        · simp only [pairing_steps, hstep, Option.bind_some]
          rw [hloop]
          exact hrun
        · intro j st2 hj
          cases j with
          | zero =>
            simp only [pairing_steps, Option.some.injEq] at hj
            subst hj
            refine ⟨by simp only [List.length_cons]; omega, hinv.nodup⟩
          | succ j =>
            simp only [pairing_steps, hstep, Option.bind_some] at hj
            obtain ⟨h1, h2⟩ := hall j st2 hj
            exact ⟨by omega, h2⟩

/-- C20: on every input of `n` probabilities the pairing loop of
`generate_alias_table` stops after some `k ≤ n - 1` iterations (none when `n = 0`):
the state after `k` iterations is the final state of the loop and the loop condition
is false there; after `j` iterations the two queues hold `n - j` indices together,
and no index is held twice. -/
theorem pairing_loop_terminates (ps : List Double) :
    ∃ k, k ≤ ps.length - 1 ∧
      pairing_steps k
          (scale_loop ps.length ps 0
            ⟨List.replicate ps.length (Double.zero, none), [], []⟩) =
        some (pairing_loop ps.length
          (scale_loop ps.length ps 0
            ⟨List.replicate ps.length (Double.zero, none), [], []⟩)) ∧
      pairing_step (pairing_loop ps.length
          (scale_loop ps.length ps 0
            ⟨List.replicate ps.length (Double.zero, none), [], []⟩)) = none ∧
      ∀ j st, pairing_steps j
          (scale_loop ps.length ps 0
            ⟨List.replicate ps.length (Double.zero, none), [], []⟩) = some st →
        st.small.length + st.large.length + j = ps.length ∧
          (st.small ++ st.large).Nodup := by
  obtain ⟨hinv, hsize, -⟩ := scale_loop_establishes ps
  obtain ⟨k, hk, hrun, hend, -, hall⟩ :=
    pairing_steps_terminate ps.length ps.length _ hsize hinv ps.length (by omega)
  exact ⟨k, hk, hrun, hend, hall⟩

/-- The final state of `generate_alias_table`: the invariant holds and one of the
queues is empty. -/
theorem generate_alias_table_inv (ps : List Double) :
    ∃ fin : AliasState, generate_alias_table ps = fin.table ∧ QueueInv ps.length fin ∧
      (fin.small = [] ∨ fin.large = []) := by
  obtain ⟨hinv, hsize, -⟩ := scale_loop_establishes ps
  obtain ⟨k, -, -, hend, hfin, -⟩ :=
    pairing_steps_terminate ps.length ps.length _ hsize hinv ps.length (by omega)
  refine ⟨_, rfl, hfin, ?_⟩
  generalize pairing_loop ps.length
    (scale_loop ps.length ps 0 ⟨List.replicate ps.length (Double.zero, none), [], []⟩) =
      fin at hend
  obtain ⟨t, small, large⟩ := fin
  cases small with
  | nil => exact Or.inl rfl
  | cons s small =>
    cases large with
    | nil => exact Or.inr rfl
    | cons l large =>
      rw [pairing_step_cons] at hend
      split_ifs at hend

theorem generate_alias_table_length (ps : List Double) :
    (generate_alias_table ps).length = ps.length := by
  obtain ⟨fin, htab, hinv, -⟩ := generate_alias_table_inv ps
  rw [htab]
  exact hinv.len

/-- C8: the table returned by `generate_alias_table` has one entry per input, and the
alias index of entry `i` is either "none" or an index below `n`, and is never `i`. -/
theorem alias_index_valid (ps : List Double) (i : Nat) (hi : i < ps.length) :
    (generate_alias_table ps).length = ps.length ∧
      ∃ e, (generate_alias_table ps)[i]? = some e ∧
        (e.2 = none ∨ ∃ l, e.2 = some l ∧ l < ps.length) ∧ e.2 ≠ some i := by
  obtain ⟨fin, htab, hinv, -⟩ := generate_alias_table_inv ps
  rw [htab]
  have hlen := hinv.len
  refine ⟨hlen, entry fin.table i, entry_getElem? _ _ (hlen ▸ hi), ?_⟩
  by_cases hq : i ∈ fin.small ++ fin.large
  · have := hinv.queued_none i hq
    exact ⟨Or.inl this, by rw [this]; simp⟩
  · obtain ⟨l, h1, h2, h3, -⟩ := hinv.done_some i hi hq
    refine ⟨Or.inr ⟨l, h1, h2⟩, ?_⟩
    rw [h1]
    intro e
    exact h3 (Option.some.inj e)

/-- Witness of C8 on the probabilities `[1/4, 3/4]`, entry `0`, whose alias is `1`. -/
theorem alias_index_valid_witness :
    0 < ([Double.finite (1 / 4), Double.finite (3 / 4)] : List Double).length ∧
    ((generate_alias_table [Double.finite (1 / 4), Double.finite (3 / 4)]).length =
        ([Double.finite (1 / 4), Double.finite (3 / 4)] : List Double).length ∧
      ∃ e, (generate_alias_table [Double.finite (1 / 4), Double.finite (3 / 4)])[0]? = some e ∧
        (e.2 = none ∨ ∃ l, e.2 = some l ∧
          l < ([Double.finite (1 / 4), Double.finite (3 / 4)] : List Double).length) ∧
        e.2 ≠ some 0) :=
  ⟨by decide, alias_index_valid [Double.finite (1 / 4), Double.finite (3 / 4)] 0 (by decide)⟩

/-! ## Alias sampler: what the constructor checks -/

theorem weight_faster_alias_cases {α : Type} (vs : List α) (ws : List Double)
    (hlen : vs.length = ws.length) (hne : ws ≠ []) :
    (Double.ge (Double.fabs (Double.sub Double.one (re_sum_prod ws))) epsilon = true →
      weight_faster_alias vs ws = Outcome.runtime_error) ∧
    (Double.ge (Double.fabs (Double.sub Double.one (re_sum_prod ws))) epsilon = false →
      weight_faster_alias vs ws = Outcome.ok ⟨vs, generate_alias_table (reprods ws),
        (ws.length + 2 ^ 64 - 1) % 2 ^ 64⟩) := by
  have hc : ¬ (vs.length = 0 ∨ vs.length ≠ ws.length) := by
    rintro (h | h)
    · rw [hlen] at h
      exact hne (List.length_eq_zero.mp h)
    · exact h hlen
  constructor
  · intro h
    unfold weight_faster_alias
    rw [if_neg hc, if_pos h]
  · intro h
    unfold weight_faster_alias
    rw [if_neg hc, if_neg (by simp [h])]

theorem weight_faster_alias_ok {α : Type} (vs : List α) (ws : List Double)
    (s : AliasSampler α) (h : weight_faster_alias vs ws = Outcome.ok s) :
    vs.length = ws.length ∧ ws ≠ [] ∧
      Double.ge (Double.fabs (Double.sub Double.one (re_sum_prod ws))) epsilon = false ∧
      s = ⟨vs, generate_alias_table (reprods ws), (ws.length + 2 ^ 64 - 1) % 2 ^ 64⟩ := by
  unfold weight_faster_alias at h
  split_ifs at h with hc hr
  have hlen : vs.length = ws.length := by
    by_contra hne
    exact hc (Or.inr hne)
  refine ⟨hlen, ?_, by simpa using hr, (Outcome.ok.inj h).symm⟩
  intro e
  exact hc (Or.inl (by rw [hlen, e]; rfl))

/-- The check after the normalization is not idle: the weights `[4, 1, 1, 1]` are
divided by their sum `7`, the four quotients are rounded, their sum in `double` is
`1 - 2^-52`, and the construction throws. -/
theorem alias_rounding_throws :
    weight_faster_alias [1, 2, 3, 4]
        [Double.finite 4, Double.finite 1, Double.finite 1, Double.finite 1] =
      Outcome.runtime_error := by
  decide!

/-- A zero sum of the weights is no error: the quotients `0.0 / 0.0` are NaN, every
comparison with NaN is false, and the construction stores a table of NaN. -/
theorem alias_zero_sum_constructs :
    weight_faster_alias [1, 2] [Double.finite 0, Double.finite 0] =
      Outcome.ok ⟨[1, 2], [(Double.nan, none), (Double.nan, none)], 1⟩ := by
  decide!

/-- C14 (as amended): for non-empty sequences of equal length the construction of
`weight_faster_alias` throws `std::runtime_error` if and only if the comparison
`fabs(1.0 - re_sum_prod) >= epsilon` of the source holds in `double`, that is, if the
re-summed probabilities deviate from `1.0` by epsilon or more. -/
theorem alias_runtime_error_iff {α : Type} (vs : List α) (ws : List Double)
    (hlen : vs.length = ws.length) (hne : ws ≠ []) :
    weight_faster_alias vs ws = Outcome.runtime_error ↔
      Double.ge (Double.fabs (Double.sub Double.one (re_sum_prod ws))) epsilon = true := by
  obtain ⟨hthrow, hok⟩ := weight_faster_alias_cases vs ws hlen hne
  constructor
  · intro h
    by_contra hn
    rw [hok (by simpa using hn)] at h
    cases h
  · exact hthrow

/-- Witness of C14 (as amended) on the weights `[4, 1, 1, 1]`. -/
theorem alias_runtime_error_iff_witness :
    ([1, 2, 3, 4].length =
        [Double.finite 4, Double.finite 1, Double.finite 1, Double.finite 1].length ∧
      [Double.finite 4, Double.finite 1, Double.finite 1, Double.finite 1] ≠ []) ∧
    (weight_faster_alias [1, 2, 3, 4]
          [Double.finite 4, Double.finite 1, Double.finite 1, Double.finite 1] =
        Outcome.runtime_error ↔
      Double.ge (Double.fabs (Double.sub Double.one (re_sum_prod
        [Double.finite 4, Double.finite 1, Double.finite 1, Double.finite 1]))) epsilon =
          true) :=
  ⟨⟨by decide, by simp⟩,
    alias_runtime_error_iff [1, 2, 3, 4]
      [Double.finite 4, Double.finite 1, Double.finite 1, Double.finite 1] (by decide)
      (by simp)⟩

/-- C14 fails as stated: the weights `[1/2, 1/2 + 2^-52]` sum to `1 + 2^-52`; the
deviation is exactly epsilon, which is not more than epsilon, so they are not
normalized, the re-sum deviates by exactly epsilon, not by more, and the construction
throws `std::runtime_error`. -/
theorem alias_runtime_error_at_epsilon :
    weight_faster_alias [10, 20] [Double.finite (1 / 2), Double.finite (1 / 2 + 1 / 2 ^ 52)] =
        Outcome.runtime_error ∧
      Double.gt (Double.fabs (Double.sub Double.one (re_sum_prod
        [Double.finite (1 / 2), Double.finite (1 / 2 + 1 / 2 ^ 52)]))) epsilon = false := by
  decide!

/-- C16 (as amended): the constructor of `weight_faster_alias` does not look at the
sign of the weights.  For non-empty sequences of equal length, with or without
negative weights, the construction succeeds exactly when the comparison
`fabs(1.0 - re_sum_prod) >= epsilon` is false, and it then stores the table of the
normalized weights. -/
theorem alias_sign_not_checked {α : Type} (vs : List α) (ws : List Double)
    (hlen : vs.length = ws.length) (hne : ws ≠ []) :
    ((∃ s, weight_faster_alias vs ws = Outcome.ok s) ↔
        Double.ge (Double.fabs (Double.sub Double.one (re_sum_prod ws))) epsilon = false) ∧
      ∀ s, weight_faster_alias vs ws = Outcome.ok s →
        s._values = vs ∧ s._alias = generate_alias_table (reprods ws) := by
  obtain ⟨hthrow, hok⟩ := weight_faster_alias_cases vs ws hlen hne
  refine ⟨⟨?_, fun h => ⟨_, hok h⟩⟩, ?_⟩
  · rintro ⟨s, hs⟩
    exact (weight_faster_alias_ok vs ws s hs).2.2.1
  · intro s hs
    obtain ⟨-, -, -, rfl⟩ := weight_faster_alias_ok vs ws s hs
    exact ⟨rfl, rfl⟩

/-- Witness of C16 (as amended) on the weights `[3, -1]`, whose sum is `2`. -/
theorem alias_sign_not_checked_witness :
    ([10, 20].length = [Double.finite 3, Double.finite (-1)].length ∧
      [Double.finite 3, Double.finite (-1)] ≠ []) ∧
    (((∃ s, weight_faster_alias [10, 20] [Double.finite 3, Double.finite (-1)] =
          Outcome.ok s) ↔
        Double.ge (Double.fabs (Double.sub Double.one (re_sum_prod
          [Double.finite 3, Double.finite (-1)]))) epsilon = false) ∧
      ∀ s, weight_faster_alias [10, 20] [Double.finite 3, Double.finite (-1)] =
          Outcome.ok s →
        s._values = [10, 20] ∧
          s._alias = generate_alias_table (reprods [Double.finite 3, Double.finite (-1)])) :=
  ⟨⟨by decide, by simp⟩,
    alias_sign_not_checked [10, 20] [Double.finite 3, Double.finite (-1)] (by decide)
      (by simp)⟩

/-- C16 fails as stated: the weights `[2, -1]` contain a negative weight and sum to
`1`; the construction of `weight_faster_alias` succeeds, with the cutoff `-2` in
entry `1`. -/
theorem alias_negative_weight_accepted :
    (∃ w ∈ [Double.finite 2, Double.finite (-1)], Double.lt w Double.zero = true) ∧
      weight_faster_alias [10, 20] [Double.finite 2, Double.finite (-1)] =
        Outcome.ok ⟨[10, 20], [(Double.finite 1, none), (Double.finite (-2), some 0)], 1⟩ := by
  constructor
  · exact ⟨Double.finite (-1), by simp, by decide!⟩
  · decide!

/-! ## Alias sampler: the cutoffs -/

/-- C7 fails as stated: from the weights `[1, 2, 2]` the construction succeeds, and
the rounded operations leave the cutoff `1 + 2^-51` in entry `2`. -/
theorem alias_cutoff_above_one :
    ∃ s : AliasSampler Nat,
      weight_faster_alias [10, 20, 30]
        [Double.finite 1, Double.finite 2, Double.finite 2] = Outcome.ok s ∧
      entry s._alias 2 = (Double.finite (1 + 1 / 2 ^ 51), none) ∧
      ¬ (Double.le Double.zero (entry s._alias 2).1 = true ∧
        Double.le (entry s._alias 2).1 Double.one = true) := by
  refine ⟨⟨[10, 20, 30], generate_alias_table
    (reprods [Double.finite 1, Double.finite 2, Double.finite 2]), 2⟩, ?_, ?_, ?_⟩
  · decide!
  · decide!
  · decide!

theorem generate_alias_table_aliased (ps : List Double) (e : AliasEntry)
    (he : e ∈ generate_alias_table ps) (hal : e.2 ≠ none) :
    Double.lt e.1 Double.one = true := by
  obtain ⟨fin, htab, hinv, -⟩ := generate_alias_table_inv ps
  rw [htab] at he
  obtain ⟨i, hi, rfl⟩ := entry_of_mem _ _ he
  rw [hinv.len] at hi
  by_cases hq : i ∈ fin.small ++ fin.large
  · exact absurd (hinv.queued_none i hq) hal
  · obtain ⟨l, -, -, -, hlt⟩ := hinv.done_some i hi hq
    exact hlt

/-! ## Rounding to double -/

theorem bit_length_zero (bound : Nat) : Double.bit_length bound 0 = 0 := by
  cases bound with
  | zero => rfl
  | succ b => simp [Double.bit_length]

theorem bit_length_spec (bound n : Nat) (h : n ≤ bound) (hn : 0 < n) :
    2 ^ (Double.bit_length bound n - 1) ≤ n ∧ n < 2 ^ Double.bit_length bound n ∧
      0 < Double.bit_length bound n := by
  induction bound generalizing n with
  | zero => omega
  | succ b ih =>
    rw [Double.bit_length, if_neg (by omega)]
    by_cases h2 : n / 2 = 0
    · rw [h2, bit_length_zero]
      have : n = 1 := by omega
      subst this
      decide
    · obtain ⟨h3, h4, h5⟩ := ih (n / 2) (by omega) (by omega)
      have hp : 2 ^ Double.bit_length b (n / 2) =
          2 * 2 ^ (Double.bit_length b (n / 2) - 1) := by
        rw [← pow_succ']
        congr 1
        omega
      refine ⟨?_, ?_, by omega⟩
      · rw [Nat.add_sub_cancel]
        omega
      · rw [pow_succ]
        omega

theorem bit_length_mono (a b : Nat) (ha : 0 < a) (hab : a ≤ b) :
    Double.bit_length a a ≤ Double.bit_length b b := by
  obtain ⟨h1, -, -⟩ := bit_length_spec a a (le_refl a) ha
  obtain ⟨-, h2, -⟩ := bit_length_spec b b (le_refl b) (by omega)
  have h3 : 2 ^ (Double.bit_length a a - 1) < 2 ^ Double.bit_length b b := by omega
  have := (Nat.pow_lt_pow_iff_right (by decide : 1 < 2)).mp h3
  omega

theorem binade_le (a b : Nat) :
    Double.binade a b ≤ (Double.bit_length a a : Int) - (Double.bit_length b b : Int) := by
  unfold Double.binade
  split_ifs <;> omega

/-- The binade of `a / b` is not above it: `2 ^ e ≤ a / b`. -/
theorem binade_spec (a b : Nat) (ha : 0 < a) (hb : 0 < b) :
    (∃ k : Nat, Double.binade a b = (k : Int) ∧ b * 2 ^ k ≤ a) ∨
      (∃ k : Nat, Double.binade a b = -((k : Int) + 1) ∧ b ≤ a * 2 ^ (k + 1)) := by
  obtain ⟨ha1, ha2, ha3⟩ := bit_length_spec a a (le_refl a) ha
  obtain ⟨hb1, hb2, hb3⟩ := bit_length_spec b b (le_refl b) hb
  unfold Double.binade
  generalize Double.bit_length a a = la at *
  generalize Double.bit_length b b = lb at *
  by_cases hd : lb ≤ la
  · have e1 : ((la : Int) - (lb : Int)) = ((la - lb : Nat) : Int) := by omega
    rw [if_pos (by omega), e1, Int.toNat_ofNat]
    by_cases ht : b * 2 ^ (la - lb) ≤ a
    · rw [if_pos ht]
      exact Or.inl ⟨la - lb, rfl, ht⟩
    · rw [if_neg ht]
      by_cases h0 : la = lb
      · refine Or.inr ⟨0, by omega, ?_⟩
        have hp : 2 ^ lb = 2 * 2 ^ (la - 1) := by
          rw [← pow_succ']
          congr 1
          omega
        omega
      · refine Or.inl ⟨la - lb - 1, by omega, ?_⟩
        have hp : 2 ^ lb * 2 ^ (la - lb - 1) = 2 ^ (la - 1) := by
          rw [← pow_add]
          congr 1
          omega
        have h1 : b * 2 ^ (la - lb - 1) ≤ 2 ^ lb * 2 ^ (la - lb - 1) :=
          Nat.mul_le_mul_right _ (by omega)
        omega
  · rw [if_neg (by omega)]
    have e1 : (-((la : Int) - (lb : Int))).toNat = lb - la := by omega
    rw [e1]
    by_cases ht : b ≤ a * 2 ^ (lb - la)
    · rw [if_pos ht]
      refine Or.inr ⟨lb - la - 1, by omega, ?_⟩
      rwa [show lb - la - 1 + 1 = lb - la by omega]
    · rw [if_neg ht]
      refine Or.inr ⟨lb - la, by omega, ?_⟩
      have hp : 2 ^ (la - 1) * 2 ^ (lb - la + 1) = 2 ^ lb := by
        rw [← pow_add]
        congr 1
        omega
      have h1 : 2 ^ (la - 1) * 2 ^ (lb - la + 1) ≤ a * 2 ^ (lb - la + 1) :=
        Nat.mul_le_mul_right _ ha1
      omega

theorem round_half_even_mul (c d : Nat) (hd : 0 < d) :
    Double.round_half_even (c * d) d = c := by
  unfold Double.round_half_even
  rw [Nat.mul_mod_left, Nat.mul_div_cancel _ hd, if_pos (by omega)]

theorem round_half_even_le (N D T : Nat) (hD : 0 < D) (h : N ≤ T * D) :
    Double.round_half_even N D ≤ T := by
  have hdiv : N / D ≤ T := Nat.div_le_of_le_mul (by rwa [Nat.mul_comm] at h)
  unfold Double.round_half_even
  by_cases heq : N / D = T
  · have hmod : N % D = 0 := by
      have := Nat.div_add_mod N D
      rw [heq] at this
      have h2 : D * T = T * D := Nat.mul_comm _ _
      omega
    rw [hmod, if_pos (by omega)]
    exact hdiv
  · split_ifs <;> omega

theorem scale2_neg (n j : Nat) (hj : 0 < j) :
    Double.scale2 n (-(j : Int)) = (n : ℚ) / 2 ^ j := by
  unfold Double.scale2
  rw [if_neg (by omega), Int.neg_neg, Int.toNat_ofNat, Rat.mkRat_eq_div]
  push_cast
  rfl

theorem scale2_nonneg (n : Nat) (k : Int) : 0 ≤ Double.scale2 n k := by
  unfold Double.scale2
  split_ifs
  · exact Nat.cast_nonneg _
  · rw [Rat.mkRat_eq_div]
    positivity

theorem significand_neg (a b j : Nat) (hj : 0 < j) :
    Double.significand a b (-(j : Int)) = Double.round_half_even (a * 2 ^ j) b := by
  unfold Double.significand
  rw [if_neg (by omega), Int.neg_neg, Int.toNat_ofNat]

theorem scale2_overflow : Double.scale2 1 1024 = (2 : ℚ) ^ 1024 := by
  unfold Double.scale2
  rw [if_pos (by decide), show (1024 : Int).toNat = 1024 from rfl, Nat.one_mul,
    Nat.cast_pow, Nat.cast_ofNat]

theorem scale2_not_overflow (x : ℚ) (h : x ≤ 2 ^ 64) : ¬ Double.scale2 1 1024 ≤ x := by
  rw [scale2_overflow]
  have h2 : (2 : ℚ) ^ 64 < 2 ^ 1024 := pow_lt_pow_right₀ (by norm_num) (by norm_num)
  intro h3
  linarith

/-- A rounded result that is below the overflow threshold is the value with its
sign. -/
theorem round_of_scale2 (q : ℚ) (hq : q ≠ 0) (x : ℚ)
    (hx : Double.scale2 (Double.significand q.num.natAbs q.den
        (Double.ulp_exponent q.num.natAbs q.den))
      (Double.ulp_exponent q.num.natAbs q.den) = x) (hle : x ≤ 2 ^ 64) :
    Double.round q = if 0 < q then Double.finite x else Double.finite (-x) := by
  unfold Double.round
  rw [if_neg hq, hx, if_neg (scale2_not_overflow x hle)]

/-- Exactness of the rounding on the numbers `a / 2 ^ u` with `a < 2 ^ 53` and
`u ≤ 1074`: the significand is `a` shifted, and scaling back gives `a / 2 ^ u`. -/
theorem scale2_significand_dyadic (a u : Nat) (ha : 0 < a) (ha2 : a < 2 ^ 53)
    (hu : u ≤ 1074) :
    Double.scale2 (Double.significand a (2 ^ u) (Double.ulp_exponent a (2 ^ u)))
      (Double.ulp_exponent a (2 ^ u)) = (a : ℚ) / 2 ^ u := by
  have hb : 0 < 2 ^ u := Nat.pow_pos (by decide)
  have key : ∀ j : Nat, 0 < j → u ≤ j →
      Double.scale2 (Double.significand a (2 ^ u) (-(j : Int))) (-(j : Int)) =
        (a : ℚ) / 2 ^ u := by
    intro j hj huj
    rw [significand_neg _ _ _ hj, scale2_neg _ _ hj]
    have e : a * 2 ^ j = (a * 2 ^ (j - u)) * 2 ^ u := by
      rw [Nat.mul_assoc, ← pow_add]
      congr 2
      omega
    rw [e, round_half_even_mul _ _ hb]
    have e2 : (2 : ℚ) ^ j = 2 ^ (j - u) * 2 ^ u := by
      rw [← pow_add]
      congr 1
      omega
    rw [e2]
    push_cast
    field_simp
    ring
  unfold Double.ulp_exponent
  rcases binade_spec a (2 ^ u) ha hb with ⟨k, hk, hle⟩ | ⟨k, hk, hle⟩
  · rw [hk]
    have h1 : 2 ^ (u + k) < 2 ^ 53 := by
      rw [pow_add]
      omega
    have h2 : u + k < 53 := (Nat.pow_lt_pow_iff_right (by decide : 1 < 2)).mp h1
    by_cases h52 : k = 52
    · subst h52
      have hu0 : u = 0 := by omega
      subst hu0
      have e : max ((52 : Nat) : Int) (-1022) - 52 = 0 := by decide
      rw [e]
      have hr := round_half_even_mul a 1 (by decide)
      rw [Nat.mul_one] at hr
      unfold Double.significand Double.scale2
      rw [if_pos (le_refl _), if_pos (le_refl _)]
      simp only [Int.toNat_zero, pow_zero, Nat.mul_one]
      rw [hr]
      simp
    · have e : max (k : Int) (-1022) - 52 = -((52 - k : Nat) : Int) := by omega
      rw [e]
      exact key (52 - k) (by omega) (by omega)
  · rw [hk]
    have h1 : 2 ^ u < 2 ^ (53 + (k + 1)) := by
      rw [pow_add]
      have : a * 2 ^ (k + 1) < 2 ^ 53 * 2 ^ (k + 1) :=
        Nat.mul_lt_mul_of_pos_right ha2 (Nat.pow_pos (by decide))
      omega
    have h2 : u < 53 + (k + 1) := (Nat.pow_lt_pow_iff_right (by decide : 1 < 2)).mp h1
    by_cases hsub : k + 1 ≤ 1022
    · have e : max (-((k : Int) + 1)) (-1022) - 52 = -((k + 53 : Nat) : Int) := by omega
      rw [e]
      exact key (k + 53) (by omega) (by omega)
    · have e : max (-((k : Int) + 1)) (-1022) - 52 = -((1074 : Nat) : Int) := by omega
      rw [e]
      exact key 1074 (by omega) hu

/-- A number with numerator below `2 ^ 53` and denominator `2 ^ u`, `u ≤ 1074`, is a
value of the type `double`: rounding leaves it as it is. -/
theorem round_exact (q : ℚ) (hnum : q.num.natAbs < 2 ^ 53) (u : Nat) (hu : u ≤ 1074)
    (hden : q.den = 2 ^ u) : Double.round q = Double.finite q := by
  by_cases hq : q = 0
  · subst hq
    rfl
  · have ha : 0 < q.num.natAbs := Int.natAbs_pos.mpr (Rat.num_ne_zero.mpr hq)
    have hs := scale2_significand_dyadic q.num.natAbs u ha hnum hu
    rw [← hden] at hs
    have hqd : (q.num : ℚ) / 2 ^ u = q := by
      have := Rat.num_div_den q
      rw [hden] at this
      push_cast at this
      exact this
    have habs : (q.num.natAbs : ℚ) / 2 ^ u = |q| := by
      rw [Nat.cast_natAbs]
      conv_rhs => rw [← hqd]
      rw [abs_div, abs_of_pos (by positivity : (0 : ℚ) < 2 ^ u)]
      push_cast
      rfl
    rw [habs] at hs
    have hle : |q| ≤ 2 ^ 64 := by
      rw [← habs]
      have h1 : (q.num.natAbs : ℚ) < 2 ^ 53 := by exact_mod_cast hnum
      have h2 : (1 : ℚ) ≤ 2 ^ u := one_le_pow₀ (by norm_num)
      have h3 : (q.num.natAbs : ℚ) / 2 ^ u ≤ q.num.natAbs :=
        div_le_self (Nat.cast_nonneg _) h2
      have h4 : (2 : ℚ) ^ 53 ≤ 2 ^ 64 := pow_le_pow_right₀ (by norm_num) (by norm_num)
      linarith
    rw [round_of_scale2 q hq _ hs hle]
    by_cases hpos : 0 < q
    · rw [if_pos hpos, abs_of_pos hpos]
    · rw [if_neg hpos, abs_of_neg (lt_of_le_of_ne (not_lt.mp hpos) hq), neg_neg]

theorem round_dyadic (q : ℚ) (h : Double.dyadic q) : Double.round q = Double.finite q := by
  obtain ⟨z, t, hz, ht, rfl⟩ := h
  have e : (z : ℚ) / 2 ^ t = Rat.divInt z ((2 : Int) ^ t) := by
    rw [Rat.divInt_eq_div]
    push_cast
    rfl
  have hden : ((z : ℚ) / 2 ^ t).den ∣ 2 ^ t := by
    have h1 := Rat.den_dvd z ((2 : Int) ^ t)
    rw [← e] at h1
    have h3 : ((2 : Int) ^ t) = (((2 ^ t : Nat)) : Int) := by push_cast; rfl
    rw [h3] at h1
    exact Int.natCast_dvd_natCast.mp h1
  obtain ⟨u, hut, hu⟩ := (Nat.dvd_prime_pow Nat.prime_two).mp hden
  have hnum : ((z : ℚ) / 2 ^ t).num.natAbs ≤ z.natAbs := by
    by_cases hz0 : z = 0
    · subst hz0
      simp
    · have h1 := Rat.num_dvd z (b := (2 : Int) ^ t) (by positivity)
      rw [← e] at h1
      exact Nat.le_of_dvd (Int.natAbs_pos.mpr hz0) (Int.natAbs_dvd_natAbs.mpr h1)
  exact round_exact _ (by omega) u (by omega) hu

/-! ## The alias table in exact arithmetic: what it reproduces

The method of the alias table is correct over the rational numbers: when the scaled
probabilities sum to `n`, the table reproduces them under the draw rule, with every
cutoff in `[0, 1]`. -/

namespace rational

theorem exact_entry_set_self (t : List AliasEntry) (i : Nat) (x : AliasEntry)
    (h : i < t.length) : entry (t.set i x) i = x := by
  simp [entry, List.getD_eq_getElem?_getD, List.getElem?_set, h]

theorem exact_entry_set_ne (t : List AliasEntry) (i j : Nat) (x : AliasEntry) (h : i ≠ j) :
    entry (t.set i x) j = entry t j := by
  simp [entry, List.getD_eq_getElem?_getD, List.getElem?_set, h]

theorem exact_entry_of_mem (t : List AliasEntry) (e : AliasEntry) (h : e ∈ t) :
    ∃ i, i < t.length ∧ entry t i = e := by
  obtain ⟨i, hi, he⟩ := List.getElem_of_mem h
  exact ⟨i, hi, by simp [entry, List.getD_eq_getElem?_getD, List.getElem?_eq_getElem hi, he]⟩

theorem exact_pair_entries_length (t : List AliasEntry) (s l : Nat) :
    (pair_entries t s l).length = t.length := by
  simp [pair_entries]

theorem exact_pair_entries_small (t : List AliasEntry) (s l : Nat) (hs : s < t.length)
    (hne : s ≠ l) : entry (pair_entries t s l) s = ((entry t s).1, some l) := by
  unfold pair_entries
  dsimp only
  rw [exact_entry_set_ne _ l s _ (Ne.symm hne), exact_entry_set_self _ _ _ hs]

theorem exact_pair_entries_large (t : List AliasEntry) (s l : Nat) (hs : s < t.length)
    (hl : l < t.length) (hne : s ≠ l) :
    entry (pair_entries t s l) l =
      ((entry t l).1 - (1 - (entry t s).1), (entry t l).2) := by
  unfold pair_entries
  dsimp only
  rw [exact_entry_set_self _ _ _ (by simpa using hl), exact_entry_set_ne _ s l _ hne,
    exact_entry_set_self _ _ _ hs]

theorem exact_pair_entries_other (t : List AliasEntry) (s l j : Nat) (hs : s ≠ j) (hl : l ≠ j) :
    entry (pair_entries t s l) j = entry t j := by
  unfold pair_entries
  dsimp only
  rw [exact_entry_set_ne _ l j _ hl, exact_entry_set_ne _ s j _ hs]

theorem exact_pairing_loop_cons (table : List AliasEntry) (s l : Nat) (small large : List Nat) :
    pairing_loop ⟨table, s :: small, l :: large⟩ =
      if (entry (pair_entries table s l) l).1 < 1 then
        pairing_loop ⟨pair_entries table s l, small ++ [l], large⟩
      else
        pairing_loop ⟨pair_entries table s l, small, large ++ [l]⟩ := by
  rw [pairing_loop]

theorem exact_pairing_loop_nil_small (table : List AliasEntry) (large : List Nat) :
    pairing_loop ⟨table, [], large⟩ = ⟨table, [], large⟩ := by
  rw [pairing_loop]
  intro t s sm l lg h
  cases h

theorem exact_pairing_loop_nil_large (table : List AliasEntry) (small : List Nat) :
    pairing_loop ⟨table, small, []⟩ = ⟨table, small, []⟩ := by
  rw [pairing_loop]
  intro t s sm l lg h
  cases h

theorem exact_pairing_step_inv (n : Nat) (q : Nat → ℚ) (t : List AliasEntry) (s l : Nat)
    (small large : List Nat) (h : PairingInv n q ⟨t, s :: small, l :: large⟩)
    (small2 large2 : List Nat)
    (hq : (small2 = small ++ [l] ∧ large2 = large ∧ (entry (pair_entries t s l) l).1 < 1) ∨
      (small2 = small ∧ large2 = large ++ [l] ∧ ¬ (entry (pair_entries t s l) l).1 < 1)) :
    PairingInv n q ⟨pair_entries t s l, small2, large2⟩ := by
  obtain ⟨hlen, hnd, hbound, hsmall, hlarge, hnone, hdone, hmass, hexc, hnonneg⟩ := h
  dsimp only at hlen hnd hbound hsmall hlarge hnone hdone hmass hexc hnonneg
  have hnd2 : s ∉ small ∧ s ≠ l ∧ s ∉ large ∧ l ∉ small ∧ l ∉ large ∧
      (small ++ large).Nodup := by
    simp only [List.cons_append, List.nodup_cons, List.mem_append, List.mem_cons,
      List.nodup_append, List.Disjoint, not_or] at hnd ⊢
    obtain ⟨⟨h1, h2, h3⟩, h4, ⟨h5, h6⟩, h7⟩ := hnd
    refine ⟨h1, h2, h3, ?_, h5, h4, h6, ?_⟩
    · intro hm
      exact h7 hm (Or.inl rfl)
    · intro a ha hb
      exact h7 ha (Or.inr hb)
  obtain ⟨hs_small, hsl, hs_large, hl_small, hl_large, hnd3⟩ := hnd2
  have hs : s < n := hbound s (by simp)
  have hl : l < n := hbound l (by simp)
  have hmem : ∀ i, i ∈ small2 ++ large2 ↔ (i = l ∨ i ∈ small ∨ i ∈ large) := by
    intro i
    rcases hq with ⟨e1, e2, -⟩ | ⟨e1, e2, -⟩
    · subst small2 large2; simp only [List.mem_append, List.mem_singleton]; tauto
    · subst small2 large2; simp only [List.mem_append, List.mem_singleton]; tauto
  have es := exact_pair_entries_small t s l (by omega) hsl
  have el := exact_pair_entries_large t s l (by omega) (by omega) hsl
  have eo : ∀ j, s ≠ j → l ≠ j → entry (pair_entries t s l) j = entry t j :=
    fun j h1 h2 => exact_pair_entries_other t s l j h1 h2
  have hl_none : (entry t l).2 = none := hnone l (by simp)
  have hs_none : (entry t s).2 = none := hnone s (by simp)
  have hold : ∀ i, i ∈ small ∨ i ∈ large → s ≠ i ∧ l ≠ i := by
    intro i hi
    constructor
    · rintro rfl; rcases hi with hi | hi
      · exact hs_small hi
      · exact hs_large hi
    · rintro rfl; rcases hi with hi | hi
      · exact hl_small hi
      · exact hl_large hi
  refine ⟨?_, ?_, ?_, ?_, ?_, ?_, ?_, ?_, ?_, ?_⟩
  · -- len
    simpa [exact_pair_entries_length] using hlen
  · -- nodup
    dsimp only
    rcases hq with ⟨e1, e2, -⟩ | ⟨e1, e2, -⟩
    · subst small2 large2
      have hp : (small ++ [l] ++ large).Perm (l :: (small ++ large)) := by
        rw [List.append_assoc]
        exact List.perm_middle
      rw [hp.nodup_iff, List.nodup_cons]
      exact ⟨by simp [hl_small, hl_large], hnd3⟩
    · subst small2 large2
      have hp : (small ++ (large ++ [l])).Perm (l :: (small ++ large)) := by
        rw [← List.append_assoc]
        exact List.perm_append_singleton _ _
      rw [hp.nodup_iff, List.nodup_cons]
      exact ⟨by simp [hl_small, hl_large], hnd3⟩
  · -- bound
    intro i hi
    rcases (hmem i).mp hi with rfl | hi | hi
    · exact hl
    · exact hbound i (by simp [hi])
    · exact hbound i (by simp [hi])
  · -- small_lt
    intro i hi
    dsimp only at hi ⊢
    rcases hq with ⟨e1, e2, hc⟩ | ⟨e1, e2, hc⟩
    · subst small2 large2
      rcases List.mem_append.mp hi with hi | hi
      · rw [eo i (hold i (Or.inl hi)).1 (hold i (Or.inl hi)).2]
        exact hsmall i (by simp [hi])
      · rw [List.mem_singleton.mp hi]; exact hc
    · subst small2 large2
      rw [eo i (hold i (Or.inl hi)).1 (hold i (Or.inl hi)).2]
      exact hsmall i (by simp [hi])
  · -- large_ge
    intro i hi
    dsimp only at hi ⊢
    rcases hq with ⟨e1, e2, hc⟩ | ⟨e1, e2, hc⟩
    · subst small2 large2
      rw [eo i (hold i (Or.inr hi)).1 (hold i (Or.inr hi)).2]
      exact hlarge i (by simp [hi])
    · subst small2 large2
      rcases List.mem_append.mp hi with hi | hi
      · rw [eo i (hold i (Or.inr hi)).1 (hold i (Or.inr hi)).2]
        exact hlarge i (by simp [hi])
      · rw [List.mem_singleton.mp hi]; exact not_lt.mp hc
  · -- queued_none
    intro i hi
    dsimp only
    rcases (hmem i).mp hi with rfl | hi
    · rw [el]; exact hl_none
    · rw [eo i (hold i hi).1 (hold i hi).2]
      rcases hi with hi | hi
      · exact hnone i (by simp [hi])
      · exact hnone i (by simp [hi])
  · -- done_some
    intro i hi hni
    dsimp only at hni ⊢
    have hni2 := fun hh => hni ((hmem i).mpr hh)
    by_cases his : i = s
    · subst his
      rw [es]
      exact ⟨l, rfl, hl, Ne.symm hsl, hsmall i (by simp)⟩
    · have hil : l ≠ i := fun e => hni2 (Or.inl e.symm)
      rw [eo i (Ne.symm his) hil]
      apply hdone i hi
      simp only [List.cons_append, List.mem_cons, List.mem_append, not_or]
      exact ⟨his, fun hh => hni2 (Or.inr (Or.inl hh)), fun e => hil e.symm,
        fun hh => hni2 (Or.inr (Or.inr hh))⟩
  · -- mass
    intro j hj
    dsimp only
    have hterm : ∀ i, i ∈ Finset.range n →
        (if (entry (pair_entries t s l) i).2 = some j
          then 1 - (entry (pair_entries t s l) i).1 else 0) =
        (if (entry t i).2 = some j then 1 - (entry t i).1 else 0) +
          (if s = i then (if l = j then 1 - (entry t s).1 else 0) else 0) := by
      intro i _
      by_cases his : s = i
      · subst his
        rw [es, hs_none]
        simp
      · by_cases hil : l = i
        · subst hil
          rw [el, hl_none]
          simp [his]
        · rw [eo i his hil]
          simp [his]
    rw [Finset.sum_congr rfl hterm, Finset.sum_add_distrib, Finset.sum_ite_eq,
      if_pos (Finset.mem_range.mpr hs)]
    have hm := hmass j hj
    by_cases hlj : l = j
    · subst hlj
      rw [el, if_pos rfl]
      dsimp only
      linarith
    · have hcut : (entry (pair_entries t s l) j).1 = (entry t j).1 := by
        by_cases hsj : s = j
        · subst hsj; rw [es]
        · rw [eo j hsj hlj]
      rw [hcut, if_neg hlj]
      linarith
  · -- excess
    dsimp only
    have hcongr : ∀ L : List Nat, (∀ i ∈ L, i ∈ small ∨ i ∈ large) →
        (L.map (fun i => (entry (pair_entries t s l) i).1 - 1)) =
          (L.map (fun i => (entry t i).1 - 1)) := by
      intro L hL
      apply List.map_congr_left
      intro i hi
      rw [eo i (hold i (hL i hi)).1 (hold i (hL i hi)).2]
    have hS := hcongr small (fun i hi => Or.inl hi)
    have hL := hcongr large (fun i hi => Or.inr hi)
    simp only [List.cons_append, List.map_cons, List.map_append, List.sum_cons,
      List.sum_append] at hexc
    rcases hq with ⟨e1, e2, -⟩ | ⟨e1, e2, -⟩
    · subst small2 large2
      simp only [List.map_append, List.sum_append, List.map_cons, List.map_nil,
        List.sum_cons, List.sum_nil, hS, hL, el]
      linarith
    · subst small2 large2
      simp only [List.map_append, List.sum_append, List.map_cons, List.map_nil,
        List.sum_cons, List.sum_nil, hS, hL, el]
      linarith
  · -- nonneg
    intro hq0 j hj
    dsimp only
    have h0 := hnonneg hq0
    by_cases hlj : l = j
    · subst hlj
      rw [el]
      dsimp only
      have h1 := hlarge l (by simp)
      have h2 := h0 s hs
      linarith
    · by_cases hsj : s = j
      · subst hsj; rw [es]; exact h0 s hs
      · rw [eo j hsj hlj]; exact h0 j hj

theorem exact_pairing_loop_inv (n : Nat) (q : Nat → ℚ) :
    ∀ (k : Nat) (st : AliasState), st.small.length + st.large.length = k →
      PairingInv n q st →
      PairingInv n q (pairing_loop st) ∧
        ((pairing_loop st).small = [] ∨ (pairing_loop st).large = []) := by
  intro k
  induction k using Nat.strong_induction_on with
  | _ k ih =>
    intro st hk hinv
    obtain ⟨t, small, large⟩ := st
    cases small with
    | nil =>
      rw [exact_pairing_loop_nil_small]
      exact ⟨hinv, Or.inl rfl⟩
    | cons s small =>
      cases large with
      | nil =>
        rw [exact_pairing_loop_nil_large]
        exact ⟨hinv, Or.inr rfl⟩
      | cons l large =>
        rw [exact_pairing_loop_cons]
        simp only [List.length_cons] at hk
        by_cases hc : (entry (pair_entries t s l) l).1 < 1
        · rw [if_pos hc]
          exact ih (small.length + 1 + large.length) (by omega) _ (by simp)
            (exact_pairing_step_inv n q t s l small large hinv _ _ (Or.inl ⟨rfl, rfl, hc⟩))
        · rw [if_neg hc]
          exact ih (small.length + (large.length + 1)) (by omega) _ (by simp)
            (exact_pairing_step_inv n q t s l small large hinv _ _ (Or.inr ⟨rfl, rfl, hc⟩))

theorem exact_scale_loop_inv (sz : Nat) (ps : List ℚ) :
    ∀ (rest : List ℚ) (i : Nat) (st : AliasState), ps.drop i = rest →
      ScaleInv sz ps i st → ScaleInv sz ps ps.length (scale_loop sz rest i st) := by
  intro rest
  induction rest with
  | nil =>
    intro i st hdrop hinv
    have hle : ps.length ≤ i := List.drop_eq_nil_iff.mp hdrop
    have hi : i = ps.length := le_antisymm hinv.1 hle
    subst hi
    simpa [scale_loop] using hinv
  | cons p rest ih =>
    intro i st hdrop hinv
    obtain ⟨-, hlen, hdone, hnone, hperm, hsmall, hlarge⟩ := hinv
    have hi : i < ps.length := by
      by_contra hge
      rw [List.drop_eq_nil_iff.mpr (by omega)] at hdrop
      cases hdrop
    rw [List.drop_eq_getElem_cons hi] at hdrop
    have hp : ps[i] = p := (List.cons.inj hdrop).1
    have hrest : ps.drop (i + 1) = rest := (List.cons.inj hdrop).2
    have hpi : ps.getD i 0 = p := by
      rw [List.getD_eq_getElem?_getD, List.getElem?_eq_getElem hi, ← hp]
      rfl
    have hself : entry (st.table.set i ((sz : ℚ) * p, (entry st.table i).2)) i =
        ((sz : ℚ) * p, none) := by
      rw [exact_entry_set_self _ _ _ (by omega), hnone i]
    have hother : ∀ j, j ≠ i →
        entry (st.table.set i ((sz : ℚ) * p, (entry st.table i).2)) j = entry st.table j :=
      fun j hj => exact_entry_set_ne _ i j _ (Ne.symm hj)
    have hlt : ∀ j, j ∈ st.small ++ st.large → j ≠ i := by
      intro j hj
      have := List.mem_range.mp (hperm.subset hj)
      omega
    have hbase : (∀ j, j < i + 1 →
          entry (st.table.set i ((sz : ℚ) * p, (entry st.table i).2)) j =
            ((sz : ℚ) * ps.getD j 0, none)) ∧
        (∀ j, (entry (st.table.set i ((sz : ℚ) * p, (entry st.table i).2)) j).2 = none) := by
      constructor
      · intro j hj
        by_cases hji : j = i
        · subst hji; rw [hself, hpi]
        · rw [hother j hji]; exact hdone j (by omega)
      · intro j
        by_cases hji : j = i
        · subst hji; rw [hself]
        · rw [hother j hji]; exact hnone j
    have hrange : (i :: (st.small ++ st.large)).Perm (List.range (i + 1)) := by
      rw [List.range_succ]
      exact (List.Perm.cons i hperm).trans (List.perm_append_singleton i _).symm
    simp only [scale_loop]
    by_cases hc : (entry (st.table.set i ((sz : ℚ) * p, (entry st.table i).2)) i).1 < 1
    · rw [if_pos hc]
      apply ih (i + 1) _ hrest
      refine ⟨by omega, by simpa using hlen, hbase.1, hbase.2, ?_, ?_, ?_⟩
      · refine List.Perm.trans ?_ hrange
        show (st.small ++ [i] ++ st.large).Perm (i :: (st.small ++ st.large))
        rw [List.append_assoc]
        exact List.perm_middle
      · intro j hj
        dsimp only at hj ⊢
        rcases List.mem_append.mp hj with hj | hj
        · rw [hother j (hlt j (by simp [hj]))]; exact hsmall j hj
        · rw [List.mem_singleton.mp hj]; exact hc
      · intro j hj
        dsimp only at hj ⊢
        rw [hother j (hlt j (by simp [hj]))]; exact hlarge j hj
    · rw [if_neg hc]
      apply ih (i + 1) _ hrest
      refine ⟨by omega, by simpa using hlen, hbase.1, hbase.2, ?_, ?_, ?_⟩
      · refine List.Perm.trans ?_ hrange
        show (st.small ++ (st.large ++ [i])).Perm (i :: (st.small ++ st.large))
        rw [← List.append_assoc]
        exact List.perm_append_singleton _ _
      · intro j hj
        dsimp only at hj ⊢
        rw [hother j (hlt j (by simp [hj]))]; exact hsmall j hj
      · intro j hj
        dsimp only at hj ⊢
        rcases List.mem_append.mp hj with hj | hj
        · rw [hother j (hlt j (by simp [hj]))]; exact hlarge j hj
        · rw [List.mem_singleton.mp hj]; exact not_lt.mp hc

theorem exact_entry_replicate (n j : Nat) :
    entry (List.replicate n ((0 : ℚ), (none : Option Nat))) j = (0, none) := by
  simp only [entry, List.getD_eq_getElem?_getD, List.getElem?_replicate]
  split_ifs <;> rfl

theorem list_range_map_sum (f : Nat → ℚ) (n : Nat) :
    ((List.range n).map f).sum = ∑ j in Finset.range n, f j := by
  induction n with
  | zero => simp
  | succ n ih => rw [List.range_succ, List.map_append, List.sum_append, ih,
      Finset.sum_range_succ]; simp

theorem sum_range_getD (ps : List ℚ) :
    ∑ j in Finset.range ps.length, ps.getD j 0 = ps.sum := by
  induction ps with
  | nil => simp
  | cons p ps ih =>
    rw [List.length_cons, Finset.sum_range_succ', List.sum_cons]
    simp only [List.getD_cons_succ, List.getD_cons_zero]
    rw [ih, add_comm]

theorem exact_generate_alias_table_inv (ps : List ℚ) :
    ∃ fin : AliasState, generate_alias_table ps = fin.table ∧
      PairingInv ps.length (fun j => (ps.length : ℚ) * ps.getD j 0) fin ∧
      (fin.small = [] ∨ fin.large = []) := by
  have h0 : ScaleInv ps.length ps 0 ⟨List.replicate ps.length (0, none), [], []⟩ := by
    refine ⟨Nat.zero_le _, by simp, ?_, ?_, by simp, by simp, by simp⟩
    · intro j hj; omega
    · intro j; rw [exact_entry_replicate]
  obtain ⟨-, hlen, hdone, hnone, hperm, hsmall, hlarge⟩ :=
    exact_scale_loop_inv ps.length ps ps 0 _ (by simp) h0
  have hinv : PairingInv ps.length (fun j => (ps.length : ℚ) * ps.getD j 0)
      (scale_loop ps.length ps 0 ⟨List.replicate ps.length (0, none), [], []⟩) := by
    refine ⟨hlen, hperm.nodup_iff.mpr (List.nodup_range _),
      fun i hi => List.mem_range.mp (hperm.subset hi), hsmall, hlarge,
      fun i _ => hnone i, ?_, ?_, ?_, ?_⟩
    · intro i hi hni
      exact absurd (hperm.symm.subset (List.mem_range.mpr hi)) hni
    · intro j hj
      have hz : ∀ i ∈ Finset.range ps.length,
          (if (entry (scale_loop ps.length ps 0
              ⟨List.replicate ps.length (0, none), [], []⟩).table i).2 = some j
            then 1 - (entry (scale_loop ps.length ps 0
              ⟨List.replicate ps.length (0, none), [], []⟩).table i).1 else 0) = 0 := by
        intro i _
        rw [hnone i]
        simp
      rw [Finset.sum_eq_zero hz, hdone j hj]
      simp
    · rw [(hperm.map _).sum_eq, list_range_map_sum, Finset.sum_sub_distrib]
      congr 1
      · apply Finset.sum_congr rfl
        intro j hj
        rw [hdone j (Finset.mem_range.mp hj)]
      · simp
    · intro hq j hj
      rw [hdone j hj]
      exact hq j hj
  obtain ⟨h1, h2⟩ := exact_pairing_loop_inv ps.length _ _ _ rfl hinv
  exact ⟨_, rfl, h1, h2⟩

theorem list_sum_nonneg_le_zero (L : List ℚ) (h0 : ∀ x ∈ L, 0 ≤ x) (hs : L.sum ≤ 0) :
    ∀ x ∈ L, x = 0 := by
  induction L with
  | nil => simp
  | cons a L ih =>
    have ha : 0 ≤ a := h0 a (by simp)
    have hL : 0 ≤ L.sum := List.sum_nonneg (fun x hx => h0 x (by simp [hx]))
    rw [List.sum_cons] at hs
    intro x hx
    rcases List.mem_cons.mp hx with rfl | hx
    · linarith
    · exact ih (fun y hy => h0 y (by simp [hy])) (by linarith) x hx

theorem list_sum_neg (L : List ℚ) (h0 : ∀ x ∈ L, x < 0) (hne : L ≠ []) : L.sum < 0 := by
  induction L with
  | nil => exact absurd rfl hne
  | cons a L ih =>
    rw [List.sum_cons]
    have ha : a < 0 := h0 a (by simp)
    by_cases hL : L = []
    · subst hL; simpa using ha
    · have := ih (fun y hy => h0 y (by simp [hy])) hL
      linarith

/-- At the end of the pairing loop, when the scaled probabilities sum to at most `n`,
an index still queued has cutoff at most `1`, and exactly `1` when they sum to `n`. -/
theorem exact_queued_cutoff (n : Nat) (q : Nat → ℚ) (fin : AliasState)
    (hinv : PairingInv n q fin) (hend : fin.small = [] ∨ fin.large = [])
    (hsum : ∑ j in Finset.range n, q j ≤ n) (i : Nat) (hi : i ∈ fin.small ++ fin.large) :
    (entry fin.table i).1 ≤ 1 ∧
      (∑ j in Finset.range n, q j = n → (entry fin.table i).1 = 1) := by
  have hexc := hinv.excess
  rcases hend with he | he
  · rw [he, List.nil_append] at hexc hi
    have hz := list_sum_nonneg_le_zero (fin.large.map (fun i => (entry fin.table i).1 - 1))
      (by
        intro x hx
        obtain ⟨k, hk, rfl⟩ := List.mem_map.mp hx
        have := hinv.large_ge k hk
        linarith)
      (by rw [hexc]; linarith)
      ((entry fin.table i).1 - 1) (List.mem_map.mpr ⟨i, hi, rfl⟩)
    constructor
    · linarith
    · intro _; linarith
  · rw [he, List.append_nil] at hexc hi
    have hlt := hinv.small_lt i hi
    constructor
    · linarith
    · intro hs
      have hneg := list_sum_neg (fin.small.map (fun i => (entry fin.table i).1 - 1))
        (by
          intro x hx
          obtain ⟨k, hk, rfl⟩ := List.mem_map.mp hx
          have := hinv.small_lt k hk
          linarith)
        (by
          intro hnil
          rw [List.map_eq_nil_iff] at hnil
          rw [hnil] at hi
          simp at hi)
      rw [hexc, hs] at hneg
      simp at hneg


theorem getD_nonneg (ps : List ℚ) (h0 : ∀ p ∈ ps, 0 ≤ p) (j : Nat) : 0 ≤ ps.getD j 0 := by
  induction ps generalizing j with
  | nil => simp
  | cons p ps ih =>
    cases j with
    | zero => simpa using h0 p (by simp)
    | succ j => simpa using ih (fun x hx => h0 x (by simp [hx])) j

theorem scaled_sum (ps : List ℚ) :
    ∑ j in Finset.range ps.length, (ps.length : ℚ) * ps.getD j 0 =
      (ps.length : ℚ) * ps.sum := by
  rw [← Finset.mul_sum, sum_range_getD]

theorem exact_generate_alias_table_length (ps : List ℚ) :
    (generate_alias_table ps).length = ps.length := by
  obtain ⟨fin, htab, hinv, -⟩ := exact_generate_alias_table_inv ps
  rw [htab]
  exact hinv.len

theorem exact_generate_alias_table_cutoffs (ps : List ℚ) (h0 : ∀ p ∈ ps, 0 ≤ p)
    (hsum : ps.sum ≤ 1) (j : Nat) (hj : j < ps.length) :
    0 ≤ (entry (generate_alias_table ps) j).1 ∧ (entry (generate_alias_table ps) j).1 ≤ 1 := by
  obtain ⟨fin, htab, hinv, hend⟩ := exact_generate_alias_table_inv ps
  rw [htab]
  have hn : (0 : ℚ) ≤ (ps.length : ℚ) := Nat.cast_nonneg _
  have hq : ∑ j in Finset.range ps.length, (ps.length : ℚ) * ps.getD j 0 ≤ ps.length := by
    rw [scaled_sum]
    nlinarith
  constructor
  · exact hinv.nonneg (fun k _ => mul_nonneg hn (getD_nonneg ps h0 k)) j hj
  · by_cases hmem : j ∈ fin.small ++ fin.large
    · exact (exact_queued_cutoff _ _ fin hinv hend hq j hmem).1
    · obtain ⟨l, -, -, -, hlt⟩ := hinv.done_some j hj hmem
      exact le_of_lt hlt

theorem exact_generate_alias_table_mass (ps : List ℚ) (hsum : ps.sum = 1) (j : Nat)
    (hj : j < ps.length) : draw_mass (generate_alias_table ps) j = ps.getD j 0 := by
  obtain ⟨fin, htab, hinv, hend⟩ := exact_generate_alias_table_inv ps
  rw [htab]
  have hq : ∑ j in Finset.range ps.length, (ps.length : ℚ) * ps.getD j 0 = ps.length := by
    rw [scaled_sum, hsum, mul_one]
  have hn : (ps.length : ℚ) ≠ 0 := by
    have : 0 < ps.length := by omega
    exact_mod_cast this.ne'
  have hkeep : (if (entry fin.table j).2 = none then 1 else (entry fin.table j).1) =
      (entry fin.table j).1 := by
    by_cases hnone : (entry fin.table j).2 = none
    · rw [if_pos hnone]
      have hmem : j ∈ fin.small ++ fin.large := by
        by_contra hmem
        obtain ⟨l, hl, -⟩ := hinv.done_some j hj hmem
        rw [hl] at hnone
        cases hnone
      exact ((exact_queued_cutoff _ _ fin hinv hend (le_of_eq hq) j hmem).2 hq).symm
    · rw [if_neg hnone]
  unfold draw_mass
  rw [hkeep, hinv.len, hinv.mass j hj]
  field_simp

/-- What the first loop leaves behind in exact arithmetic: the invariant of the pairing
loop, every index in exactly one queue, and the scaled probabilities in the table. -/
theorem exact_scale_loop_establishes (ps : List ℚ) :
    PairingInv ps.length (fun j => (ps.length : ℚ) * ps.getD j 0)
        (scale_loop ps.length ps 0 ⟨List.replicate ps.length (0, none), [], []⟩) ∧
      (scale_loop ps.length ps 0 ⟨List.replicate ps.length (0, none), [], []⟩).small.length +
        (scale_loop ps.length ps 0 ⟨List.replicate ps.length (0, none), [], []⟩).large.length =
          ps.length ∧
      ∀ j, j < ps.length →
        entry (scale_loop ps.length ps 0 ⟨List.replicate ps.length (0, none), [], []⟩).table j =
          ((ps.length : ℚ) * ps.getD j 0, none) := by
  have h0 : ScaleInv ps.length ps 0 ⟨List.replicate ps.length (0, none), [], []⟩ := by
    refine ⟨Nat.zero_le _, by simp, ?_, ?_, by simp, by simp, by simp⟩
    · intro j hj; omega
    · intro j; rw [exact_entry_replicate]
  obtain ⟨-, hlen, hdone, hnone, hperm, hsmall, hlarge⟩ :=
    exact_scale_loop_inv ps.length ps ps 0 _ (by simp) h0
  refine ⟨?_, ?_, hdone⟩
  · refine ⟨hlen, hperm.nodup_iff.mpr (List.nodup_range _),
      fun i hi => List.mem_range.mp (hperm.subset hi), hsmall, hlarge,
      fun i _ => hnone i, ?_, ?_, ?_, ?_⟩
    · intro i hi hni
      exact absurd (hperm.symm.subset (List.mem_range.mpr hi)) hni
    · intro j hj
      have hz : ∀ i ∈ Finset.range ps.length,
          (if (entry (scale_loop ps.length ps 0
              ⟨List.replicate ps.length (0, none), [], []⟩).table i).2 = some j
            then 1 - (entry (scale_loop ps.length ps 0
              ⟨List.replicate ps.length (0, none), [], []⟩).table i).1 else 0) = 0 := by
        intro i _
        rw [hnone i]
        simp
      rw [Finset.sum_eq_zero hz, hdone j hj]
      simp
    · rw [(hperm.map _).sum_eq, list_range_map_sum, Finset.sum_sub_distrib]
      congr 1
      · apply Finset.sum_congr rfl
        intro j hj
        rw [hdone j (Finset.mem_range.mp hj)]
      · simp
    · intro hq j hj
      rw [hdone j hj]
      exact hq j hj
  · have := hperm.length_eq
    simpa using this

end rational

/-! ## Alias sampler: inputs on which no operation rounds -/

theorem dyadic_nat (m t : Nat) (hm : m < 2 ^ 53) (ht : t ≤ 1074) :
    Double.dyadic ((m : ℚ) / 2 ^ t) :=
  ⟨(m : Int), t, by simpa using hm, ht, by push_cast; rfl⟩

theorem of_nat_exact (n : Nat) (hn : n < 2 ^ 53) : Double.of_nat n = Double.finite n := by
  unfold Double.of_nat
  apply round_dyadic
  have := dyadic_nat n 0 hn (by decide)
  simpa using this

theorem add_exact (x y : ℚ) (h : Double.dyadic (x + y)) :
    Double.add (Double.finite x) (Double.finite y) = Double.finite (x + y) :=
  round_dyadic _ h

theorem sub_exact (x y : ℚ) (h : Double.dyadic (x - y)) :
    Double.sub (Double.finite x) (Double.finite y) = Double.finite (x - y) := by
  rw [sub_eq_add_neg] at h ⊢
  exact round_dyadic _ h

theorem mul_exact (x y : ℚ) (h : Double.dyadic (x * y)) :
    Double.mul (Double.finite x) (Double.finite y) = Double.finite (x * y) :=
  round_dyadic _ h

theorem div_exact (x y : ℚ) (hy : y ≠ 0) (h : Double.dyadic (x / y)) :
    Double.div (Double.finite x) (Double.finite y) = Double.finite (x / y) := by
  have e : Double.div (Double.finite x) (Double.finite y) =
      if y = 0 then (if x = 0 then Double.nan else if 0 < x then Double.pos_inf
        else Double.neg_inf)
      else Double.round (x / y) := rfl
  rw [e, if_neg hy]
  exact round_dyadic _ h

theorem lt_one_finite (x : ℚ) :
    Double.lt (Double.finite x) Double.one = decide (x < 1) := rfl

theorem entry_of_exact (t : List rational.AliasEntry) (i : Nat) :
    entry (of_exact t) i =
      (Double.finite (rational.entry t i).1, (rational.entry t i).2) := by
  unfold entry rational.entry of_exact
  rw [List.getD_eq_getElem?_getD, List.getD_eq_getElem?_getD, List.getElem?_map]
  cases t[i]? with
  | none => rfl
  | some e => rfl

theorem of_exact_set (t : List rational.AliasEntry) (i : Nat) (e : rational.AliasEntry) :
    (of_exact t).set i (Double.finite e.1, e.2) = of_exact (t.set i e) := by
  unfold of_exact
  rw [List.map_set]

theorem of_exact_length (t : List rational.AliasEntry) : (of_exact t).length = t.length := by
  simp [of_exact]

theorem pair_entries_of_exact (t : List rational.AliasEntry) (s l : Nat)
    (h1 : Double.dyadic (1 - (rational.entry (t.set s ((rational.entry t s).1, some l)) s).1))
    (h2 : Double.dyadic ((rational.entry (t.set s ((rational.entry t s).1, some l)) l).1 -
        (1 - (rational.entry (t.set s ((rational.entry t s).1, some l)) s).1))) :
    pair_entries (of_exact t) s l = of_exact (rational.pair_entries t s l) := by
  have e1 : (of_exact t).set s ((entry (of_exact t) s).1, some l) =
      of_exact (t.set s ((rational.entry t s).1, some l)) := by
    rw [entry_of_exact]
    exact of_exact_set t s ((rational.entry t s).1, some l)
  unfold pair_entries rational.pair_entries
  dsimp only
  rw [e1, entry_of_exact, entry_of_exact]
  dsimp only
  rw [show Double.one = Double.finite 1 from rfl, sub_exact _ _ h1, sub_exact _ _ h2]
  exact of_exact_set _ l (_, _)

/-- On a table whose cutoffs are multiples of `2 ^ (-a)` between `0` and `n`, with
`n * 2 ^ a < 2 ^ 53`, no operation of the pairing loop rounds: the loop of the code
computes the table of the exact loop. -/
theorem pairing_loop_of_exact (n a : Nat) (hfit : n * 2 ^ a < 2 ^ 53) (q : Nat → ℚ) :
    ∀ (m : Nat) (st : rational.AliasState), st.small.length + st.large.length = m →
      rational.PairingInv n q st → rational.on_grid n a st.table →
      ∀ bound, m ≤ bound + 1 →
        pairing_loop bound (state_of_exact st) =
          state_of_exact (rational.pairing_loop st) := by
  intro m
  induction m using Nat.strong_induction_on with
  | _ m ih =>
    intro st hm hinv hgrid bound hb
    obtain ⟨t, small, large⟩ := st
    cases small with
    | nil =>
      rw [rational.exact_pairing_loop_nil_small]
      exact pairing_loop_none _ _ (pairing_step_nil_small _ _)
    | cons s small =>
      cases large with
      | nil =>
        rw [rational.exact_pairing_loop_nil_large]
        exact pairing_loop_none _ _ (pairing_step_nil_large _ _)
      | cons l large =>
        simp only [List.length_cons] at hm
        obtain ⟨b, rfl⟩ : ∃ b, bound = b + 1 := ⟨bound - 1, by omega⟩
        have hs : s < n := hinv.bound s (by simp)
        have hl : l < n := hinv.bound l (by simp)
        have hlen : t.length = n := hinv.len
        have hsl : s ≠ l := by
          have := hinv.nodup
          simp only [List.cons_append, List.nodup_cons, List.mem_append, List.mem_cons,
            not_or] at this
          exact this.1.2.1
        have hcs : (rational.entry t s).1 < 1 := hinv.small_lt s (by simp)
        have hcl : 1 ≤ (rational.entry t l).1 := hinv.large_ge l (by simp)
        obtain ⟨ms, hms, hes⟩ := hgrid s
        obtain ⟨ml, hml, hel⟩ := hgrid l
        dsimp only at hes hel
        have hpow : (0 : ℚ) < 2 ^ a := by positivity
        have hms2 : ms < 2 ^ a := by
          rw [hes, div_lt_one hpow] at hcs
          exact_mod_cast hcs
        have hml2 : 2 ^ a ≤ ml := by
          rw [hel, le_div_iff₀ hpow, one_mul] at hcl
          exact_mod_cast hcl
        have ha : a ≤ 1074 := by
          by_contra hbig
          have h1 : 2 ^ 53 ≤ 2 ^ a := Nat.pow_le_pow_right (by decide) (by omega)
          have h2 : 2 ^ a ≤ n * 2 ^ a := Nat.le_mul_of_pos_left _ (by omega)
          omega
        have hpn : 2 ^ a ≤ n * 2 ^ a := Nat.le_mul_of_pos_left _ (by omega)
        have et1s : rational.entry (t.set s ((rational.entry t s).1, some l)) s =
            ((rational.entry t s).1, some l) :=
          rational.exact_entry_set_self _ _ _ (by omega)
        have et1l : rational.entry (t.set s ((rational.entry t s).1, some l)) l =
            rational.entry t l :=
          rational.exact_entry_set_ne _ s l _ hsl
        have v1 : 1 - (rational.entry t s).1 = ((2 ^ a - ms : Nat) : ℚ) / 2 ^ a := by
          rw [hes, Nat.cast_sub (le_of_lt hms2)]
          push_cast
          field_simp
        have v2 : (rational.entry t l).1 - (1 - (rational.entry t s).1) =
            ((ml + ms - 2 ^ a : Nat) : ℚ) / 2 ^ a := by
          rw [hes, hel, Nat.cast_sub (by omega)]
          push_cast
          field_simp
          ring
        have hpe : pair_entries (of_exact t) s l = of_exact (rational.pair_entries t s l) := by
          apply pair_entries_of_exact
          · rw [et1s]
            dsimp only
            rw [v1]
            exact dyadic_nat _ _ (by omega) ha
          · rw [et1s, et1l]
            dsimp only
            rw [v2]
            exact dyadic_nat _ _ (by omega) ha
        have hgrid2 : rational.on_grid n a (rational.pair_entries t s l) := by
          intro j
          by_cases hjl : j = l
          · subst hjl
            rw [rational.exact_pair_entries_large t s j (by omega) (by omega) hsl]
            dsimp only
            exact ⟨ml + ms - 2 ^ a, by omega, v2⟩
          · by_cases hjs : j = s
            · subst hjs
              rw [rational.exact_pair_entries_small t j l (by omega) hsl]
              exact ⟨ms, hms, hes⟩
            · rw [rational.exact_pair_entries_other t s l j (Ne.symm hjs) (Ne.symm hjl)]
              exact hgrid j
        have htest : Double.lt (entry (pair_entries (of_exact t) s l) l).1 Double.one =
            decide ((rational.entry (rational.pair_entries t s l) l).1 < 1) := by
          rw [hpe, entry_of_exact]
          rfl
        rw [rational.exact_pairing_loop_cons]
        by_cases hc : (rational.entry (rational.pair_entries t s l) l).1 < 1
        · have hstep : pairing_step (state_of_exact ⟨t, s :: small, l :: large⟩) =
              some (state_of_exact ⟨rational.pair_entries t s l, small ++ [l], large⟩) := by
            show pairing_step ⟨of_exact t, s :: small, l :: large⟩ = _
            rw [pairing_step_cons, htest, if_pos (by simpa using hc), hpe]
            rfl
          rw [if_pos hc, pairing_loop_some _ _ _ hstep]
          exact ih (m - 1) (by omega) _
            (by simp only [List.length_append, List.length_singleton]; omega)
            (rational.exact_pairing_step_inv n q t s l small large hinv _ _
              (Or.inl ⟨rfl, rfl, hc⟩)) hgrid2 b (by omega)
        · have hstep : pairing_step (state_of_exact ⟨t, s :: small, l :: large⟩) =
              some (state_of_exact ⟨rational.pair_entries t s l, small, large ++ [l]⟩) := by
            show pairing_step ⟨of_exact t, s :: small, l :: large⟩ = _
            rw [pairing_step_cons, htest, if_neg (by simpa using hc), hpe]
            rfl
          rw [if_neg hc, pairing_loop_some _ _ _ hstep]
          exact ih (m - 1) (by omega) _
            (by simp only [List.length_append, List.length_singleton]; omega)
            (rational.exact_pairing_step_inv n q t s l small large hinv _ _
              (Or.inr ⟨rfl, rfl, hc⟩)) hgrid2 b (by omega)

/-- When the scaling by `sz` does not round, the first loop of the code computes the
state of the exact loop. -/
theorem scale_loop_of_exact (sz : Nat) (hsz : Double.of_nat sz = Double.finite sz) :
    ∀ (qs : List ℚ) (i : Nat) (st : rational.AliasState),
      (∀ q ∈ qs, Double.dyadic ((sz : ℚ) * q)) →
      scale_loop sz (qs.map Double.finite) i (state_of_exact st) =
        state_of_exact (rational.scale_loop sz qs i st) := by
  intro qs
  induction qs with
  | nil =>
    intro i st _
    rfl
  | cons q qs ih =>
    intro i st hd
    have hmul : Double.mul (Double.of_nat sz) (Double.finite q) =
        Double.finite ((sz : ℚ) * q) := by
      rw [hsz]
      exact mul_exact _ _ (hd q (by simp))
    have hset : (state_of_exact st).table.set i
          (Double.mul (Double.of_nat sz) (Double.finite q),
            (entry (state_of_exact st).table i).2) =
        of_exact (st.table.set i ((sz : ℚ) * q, (rational.entry st.table i).2)) := by
      rw [hmul]
      show (of_exact st.table).set i (_, (entry (of_exact st.table) i).2) = _
      rw [entry_of_exact]
      exact of_exact_set _ i (_, _)
    rw [List.map_cons, scale_loop, rational.scale_loop]
    rw [hset, entry_of_exact, lt_one_finite]
    by_cases hc : (rational.entry
        (st.table.set i ((sz : ℚ) * q, (rational.entry st.table i).2)) i).1 < 1
    · rw [if_pos (by simpa using hc), if_pos hc]
      exact ih (i + 1) ⟨_, st.small ++ [i], st.large⟩ (fun q hq => hd q (by simp [hq]))
    · rw [if_neg (by simpa using hc), if_neg hc]
      exact ih (i + 1) ⟨_, st.small, st.large ++ [i]⟩ (fun q hq => hd q (by simp [hq]))

theorem getD_grid (qs : List ℚ) (a : Nat)
    (hgrid : ∀ q ∈ qs, ∃ m : Nat, m ≤ 2 ^ a ∧ q = (m : ℚ) / 2 ^ a) (j : Nat) :
    ∃ m : Nat, m ≤ 2 ^ a ∧ qs.getD j 0 = (m : ℚ) / 2 ^ a := by
  by_cases hj : j < qs.length
  · rw [List.getD_eq_getElem?_getD, List.getElem?_eq_getElem hj]
    exact hgrid _ (List.getElem_mem hj)
  · rw [List.getD_eq_getElem?_getD, List.getElem?_eq_none (by omega)]
    exact ⟨0, Nat.zero_le _, by simp⟩

/-- For probabilities that are multiples of `2 ^ (-a)`, at most `1` each, with
`n * 2 ^ a < 2 ^ 53`, no operation of `generate_alias_table` rounds: the table of the
code is the table of the exact computation. -/
theorem generate_alias_table_of_exact (qs : List ℚ) (a : Nat)
    (hgrid : ∀ q ∈ qs, ∃ m : Nat, m ≤ 2 ^ a ∧ q = (m : ℚ) / 2 ^ a)
    (hfit : qs.length * 2 ^ a < 2 ^ 53) :
    generate_alias_table (qs.map Double.finite) =
      of_exact (rational.generate_alias_table qs) := by
  by_cases h0 : qs = []
  · subst h0
    have h1 := rational.exact_generate_alias_table_length []
    rw [List.length_nil, List.length_eq_zero] at h1
    rw [h1]
    rfl
  have hpos : 0 < qs.length := List.length_pos.mpr h0
  have hn : qs.length < 2 ^ 53 := by
    have : qs.length ≤ qs.length * 2 ^ a := Nat.le_mul_of_pos_right _ (Nat.pow_pos (by decide))
    omega
  have ha : a ≤ 1074 := by
    by_contra hbig
    have h1 : 2 ^ 53 ≤ 2 ^ a := Nat.pow_le_pow_right (by decide) (by omega)
    have h2 : 2 ^ a ≤ qs.length * 2 ^ a := Nat.le_mul_of_pos_left _ hpos
    omega
  have hdy : ∀ q ∈ qs, Double.dyadic ((qs.length : ℚ) * q) := by
    intro q hq
    obtain ⟨m, hm, rfl⟩ := hgrid q hq
    have hle : qs.length * m ≤ qs.length * 2 ^ a := Nat.mul_le_mul_left _ hm
    have := dyadic_nat (qs.length * m) a (by omega) ha
    rw [Nat.cast_mul, mul_div_assoc] at this
    exact this
  obtain ⟨hinv, hsize, hent⟩ := rational.exact_scale_loop_establishes qs
  have hgrid0 : rational.on_grid qs.length a
      (rational.scale_loop qs.length qs 0
        ⟨List.replicate qs.length (0, none), [], []⟩).table := by
    intro j
    by_cases hj : j < qs.length
    · rw [hent j hj]
      obtain ⟨m, hm, hq⟩ := getD_grid qs a hgrid j
      refine ⟨qs.length * m, Nat.mul_le_mul_left _ hm, ?_⟩
      dsimp only
      rw [hq, Nat.cast_mul, mul_div_assoc]
    · refine ⟨0, Nat.zero_le _, ?_⟩
      unfold rational.entry
      rw [List.getD_eq_getElem?_getD, List.getElem?_eq_none (by rw [hinv.len]; omega)]
      simp
  have hinit : (⟨List.replicate qs.length (Double.zero, none), [], []⟩ : AliasState) =
      state_of_exact ⟨List.replicate qs.length (0, none), [], []⟩ := by
    simp [state_of_exact, of_exact, Double.zero]
  unfold generate_alias_table rational.generate_alias_table
  rw [List.length_map, hinit,
    scale_loop_of_exact qs.length (of_nat_exact qs.length hn) qs 0 _ hdy,
    pairing_loop_of_exact qs.length a hfit _ qs.length _ hsize hinv hgrid0 qs.length
      (by omega)]
  rfl

theorem accumulate_grid (ms : List Nat) (g t : Nat) (ht : t ≤ 1074) :
    ∀ acc : Nat, acc + g * ms.sum < 2 ^ 53 →
      (ms.map (fun m : Nat => Double.finite ((g : ℚ) * m / 2 ^ t))).foldl
          (fun acc x => Double.add acc x) (Double.finite ((acc : ℚ) / 2 ^ t)) =
        Double.finite (((acc + g * ms.sum : Nat) : ℚ) / 2 ^ t) := by
  induction ms with
  | nil =>
    intro acc _
    simp
  | cons m ms ih =>
    intro acc hacc
    rw [List.sum_cons, Nat.mul_add] at hacc
    have hadd : Double.add (Double.finite ((acc : ℚ) / 2 ^ t))
        (Double.finite ((g : ℚ) * m / 2 ^ t)) =
          Double.finite (((acc + g * m : Nat) : ℚ) / 2 ^ t) := by
      have e : (acc : ℚ) / 2 ^ t + (g : ℚ) * m / 2 ^ t = ((acc + g * m : Nat) : ℚ) / 2 ^ t := by
        push_cast
        ring
      rw [add_exact _ _ (by rw [e]; exact dyadic_nat _ _ (by omega) ht), e]
    rw [List.map_cons, List.foldl_cons, hadd, ih (acc + g * m) (by omega), List.sum_cons,
      Nat.mul_add, Nat.add_assoc]

/-- The sum of weights `g * m / 2 ^ t` whose numerators stay below `2 ^ 53`: no
addition rounds. -/
theorem accumulate_weights (ms : List Nat) (g t : Nat) (ht : t ≤ 1074)
    (hfit : g * ms.sum < 2 ^ 53) :
    accumulate (ms.map (fun m : Nat => Double.finite ((g : ℚ) * m / 2 ^ t))) Double.zero =
      Double.finite ((g : ℚ) * ms.sum / 2 ^ t) := by
  have h := accumulate_grid ms g t ht 0 (by omega)
  rw [Nat.zero_add, Nat.cast_zero, zero_div] at h
  unfold accumulate
  rw [show Double.zero = Double.finite 0 from rfl, h]
  push_cast
  rfl

theorem deviation_exact (x : ℚ) (h : Double.dyadic (1 - x)) :
    Double.gt (Double.fabs (Double.sub Double.one (Double.finite x))) epsilon =
      decide ((1 : ℚ) / 2 ^ 52 < |1 - x|) := by
  rw [show Double.one = Double.finite 1 from rfl, sub_exact _ _ h]
  rfl

theorem pow_split (a t : Nat) (h : t ≤ a) : (2 : ℚ) ^ a = 2 ^ (a - t) * 2 ^ t := by
  rw [← pow_add]
  congr 1
  omega

theorem dyadic_one_sub (g a t : Nat) (hg : g * 2 ^ a < 2 ^ 53) (ht : t ≤ a + 51) :
    Double.dyadic (1 - (g : ℚ) * 2 ^ a / 2 ^ t) := by
  have hpa : 0 < 2 ^ a := Nat.pow_pos (by decide)
  by_cases hta : t ≤ a
  · refine ⟨1 - ((g * 2 ^ (a - t) : Nat) : Int), 0, ?_, by decide, ?_⟩
    · have h1 : g * 2 ^ (a - t) ≤ g * 2 ^ a :=
        Nat.mul_le_mul_left _ (Nat.pow_le_pow_right (by decide) (by omega))
      omega
    · rw [pow_split a t hta]
      push_cast
      field_simp
      ring
  · have hgl : g < 2 ^ 53 := by
      have : g ≤ g * 2 ^ a := Nat.le_mul_of_pos_right _ hpa
      omega
    have h51 : 2 ^ (t - a) ≤ 2 ^ 51 := Nat.pow_le_pow_right (by decide) (by omega)
    obtain ⟨P, hP⟩ : ∃ P : Nat, P = 2 ^ (t - a) := ⟨_, rfl⟩
    rw [← hP] at h51
    refine ⟨(P : Int) - (g : Int), t - a, ?_, by omega, ?_⟩
    · omega
    · rw [pow_split t a (by omega), hP]
      push_cast
      field_simp
      ring

theorem deviation_large (g a t : Nat) (ht : t ≤ a + 51)
    (hS : (g : ℚ) * 2 ^ a / 2 ^ t ≠ 1) :
    (1 : ℚ) / 2 ^ 52 < |1 - (g : ℚ) * 2 ^ a / 2 ^ t| := by
  by_cases hta : t ≤ a
  · have e : (g : ℚ) * 2 ^ a / 2 ^ t = ((g * 2 ^ (a - t) : Nat) : ℚ) := by
      rw [pow_split a t hta]
      push_cast
      field_simp
      ring
    rw [e] at hS ⊢
    have hne : g * 2 ^ (a - t) ≠ 1 := by
      intro h
      rw [h] at hS
      exact hS (by norm_num)
    by_cases h0 : g * 2 ^ (a - t) = 0
    · rw [h0]
      norm_num
    · have h2 : (2 : ℚ) ≤ ((g * 2 ^ (a - t) : Nat) : ℚ) := by
        have : 2 ≤ g * 2 ^ (a - t) := by omega
        exact_mod_cast this
      rw [abs_sub_comm, abs_of_nonneg (by linarith)]
      have : (1 : ℚ) / 2 ^ 52 < 1 := by norm_num
      linarith
  · have hpos : (0 : ℚ) < 2 ^ (t - a) := by positivity
    have e : (g : ℚ) * 2 ^ a / 2 ^ t = (g : ℚ) / 2 ^ (t - a) := by
      rw [pow_split t a (by omega)]
      field_simp
      ring
    rw [e] at hS ⊢
    have hne : (g : Int) ≠ ((2 ^ (t - a) : Nat) : Int) := by
      intro h
      apply hS
      have h2 : (g : ℚ) = ((2 ^ (t - a) : Nat) : ℚ) := by exact_mod_cast h
      rw [h2]
      push_cast
      exact div_self (ne_of_gt hpos)
    have habs : (1 : ℚ) ≤ |(2 : ℚ) ^ (t - a) - g| := by
      have h3 : (1 : Int) ≤ |((2 ^ (t - a) : Nat) : Int) - (g : Int)| := by
        have : ((2 ^ (t - a) : Nat) : Int) - (g : Int) ≠ 0 := by omega
        exact Int.one_le_abs this
      have h4 : ((1 : Int) : ℚ) ≤ ((|((2 ^ (t - a) : Nat) : Int) - (g : Int)| : Int) : ℚ) := by
        exact_mod_cast h3
      push_cast at h4
      exact h4
    have e2 : 1 - (g : ℚ) / 2 ^ (t - a) = ((2 : ℚ) ^ (t - a) - g) / 2 ^ (t - a) := by
      field_simp
    rw [e2, abs_div, abs_of_pos hpos]
    have h51 : (2 : ℚ) ^ (t - a) ≤ 2 ^ 51 := pow_le_pow_right₀ (by norm_num) (by omega)
    rw [lt_div_iff₀ hpos]
    have : (1 : ℚ) / 2 ^ 52 * 2 ^ (t - a) ≤ 1 / 2 ^ 52 * 2 ^ 51 :=
      mul_le_mul_of_nonneg_left h51 (by norm_num)
    have h5 : (1 : ℚ) / 2 ^ 52 * 2 ^ 51 < 1 := by norm_num
    linarith

theorem mem_le_sum (ms : List Nat) (m : Nat) (h : m ∈ ms) : m ≤ ms.sum := by
  induction ms with
  | nil => simp at h
  | cons x xs ih =>
    rw [List.sum_cons]
    rcases List.mem_cons.mp h with rfl | h
    · omega
    · have := ih h
      omega

/-- The normalization of weights `g * m / 2 ^ t` whose numerators `m` sum to `2 ^ a`:
whatever `g` and `t` are, the normalized weights are `m / 2 ^ a`, and no operation
rounds. -/
theorem reprods_weights (ms : List Nat) (a g t : Nat) (hsum : ms.sum = 2 ^ a)
    (hg0 : 0 < g) (hg : g * 2 ^ a < 2 ^ 53) (ht : t ≤ a + 51) :
    reprods (ms.map (fun m : Nat => Double.finite ((g : ℚ) * m / 2 ^ t))) =
      ms.map (fun m : Nat => Double.finite ((m : ℚ) / 2 ^ a)) := by
  have hpa : 0 < 2 ^ a := Nat.pow_pos (by decide)
  have ha : a ≤ 52 := by
    by_contra hbig
    have h1 : 2 ^ 53 ≤ 2 ^ a := Nat.pow_le_pow_right (by decide) (by omega)
    have h2 : 2 ^ a ≤ g * 2 ^ a := Nat.le_mul_of_pos_left _ hg0
    omega
  have hacc := accumulate_weights ms g t (by omega) (by rw [hsum]; exact hg)
  rw [hsum, Nat.cast_pow, Nat.cast_ofNat] at hacc
  have hgq : (0 : ℚ) < g := by exact_mod_cast hg0
  unfold reprods
  rw [hacc, deviation_exact _ (dyadic_one_sub g a t hg ht)]
  by_cases hS : (g : ℚ) * 2 ^ a / 2 ^ t = 1
  · rw [hS, sub_self, abs_zero, if_neg (by norm_num)]
    apply List.map_congr_left
    intro m _
    congr 1
    have h2 : (g : ℚ) * 2 ^ a = 2 ^ t := by
      rw [div_eq_one_iff_eq (by positivity)] at hS
      exact hS
    rw [← h2]
    field_simp
    ring
  · rw [if_pos (by simpa using deviation_large g a t ht hS), List.map_map]
    apply List.map_congr_left
    intro m hm
    have hm2 : m ≤ 2 ^ a := hsum ▸ mem_le_sum ms m hm
    have hlt : (2 : Nat) ^ a < 2 ^ 53 := by
      have : 2 ^ a ≤ g * 2 ^ a := Nat.le_mul_of_pos_left _ hg0
      omega
    have e : (g : ℚ) * m / 2 ^ t / ((g : ℚ) * 2 ^ a / 2 ^ t) = (m : ℚ) / 2 ^ a := by
      field_simp
      ring
    simp only [Function.comp]
    rw [div_exact _ _ (by positivity) (by rw [e]; exact dyadic_nat _ _ (by omega) (by omega)), e]

theorem re_sum_prod_weights (ms : List Nat) (a g t : Nat) (hsum : ms.sum = 2 ^ a)
    (hg0 : 0 < g) (hg : g * 2 ^ a < 2 ^ 53) (ht : t ≤ a + 51) :
    re_sum_prod (ms.map (fun m : Nat => Double.finite ((g : ℚ) * m / 2 ^ t))) =
      Double.one := by
  have hlt : (2 : Nat) ^ a < 2 ^ 53 := by
    have : 2 ^ a ≤ g * 2 ^ a := Nat.le_mul_of_pos_left _ hg0
    omega
  have ha : a ≤ 52 := by
    by_contra hbig
    have h1 : 2 ^ 53 ≤ 2 ^ a := Nat.pow_le_pow_right (by decide) (by omega)
    omega
  have h1 := accumulate_weights ms 1 a (by omega) (by rw [hsum]; omega)
  simp only [Nat.cast_one, one_mul] at h1
  unfold re_sum_prod
  rw [reprods_weights ms a g t hsum hg0 hg ht, h1, hsum,
    Nat.cast_pow, Nat.cast_ofNat, div_self (by positivity)]
  rfl

theorem check_one :
    Double.ge (Double.fabs (Double.sub Double.one Double.one)) epsilon = false := by
  decide!

theorem cutoff_of_exact (t : List rational.AliasEntry) (i : Nat) :
    cutoff (of_exact t) i = (rational.entry t i).1 := by
  unfold cutoff
  rw [entry_of_exact]
  rfl

theorem draw_mass_of_exact (t : List rational.AliasEntry) (j : Nat) :
    draw_mass (of_exact t) j = rational.draw_mass t j := by
  unfold draw_mass rational.draw_mass
  rw [of_exact_length, cutoff_of_exact]
  congr 2
  · rw [entry_of_exact]
  · apply Finset.sum_congr rfl
    intro i _
    rw [cutoff_of_exact, entry_of_exact]

theorem sum_map_div_pow (ms : List Nat) (a : Nat) :
    (ms.map (fun m : Nat => (m : ℚ) / 2 ^ a)).sum = (ms.sum : ℚ) / 2 ^ a := by
  induction ms with
  | nil => simp
  | cons m ms ih =>
    rw [List.map_cons, List.sum_cons, ih, List.sum_cons]
    push_cast
    ring

theorem getD_map_div_pow (ms : List Nat) (a j : Nat) :
    (ms.map (fun m : Nat => (m : ℚ) / 2 ^ a)).getD j 0 = (ms.getD j 0 : ℚ) / 2 ^ a := by
  induction ms generalizing j with
  | nil => simp
  | cons m ms ih =>
    cases j with
    | zero => simp
    | succ j => simpa using ih j

/-- The construction from weights `g * m / 2 ^ t` whose numerators `m` sum to `2 ^ a`,
with `n * 2 ^ a < 2 ^ 53`: it succeeds, and its table is the table of the exact
computation on the probabilities `m / 2 ^ a`. -/
theorem weight_faster_alias_weights {α : Type} (vs : List α) (ms : List Nat) (a g t : Nat)
    (hlen : vs.length = ms.length) (hne : ms ≠ []) (hsum : ms.sum = 2 ^ a)
    (hfit : ms.length * 2 ^ a < 2 ^ 53) (hg0 : 0 < g) (hg : g * 2 ^ a < 2 ^ 53)
    (ht : t ≤ a + 51) :
    weight_faster_alias vs (ms.map (fun m : Nat => Double.finite ((g : ℚ) * m / 2 ^ t))) =
      Outcome.ok ⟨vs,
        of_exact (rational.generate_alias_table (ms.map (fun m : Nat => (m : ℚ) / 2 ^ a))),
        (ms.length + 2 ^ 64 - 1) % 2 ^ 64⟩ := by
  have hcheck : Double.ge (Double.fabs (Double.sub Double.one (re_sum_prod
      (ms.map (fun m : Nat => Double.finite ((g : ℚ) * m / 2 ^ t)))))) epsilon = false := by
    rw [re_sum_prod_weights ms a g t hsum hg0 hg ht]
    exact check_one
  have hok := (weight_faster_alias_cases vs
    (ms.map (fun m : Nat => Double.finite ((g : ℚ) * m / 2 ^ t)))
    (by simpa using hlen) (by simpa using hne)).2 hcheck
  rw [hok, reprods_weights ms a g t hsum hg0 hg ht, List.length_map]
  have hmap : ms.map (fun m : Nat => Double.finite ((m : ℚ) / 2 ^ a)) =
      (ms.map (fun m : Nat => (m : ℚ) / 2 ^ a)).map Double.finite := by
    rw [List.map_map]
    rfl
  rw [hmap, generate_alias_table_of_exact _ a ?_ (by simpa using hfit)]
  intro q hq
  obtain ⟨m, hm, rfl⟩ := List.mem_map.mp hq
  exact ⟨m, hsum ▸ mem_le_sum ms m hm, rfl⟩

/-- C1 (as amended): for weights `g * m[i] / 2 ^ t`, with natural numbers `m[i]` whose
sum is a power of two `2 ^ a` and a natural number `g ≥ 1`, where `n * 2 ^ a < 2 ^ 53`,
`g * 2 ^ a < 2 ^ 53` and `t ≤ a + 51`, no operation of the construction rounds: it
succeeds, and the table reproduces `p[j] = weight[j] / Σ weight` exactly under the draw
rule, every cutoff lying in `[0, 1]`. -/
theorem alias_table_reproduces_weights {α : Type} (vs : List α) (ms : List Nat)
    (a g t : Nat) (hlen : vs.length = ms.length) (hne : ms ≠ []) (hsum : ms.sum = 2 ^ a)
    (hfit : ms.length * 2 ^ a < 2 ^ 53) (hg0 : 0 < g) (hg : g * 2 ^ a < 2 ^ 53)
    (ht : t ≤ a + 51) :
    ∃ s, weight_faster_alias vs
          (ms.map (fun m : Nat => Double.finite ((g : ℚ) * m / 2 ^ t))) = Outcome.ok s ∧
      s._alias.length = ms.length ∧
      ∀ j, j < ms.length →
        draw_mass s._alias j =
            ((g : ℚ) * (ms.getD j 0 : ℚ) / 2 ^ t) / ((g : ℚ) * (ms.sum : ℚ) / 2 ^ t) ∧
          ∃ c : ℚ, (entry s._alias j).1 = Double.finite c ∧ 0 ≤ c ∧ c ≤ 1 := by
  have hqsum : (ms.map (fun m : Nat => (m : ℚ) / 2 ^ a)).sum = 1 := by
    rw [sum_map_div_pow, hsum]
    push_cast
    exact div_self (by positivity)
  have hqnn : ∀ q ∈ ms.map (fun m : Nat => (m : ℚ) / 2 ^ a), 0 ≤ q := by
    intro q hq
    obtain ⟨m, -, rfl⟩ := List.mem_map.mp hq
    positivity
  have hgq : (0 : ℚ) < g := by exact_mod_cast hg0
  refine ⟨_, weight_faster_alias_weights vs ms a g t hlen hne hsum hfit hg0 hg ht, ?_, ?_⟩
  · show (of_exact _).length = _
    rw [of_exact_length, rational.exact_generate_alias_table_length, List.length_map]
  · intro j hj
    have hj2 : j < (ms.map (fun m : Nat => (m : ℚ) / 2 ^ a)).length := by simpa using hj
    constructor
    · show draw_mass (of_exact _) j = _
      rw [draw_mass_of_exact, rational.exact_generate_alias_table_mass _ hqsum j hj2,
        getD_map_div_pow, hsum]
      push_cast
      field_simp
      ring
    · refine ⟨(rational.entry (rational.generate_alias_table
        (ms.map (fun m : Nat => (m : ℚ) / 2 ^ a))) j).1, ?_, ?_⟩
      · show (entry (of_exact _) j).1 = _
        rw [entry_of_exact]
      · exact rational.exact_generate_alias_table_cutoffs _ hqnn (le_of_eq hqsum) j hj2

/-- Witness of C1 (as amended) on the weights `[3, 9]`, that is `m = [1, 3]`,
`g = 3`. -/
theorem alias_table_reproduces_weights_witness :
    ([10, 20].length = [1, 3].length ∧ [1, 3] ≠ [] ∧ [1, 3].sum = 2 ^ 2 ∧
      [1, 3].length * 2 ^ 2 < 2 ^ 53 ∧ 0 < 3 ∧ 3 * 2 ^ 2 < 2 ^ 53 ∧ 0 ≤ 2 + 51) ∧
    ∃ s, weight_faster_alias [10, 20]
          ([1, 3].map (fun m : Nat => Double.finite (((3 : Nat) : ℚ) * m / 2 ^ 0))) =
        Outcome.ok s ∧
      s._alias.length = [1, 3].length ∧
      ∀ j, j < [1, 3].length →
        draw_mass s._alias j =
            (((3 : Nat) : ℚ) * (([1, 3] : List Nat).getD j 0 : ℚ) / 2 ^ 0) /
              (((3 : Nat) : ℚ) * (([1, 3] : List Nat).sum : ℚ) / 2 ^ 0) ∧
          ∃ c : ℚ, (entry s._alias j).1 = Double.finite c ∧ 0 ≤ c ∧ c ≤ 1 :=
  ⟨⟨by decide, by decide, by decide, by decide, by decide, by decide, by decide⟩,
    alias_table_reproduces_weights [10, 20] [1, 3] 2 3 0 (by decide) (by decide) (by decide)
      (by decide) (by decide) (by decide) (by decide)⟩

/-- C1 fails as stated: from the weights `[1, 2, 2]` the construction succeeds, the
quotients by the sum `5` and the cutoffs are rounded, and the draw rule gives index `2`
a mass other than `p[2] = 2 / 5`. -/
theorem alias_table_rounded :
    ∃ s : AliasSampler Nat,
      weight_faster_alias [10, 20, 30]
        [Double.finite 1, Double.finite 2, Double.finite 2] = Outcome.ok s ∧
      draw_mass s._alias 2 ≠ (2 : ℚ) / (1 + 2 + 2) := by
  refine ⟨⟨[10, 20, 30], generate_alias_table
    (reprods [Double.finite 1, Double.finite 2, Double.finite 2]), 2⟩, ?_, ?_⟩
  · decide!
  · decide!

/-- C18 (as amended): for natural numbers `m[i]` whose sum is a power of two `2 ^ a`,
with `n * 2 ^ a < 2 ^ 53`, all weight sequences `g * m[i] / 2 ^ t` (`g ≥ 1` natural,
`g * 2 ^ a < 2 ^ 53`, `t ≤ a + 51`) build the same table: from the weights
`g1 * m[i] / 2 ^ t1` and from their multiples `g2 * m[i] / 2 ^ t2` both constructions
succeed and they store the same cutoffs and alias indices. -/
theorem alias_scale_invariant {α : Type} (vs : List α) (ms : List Nat)
    (a g1 t1 g2 t2 : Nat) (hlen : vs.length = ms.length) (hne : ms ≠ [])
    (hsum : ms.sum = 2 ^ a) (hfit : ms.length * 2 ^ a < 2 ^ 53)
    (hg1 : 0 < g1 ∧ g1 * 2 ^ a < 2 ^ 53 ∧ t1 ≤ a + 51)
    (hg2 : 0 < g2 ∧ g2 * 2 ^ a < 2 ^ 53 ∧ t2 ≤ a + 51) :
    ∃ s1 s2, weight_faster_alias vs
          (ms.map (fun m : Nat => Double.finite ((g1 : ℚ) * m / 2 ^ t1))) = Outcome.ok s1 ∧
      weight_faster_alias vs
          (ms.map (fun m : Nat => Double.finite ((g2 : ℚ) * m / 2 ^ t2))) = Outcome.ok s2 ∧
      s1._alias = s2._alias :=
  ⟨_, _, weight_faster_alias_weights vs ms a g1 t1 hlen hne hsum hfit hg1.1 hg1.2.1 hg1.2.2,
    weight_faster_alias_weights vs ms a g2 t2 hlen hne hsum hfit hg2.1 hg2.2.1 hg2.2.2, rfl⟩

/-- Witness of C18 (as amended): the integer weights `[3, 9]` and their probabilities
`[1/4, 3/4]`. -/
theorem alias_scale_invariant_witness :
    ([10, 20].length = [1, 3].length ∧ [1, 3] ≠ [] ∧ [1, 3].sum = 2 ^ 2 ∧
      [1, 3].length * 2 ^ 2 < 2 ^ 53 ∧ (0 < 3 ∧ 3 * 2 ^ 2 < 2 ^ 53 ∧ 0 ≤ 2 + 51) ∧
      (0 < 1 ∧ 1 * 2 ^ 2 < 2 ^ 53 ∧ 2 ≤ 2 + 51)) ∧
    ∃ s1 s2, weight_faster_alias [10, 20]
          ([1, 3].map (fun m : Nat => Double.finite (((3 : Nat) : ℚ) * m / 2 ^ 0))) =
        Outcome.ok s1 ∧
      weight_faster_alias [10, 20]
          ([1, 3].map (fun m : Nat => Double.finite (((1 : Nat) : ℚ) * m / 2 ^ 2))) =
        Outcome.ok s2 ∧
      s1._alias = s2._alias :=
  ⟨⟨by decide, by decide, by decide, by decide, by decide, by decide⟩,
    alias_scale_invariant [10, 20] [1, 3] 2 3 0 1 2 (by decide) (by decide) (by decide)
      (by decide) (by decide) (by decide)⟩

/-- C18 fails as stated: the weights `[1/2, 1/2 - 2^-53]` sum to `1 - 2^-53` and are
used without normalization, their doubles `[1, 1 - 2^-52]` are normalized; the first
table has the cutoff `1 - 2^-52` in entry `0`, the second has the cutoff `1`. -/
theorem alias_scale_changes_table :
    ∃ s1 s2 : AliasSampler Nat,
      weight_faster_alias [10, 20]
        [Double.finite (1 / 2), Double.finite (1 / 2 - 1 / 2 ^ 53)] = Outcome.ok s1 ∧
      weight_faster_alias [10, 20]
        [Double.finite (2 * (1 / 2)), Double.finite (2 * (1 / 2 - 1 / 2 ^ 53))] =
          Outcome.ok s2 ∧
      s1._alias = [(Double.finite (1 - 1 / 2 ^ 52), none),
        (Double.finite (1 - 1 / 2 ^ 52), some 0)] ∧
      s2._alias = [(Double.finite 1, none), (Double.finite (1 - 1 / 2 ^ 53), some 0)] ∧
      s1._alias ≠ s2._alias := by
  refine ⟨⟨[10, 20], [(Double.finite (1 - 1 / 2 ^ 52), none),
      (Double.finite (1 - 1 / 2 ^ 52), some 0)], 1⟩,
    ⟨[10, 20], [(Double.finite 1, none), (Double.finite (1 - 1 / 2 ^ 53), some 0)], 1⟩,
    ?_, ?_, rfl, rfl, ?_⟩
  · decide!
  · decide!
  · decide!

/-- Scaling by a factor that is no power of two: the weights `[1, 2, 3, 4]` are
accepted, while from the same weights divided by `17` the rounded quotients do not
re-sum to `1.0` within epsilon and the construction throws. -/
theorem alias_scale_throws :
    (∃ s : AliasSampler Nat, weight_faster_alias [1, 2, 3, 4]
        [Double.finite 1, Double.finite 2, Double.finite 3, Double.finite 4] =
          Outcome.ok s) ∧
      weight_faster_alias [1, 2, 3, 4]
          ([Double.finite 1, Double.finite 2, Double.finite 3, Double.finite 4].map
            (fun w => Double.div w (Double.finite 17))) = Outcome.runtime_error := by
  refine ⟨⟨⟨[1, 2, 3, 4], generate_alias_table (reprods
    [Double.finite 1, Double.finite 2, Double.finite 3, Double.finite 4]), 3⟩, ?_⟩, ?_⟩
  · decide!
  · decide!

/-- The pair of weight sequences of the commented-out test of the source: the integer
weights `[1, …, 9]` and the quotients `k / 55.0` build the same table, with the alias
indices `[4, 5, 6, 7, 8, 7, 8, none, 7]`. -/
theorem alias_scale_test_weights :
    ∃ s1 s2 : AliasSampler Nat,
      weight_faster_alias [1, 2, 3, 4, 5, 6, 7, 8, 9]
        [Double.finite 1, Double.finite 2, Double.finite 3, Double.finite 4, Double.finite 5,
          Double.finite 6, Double.finite 7, Double.finite 8, Double.finite 9] =
        Outcome.ok s1 ∧
      weight_faster_alias [1, 2, 3, 4, 5, 6, 7, 8, 9]
        ([Double.finite 1, Double.finite 2, Double.finite 3, Double.finite 4, Double.finite 5,
          Double.finite 6, Double.finite 7, Double.finite 8, Double.finite 9].map
            (fun w => Double.div w (Double.finite 55))) = Outcome.ok s2 ∧
      s1._alias = s2._alias ∧
      s1._alias.map (fun e => e.2) =
        [some 4, some 5, some 6, some 7, some 8, some 7, some 8, none, some 7] := by
  refine ⟨⟨[1, 2, 3, 4, 5, 6, 7, 8, 9], generate_alias_table (reprods
      [Double.finite 1, Double.finite 2, Double.finite 3, Double.finite 4, Double.finite 5,
        Double.finite 6, Double.finite 7, Double.finite 8, Double.finite 9]), 8⟩,
    ⟨[1, 2, 3, 4, 5, 6, 7, 8, 9], generate_alias_table (reprods
      ([Double.finite 1, Double.finite 2, Double.finite 3, Double.finite 4, Double.finite 5,
        Double.finite 6, Double.finite 7, Double.finite 8, Double.finite 9].map
          (fun w => Double.div w (Double.finite 55)))), 8⟩, ?_, ?_, ?_, ?_⟩
  · decide!
  · decide!
  · decide!
  · decide!

/-! ## Alias sampler: the sign of the cutoffs -/

theorem round_nonneg (q : ℚ) (h : 0 ≤ q) :
    Double.le Double.zero (Double.round q) = true := by
  by_cases hq : q = 0
  · subst hq
    decide!
  · have hpos : 0 < q := lt_of_le_of_ne h (Ne.symm hq)
    unfold Double.round
    rw [if_neg hq]
    split_ifs with h1
    · rfl
    · show decide ((0 : ℚ) ≤ _) = true
      simpa using scale2_nonneg _ _

theorem round_le_one (q : ℚ) (h0 : 0 ≤ q) (h1 : q ≤ 1) :
    ∃ r : ℚ, 0 ≤ r ∧ r ≤ 1 ∧ Double.round q = Double.finite r := by
  by_cases hq : q = 0
  · subst hq
    exact ⟨0, le_refl _, by norm_num, rfl⟩
  · have hpos : 0 < q := lt_of_le_of_ne h0 (Ne.symm hq)
    have hnum : 0 < q.num := Rat.num_pos.mpr hpos
    have ha : 0 < q.num.natAbs := Int.natAbs_pos.mpr (ne_of_gt hnum)
    have hab : q.num.natAbs ≤ q.den := by
      have h2 : (q.num : ℚ) / q.den ≤ 1 := by rw [Rat.num_div_den]; exact h1
      rw [div_le_one (by exact_mod_cast q.den_pos)] at h2
      have h3 : q.num ≤ (q.den : Int) := by exact_mod_cast h2
      omega
    have he : Double.binade q.num.natAbs q.den ≤ 0 := by
      have := binade_le q.num.natAbs q.den
      have := bit_length_mono _ _ ha hab
      omega
    obtain ⟨j, hj, hk⟩ : ∃ j : Nat, 0 < j ∧
        Double.ulp_exponent q.num.natAbs q.den = -(j : Int) := by
      refine ⟨(52 - max (Double.binade q.num.natAbs q.den) (-1022)).toNat, by omega, ?_⟩
      unfold Double.ulp_exponent
      omega
    have hs : Double.scale2 (Double.significand q.num.natAbs q.den
          (Double.ulp_exponent q.num.natAbs q.den))
        (Double.ulp_exponent q.num.natAbs q.den) =
        (Double.round_half_even (q.num.natAbs * 2 ^ j) q.den : ℚ) / 2 ^ j := by
      rw [hk, significand_neg _ _ _ hj, scale2_neg _ _ hj]
    have hle : Double.round_half_even (q.num.natAbs * 2 ^ j) q.den ≤ 2 ^ j :=
      round_half_even_le _ _ _ q.den_pos (by
        rw [Nat.mul_comm]
        exact Nat.mul_le_mul_left _ hab)
    have hx1 : (Double.round_half_even (q.num.natAbs * 2 ^ j) q.den : ℚ) / 2 ^ j ≤ 1 := by
      rw [div_le_one (by positivity)]
      exact_mod_cast hle
    have hx0 : (0 : ℚ) ≤ (Double.round_half_even (q.num.natAbs * 2 ^ j) q.den : ℚ) / 2 ^ j := by
      positivity
    refine ⟨_, hx0, hx1, ?_⟩
    rw [round_of_scale2 q hq _ hs (le_trans hx1 (one_le_pow₀ (by norm_num))), if_pos hpos]

/-- The doubles that are not negative and not NaN are the finite ones that denote a
non-negative number, and `+inf`. -/
theorem le_zero_cases (x : Double) (h : Double.le Double.zero x = true) :
    (∃ r : ℚ, 0 ≤ r ∧ x = Double.finite r) ∨ x = Double.pos_inf := by
  cases x with
  | finite r =>
    left
    refine ⟨r, ?_, rfl⟩
    have : decide ((0 : ℚ) ≤ r) = true := h
    simpa using this
  | pos_inf => exact Or.inr rfl
  | neg_inf => cases h
  | nan => cases h

theorem add_nonneg_double (x y : Double) (hx : Double.le Double.zero x = true)
    (hy : Double.le Double.zero y = true) :
    Double.le Double.zero (Double.add x y) = true := by
  rcases le_zero_cases x hx with ⟨r, hr, rfl⟩ | rfl <;>
    rcases le_zero_cases y hy with ⟨u, hu, rfl⟩ | rfl
  · exact round_nonneg _ (add_nonneg hr hu)
  · rfl
  · rfl
  · rfl

theorem accumulate_nonneg (xs : List Double) (init : Double)
    (hinit : Double.le Double.zero init = true)
    (hxs : ∀ x ∈ xs, Double.le Double.zero x = true) :
    Double.le Double.zero (accumulate xs init) = true := by
  induction xs generalizing init with
  | nil => exact hinit
  | cons x xs ih =>
    unfold accumulate
    rw [List.foldl_cons]
    exact ih _ (add_nonneg_double _ _ hinit (hxs x (by simp)))
      (fun y hy => hxs y (by simp [hy]))

theorem reprods_nonneg (ws : List Double)
    (hws : ∀ w ∈ ws, ∃ x : ℚ, 0 ≤ x ∧ w = Double.finite x)
    (hsum : Double.lt Double.zero (accumulate ws Double.zero) = true) :
    ∀ p ∈ reprods ws, Double.le Double.zero p = true := by
  have hnn : ∀ w ∈ ws, Double.le Double.zero w = true := by
    intro w hw
    obtain ⟨x, hx, rfl⟩ := hws w hw
    show decide ((0 : ℚ) ≤ x) = true
    simpa using hx
  unfold reprods
  split_ifs with hc
  · intro p hp
    obtain ⟨w, hw, rfl⟩ := List.mem_map.mp hp
    obtain ⟨x, hx, rfl⟩ := hws w hw
    have hS := accumulate_nonneg ws Double.zero (by decide!) hnn
    rcases le_zero_cases _ hS with ⟨r, hr, hSr⟩ | hSinf
    · rw [hSr] at hsum ⊢
      have hr2 : (0 : ℚ) < r := by
        have : decide ((0 : ℚ) < r) = true := hsum
        simpa using this
      have e : Double.div (Double.finite x) (Double.finite r) = Double.round (x / r) := by
        show (if r = 0 then _ else Double.round (x / r)) = _
        rw [if_neg (ne_of_gt hr2)]
      rw [e]
      exact round_nonneg _ (div_nonneg hx hr)
    · rw [hSinf]
      show Double.le Double.zero (Double.finite 0) = true
      decide!
  · exact hnn

theorem pairing_step_some (st st1 : AliasState) (h : pairing_step st = some st1) :
    ∃ t s l small large, st = ⟨t, s :: small, l :: large⟩ ∧
      ((st1 = ⟨pair_entries t s l, small ++ [l], large⟩ ∧
          Double.lt (entry (pair_entries t s l) l).1 Double.one = true) ∨
        (st1 = ⟨pair_entries t s l, small, large ++ [l]⟩ ∧
          ¬ Double.lt (entry (pair_entries t s l) l).1 Double.one = true)) := by
  obtain ⟨t, small, large⟩ := st
  cases small with
  | nil =>
    rw [pairing_step_nil_small] at h
    cases h
  | cons s small =>
    cases large with
    | nil =>
      rw [pairing_step_nil_large] at h
      cases h
    | cons l large =>
      refine ⟨t, s, l, small, large, rfl, ?_⟩
      rw [pairing_step_cons] at h
      split_ifs at h with hc
      · exact Or.inl ⟨(Option.some.inj h).symm, hc⟩
      · exact Or.inr ⟨(Option.some.inj h).symm, hc⟩

theorem sub_one_small (x : Double) (h0 : Double.le Double.zero x = true)
    (h1 : Double.lt x Double.one = true) :
    ∃ d : ℚ, 0 ≤ d ∧ d ≤ 1 ∧ Double.sub Double.one x = Double.finite d := by
  rcases le_zero_cases x h0 with ⟨r, hr, rfl⟩ | rfl
  · have hr1 : r < 1 := by
      have : decide (r < 1) = true := h1
      simpa using this
    have e : Double.sub Double.one (Double.finite r) = Double.round (1 + -r) := rfl
    rw [e]
    exact round_le_one _ (by linarith) (by linarith)
  · cases h1

theorem sub_large (y : Double) (d : ℚ) (h0 : Double.le Double.zero y = true)
    (h1 : Double.lt y Double.one = false) (hd : d ≤ 1) :
    Double.le Double.zero (Double.sub y (Double.finite d)) = true := by
  rcases le_zero_cases y h0 with ⟨r, hr, rfl⟩ | rfl
  · have hr1 : 1 ≤ r := by
      have : decide (r < 1) = false := h1
      simpa using this
    have e : Double.sub (Double.finite r) (Double.finite d) = Double.round (r + -d) := rfl
    rw [e]
    exact round_nonneg _ (by linarith)
  · rfl

/-- One iteration of the pairing loop leaves no negative cutoff and no NaN behind,
when there was none before. -/
theorem pair_entries_nonneg (n : Nat) (t : List AliasEntry) (s l : Nat)
    (small large : List Nat) (hinv : QueueInv n ⟨t, s :: small, l :: large⟩)
    (hnn : ∀ j, Double.le Double.zero (entry t j).1 = true) :
    ∀ j, Double.le Double.zero (entry (pair_entries t s l) j).1 = true := by
  have hs : s < n := hinv.bound s (by simp)
  have hl : l < n := hinv.bound l (by simp)
  have hlen : t.length = n := hinv.len
  have hsl : s ≠ l := by
    have := hinv.nodup
    simp only [List.cons_append, List.nodup_cons, List.mem_append, List.mem_cons,
      not_or] at this
    exact this.1.2.1
  have hcs : Double.lt (entry t s).1 Double.one = true := hinv.small_lt s (by simp)
  have hcl : Double.lt (entry t l).1 Double.one = false := hinv.large_ge l (by simp)
  intro j
  by_cases hjl : j = l
  · subst hjl
    rw [pair_entries_large t s j (by omega) (by omega) hsl]
    obtain ⟨d, -, hd1, hd⟩ := sub_one_small _ (hnn s) hcs
    dsimp only
    rw [hd]
    exact sub_large _ d (hnn j) hcl hd1
  · by_cases hjs : j = s
    · subst hjs
      rw [pair_entries_small t j l (by omega) hsl]
      exact hnn j
    · rw [pair_entries_other t s l j (Ne.symm hjs) (Ne.symm hjl)]
      exact hnn j

theorem pairing_loop_nonneg (n : Nat) :
    ∀ (bound : Nat) (st : AliasState), QueueInv n st →
      (∀ j, Double.le Double.zero (entry st.table j).1 = true) →
      ∀ j, Double.le Double.zero (entry (pairing_loop bound st).table j).1 = true := by
  intro bound
  induction bound with
  | zero =>
    intro st _ hnn
    exact hnn
  | succ b ih =>
    intro st hinv hnn
    cases hstep : pairing_step st with
    | none =>
      rw [pairing_loop_none _ _ hstep]
      exact hnn
    | some st1 =>
      rw [pairing_loop_some _ _ _ hstep]
      obtain ⟨t, s, l, small, large, rfl, hcase⟩ := pairing_step_some st st1 hstep
      have hnn1 := pair_entries_nonneg n t s l small large hinv hnn
      rcases hcase with ⟨rfl, hc⟩ | ⟨rfl, hc⟩
      · exact ih _ (pairing_step_inv n t s l small large hinv _ _ (Or.inl ⟨rfl, rfl, hc⟩))
          hnn1
      · exact ih _ (pairing_step_inv n t s l small large hinv _ _ (Or.inr ⟨rfl, rfl, hc⟩))
          hnn1

theorem mul_nat_nonneg (n : Nat) (hn0 : 0 < n) (hn : n < 2 ^ 53) (p : Double)
    (hp : Double.le Double.zero p = true) :
    Double.le Double.zero (Double.mul (Double.of_nat n) p) = true := by
  rw [of_nat_exact n hn]
  rcases le_zero_cases p hp with ⟨r, hr, rfl⟩ | rfl
  · have e : Double.mul (Double.finite n) (Double.finite r) = Double.round ((n : ℚ) * r) := rfl
    rw [e]
    exact round_nonneg _ (mul_nonneg (Nat.cast_nonneg _) hr)
  · have e : Double.mul (Double.finite (n : ℚ)) Double.pos_inf =
        if (n : ℚ) = 0 then Double.nan else if 0 < (n : ℚ) then Double.pos_inf
          else Double.neg_inf := rfl
    have hq : (0 : ℚ) < n := by exact_mod_cast hn0
    rw [e, if_neg (ne_of_gt hq), if_pos hq]
    rfl

/-- From probabilities that are not negative and not NaN, fewer than `2 ^ 53` of them,
`generate_alias_table` builds a table without a negative cutoff and without NaN. -/
theorem generate_alias_table_nonneg (ps : List Double)
    (hps : ∀ p ∈ ps, Double.le Double.zero p = true) (hn : ps.length < 2 ^ 53) :
    ∀ e ∈ generate_alias_table ps, Double.le Double.zero e.1 = true := by
  obtain ⟨hinv, -, hent⟩ := scale_loop_establishes ps
  have hnn0 : ∀ j, Double.le Double.zero (entry (scale_loop ps.length ps 0
      ⟨List.replicate ps.length (Double.zero, none), [], []⟩).table j).1 = true := by
    intro j
    by_cases hj : j < ps.length
    · rw [hent j hj]
      apply mul_nat_nonneg _ (by omega) hn
      rw [List.getD_eq_getElem?_getD, List.getElem?_eq_getElem hj]
      exact hps _ (List.getElem_mem hj)
    · unfold entry
      rw [List.getD_eq_getElem?_getD, List.getElem?_eq_none (by rw [hinv.len]; omega)]
      decide!
  intro e he
  obtain ⟨i, -, rfl⟩ := entry_of_mem _ _ he
  exact pairing_loop_nonneg ps.length ps.length _ hinv hnn0 i

/-- C7 (as amended): in the table of a constructed `weight_faster_alias` every entry
that has an alias index has its cutoff below `1.0`; and when the weights are finite
and not negative, fewer than `2 ^ 53`, with a positive sum, no cutoff is negative or
NaN.  An entry without alias index can have a cutoff above `1.0`. -/
theorem alias_cutoff_unit_interval {α : Type} (vs : List α) (ws : List Double)
    (s : AliasSampler α) (h : weight_faster_alias vs ws = Outcome.ok s) :
    (∀ e ∈ s._alias, e.2 ≠ none → Double.lt e.1 Double.one = true) ∧
      ((∀ w ∈ ws, ∃ x : ℚ, 0 ≤ x ∧ w = Double.finite x) →
        Double.lt Double.zero (accumulate ws Double.zero) = true → ws.length < 2 ^ 53 →
        ∀ e ∈ s._alias, Double.le Double.zero e.1 = true) := by
  obtain ⟨-, -, -, rfl⟩ := weight_faster_alias_ok vs ws s h
  refine ⟨fun e he hal => generate_alias_table_aliased _ e he hal, ?_⟩
  intro hws hsum hn e he
  have hlen : (reprods ws).length = ws.length := by
    unfold reprods
    split_ifs
    · simp
    · rfl
  exact generate_alias_table_nonneg _ (reprods_nonneg ws hws hsum) (by omega) e he

/-- Witness of C7 (as amended) on the weights `[1, 2, 2]`. -/
theorem alias_cutoff_unit_interval_witness :
    (weight_faster_alias [10, 20, 30]
        [Double.finite 1, Double.finite 2, Double.finite 2] =
      Outcome.ok ⟨[10, 20, 30], generate_alias_table
        (reprods [Double.finite 1, Double.finite 2, Double.finite 2]), 2⟩) ∧
    ((∀ e ∈ (⟨[10, 20, 30], generate_alias_table
          (reprods [Double.finite 1, Double.finite 2, Double.finite 2]), 2⟩ :
          AliasSampler Nat)._alias,
        e.2 ≠ none → Double.lt e.1 Double.one = true) ∧
      ((∀ w ∈ [Double.finite 1, Double.finite 2, Double.finite 2],
          ∃ x : ℚ, 0 ≤ x ∧ w = Double.finite x) →
        Double.lt Double.zero
          (accumulate [Double.finite 1, Double.finite 2, Double.finite 2] Double.zero) =
            true →
        [Double.finite 1, Double.finite 2, Double.finite 2].length < 2 ^ 53 →
        ∀ e ∈ (⟨[10, 20, 30], generate_alias_table
          (reprods [Double.finite 1, Double.finite 2, Double.finite 2]), 2⟩ :
          AliasSampler Nat)._alias,
        Double.le Double.zero e.1 = true)) :=
  ⟨by decide!,
    alias_cutoff_unit_interval [10, 20, 30]
      [Double.finite 1, Double.finite 2, Double.finite 2] _ (by decide!)⟩

end inlay.random
